import Mathlib

/-!
Community detection engine of `src/inetrface/app.js`.

A shallow embedding of the algorithmic core of `app.js`: adjacency construction,
the simplified Louvain pass, the simplified Girvan–Newman loop, connected
components, edge betweenness, modularity and the per-community metrics.

Modelling conventions.

* Node identifiers are JavaScript strings (`String`).
* A plain JavaScript object used as a dictionary is an association list holding
  its own properties in insertion order (`JsObj`).  Reading a missing key gives
  `undefined` (`none`).  Enumeration (`Object.keys`, `Object.entries`,
  `Object.values`) lists the keys that are array indices first, in ascending
  numeric order, and then the remaining keys in insertion order
  (`objectEntries`).  The identifier `__proto__` is outside the model.
* A JavaScript `Set` is the list of its members in insertion order.
* The comparison `m1 < m2` of two strings is the lexicographic order of their
  UTF-16 code units (`jsStringLt`).
* A `TypeError` (calling `.push` on, or iterating, `undefined`) is `none`.
* Counters and array lengths are `Nat`.  A JavaScript Number that is not a
  counter is the rational it denotes, and every arithmetic operator of
  `calculateModularity` rounds its real result to binary64 (`round64`).  The
  density of `displayAnalysis` is the exact quotient, of which the page shows
  two decimals.
* `while` loops whose trip count is not fixed by the source take a fuel
  argument; running out of fuel is `none`, and the theorems show that the fuel
  supplied by the top-level functions is always enough.
-/

namespace CommunityDetection

/-- Node identifier: the `id` of an entry of `graphData.nodes`. -/
abbrev NodeId := String

/-- An entry `{ from, to }` of `graphData.edges` (`from` and `to`
are reserved words in Lean). -/
structure Edge where
  from_ : NodeId
  to_ : NodeId
deriving DecidableEq, Repr

/-- A JavaScript object used as a dictionary: own properties in insertion order. -/
abbrev JsObj (α : Type) := List (String × α)

/-- Property read `o[k]`; `none` stands for `undefined`. -/
def objGet {α : Type} : JsObj α → String → Option α
  | [], _ => none
  | (k, v) :: t, x => if k = x then some v else objGet t x

/-- Property write `o[k] = v`: an existing key keeps its position, a new key is
appended. -/
def objSet {α : Type} : JsObj α → String → α → JsObj α
  | [], x, v => [(x, v)]
  | (k, w) :: t, x, v => if k = x then (k, v) :: t else (k, w) :: objSet t x v

/-- Value of a string of decimal digits, `none` if some character is not a digit. -/
def digitsValue : List Char → Nat → Option Nat
  | [], acc => some acc
  | c :: cs, acc =>
    if c.isDigit then digitsValue cs (acc * 10 + (c.toNat - 48)) else none

/-- The array index denoted by a property key, if the key is the canonical
decimal form of an integer below `2^32 - 1`. -/
def arrayIndex? (s : String) : Option Nat :=
  match s.data with
  | [] => none
  | [c] => if c.isDigit then some (c.toNat - 48) else none
  | c :: cs =>
    if c = '0' then none
    else
      match digitsValue (c :: cs) 0 with
      | some n => if n < 2 ^ 32 - 1 then some n else none
      | none => none

/-- Numeric rank of a key among the array-index keys. -/
def indexRank {α : Type} (e : String × α) : Nat := (arrayIndex? e.1).getD 0

/-- Own-property enumeration order (`Object.entries`): array-index keys in
ascending numeric order, then the other keys in insertion order. -/
def objectEntries {α : Type} (o : JsObj α) : List (String × α) :=
  List.insertionSort (fun a b => indexRank a ≤ indexRank b)
      (o.filter (fun e => (arrayIndex? e.1).isSome))
    ++ o.filter (fun e => !(arrayIndex? e.1).isSome)

/-- `Object.keys(o)`. -/
def objectKeys {α : Type} (o : JsObj α) : List String :=
  (objectEntries o).map Prod.fst

/-- `adj[e.from].push(e.to_)`: `none` when `adj[k]` is `undefined`. -/
def objPush (adj : JsObj (List NodeId)) (k : NodeId) (v : NodeId) :
    Option (JsObj (List NodeId)) :=
  match objGet adj k with
  | none => none
  | some l => some (objSet adj k (l ++ [v]))

/-- The `edges.forEach(e => { adj[e.from].push(e.to_); adj[e.to_].push(e.from) })`
loop shared by `buildAdjacencyList`, `findConnectedComponents` and
`calculateEdgeBetweenness`. -/
def addEdges : JsObj (List NodeId) → List Edge → Option (JsObj (List NodeId))
  | adj, [] => some adj
  | adj, e :: es =>
    match objPush adj e.from_ e.to_ with
    | none => none
    | some adj1 =>
      match objPush adj1 e.to_ e.from_ with
      | none => none
      | some adj2 => addEdges adj2 es

/-- The `nodes.forEach(n => adj[n] = [])` loop. -/
def initAdj (nodes : List NodeId) : JsObj (List NodeId) :=
  nodes.foldl (fun adj n => objSet adj n []) []

/-- `buildAdjacencyList()` of `app.js`, with `graphData` passed explicitly. -/
def buildAdjacencyList (nodes : List NodeId) (edges : List Edge) :
    Option (JsObj (List NodeId)) :=
  addEdges (initAdj nodes) edges

/-- The list iterated by `for (const neighbor of adj[node])`.  Every identifier
read this way by the algorithms is a key of a successfully built adjacency
object, so the empty default is never used. -/
def neighbors (adj : JsObj (List NodeId)) (node : NodeId) : List NodeId :=
  (objGet adj node).getD []

/-- `Set.prototype.add`: insertion order, no repetition. -/
def setAdd {α : Type} [DecidableEq α] (s : List α) (x : α) : List α :=
  if x ∈ s then s else s ++ [x]

/-- `calculateModularityGain(node, targetComm, partition, adjacency)`. -/
def calculateModularityGain (node : NodeId) (targetComm : Nat)
    (partition : JsObj Nat) (adjacency : JsObj (List NodeId)) : Nat :=
  (neighbors adjacency node).foldl
    (fun gain neighbor =>
      if objGet partition neighbor = some targetComm then gain + 1 else gain) 0

/-- The community identifier `partition[node]`.  The nodes read are the keys of
the adjacency object and their neighbours, all of them keys of `partition`. -/
def commOf (partition : JsObj Nat) (node : NodeId) : Nat :=
  (objGet partition node).getD 0

/-- The body of `for (const node of nodes)` in `louvainAlgorithm`: returns the
updated partition and whether the node was moved. -/
def louvainNode (adjacency : JsObj (List NodeId)) (partition : JsObj Nat)
    (node : NodeId) : JsObj Nat × Bool :=
  let currentComm := commOf partition node
  let neighborComms :=
    (neighbors adjacency node).foldl
      (fun s neighbor => setAdd s (commOf partition neighbor)) []
  let best :=
    neighborComms.foldl
      (fun (b : Nat × Nat) comm =>
        if comm = currentComm then b
        else
          let gain := calculateModularityGain node comm partition adjacency
          if gain > b.2 then (comm, gain) else b)
      (currentComm, 0)
  if best.1 ≠ currentComm then (objSet partition node best.1, true)
  else (partition, false)

/-- One execution of the `while` body of `louvainAlgorithm`: a full pass over
the nodes, returning the partition and the `improved` flag. -/
def louvainPass (adjacency : JsObj (List NodeId)) (nodes : List NodeId)
    (partition : JsObj Nat) : JsObj Nat × Bool :=
  nodes.foldl
    (fun (st : JsObj Nat × Bool) node =>
      let r := louvainNode adjacency st.1 node
      (r.1, st.2 || r.2))
    (partition, false)

/-- The loop `while (improved && iterations < maxIterations)`; the first
argument is the number of passes still allowed. -/
def louvainLoop (adjacency : JsObj (List NodeId)) (nodes : List NodeId) :
    Nat → JsObj Nat → JsObj Nat
  | 0, partition => partition
  | k + 1, partition =>
    let r := louvainPass adjacency nodes partition
    if r.2 then louvainLoop adjacency nodes k r.1 else r.1

/-- Insertion into `commMap`, whose keys are community identifiers (array
indices), kept in ascending key order, the order `Object.values` uses. -/
def commMapAdd : List (Nat × List NodeId) → Nat → NodeId → List (Nat × List NodeId)
  | [], comm, node => [(comm, [node])]
  | (k, s) :: t, comm, node =>
    if comm = k then (k, setAdd s node) :: t
    else if comm < k then (comm, [node]) :: (k, s) :: t
    else (k, s) :: commMapAdd t comm node

/-- `partitionToCommunities(partition)`. -/
def partitionToCommunities (partition : JsObj Nat) : List (List NodeId) :=
  ((objectEntries partition).foldl
    (fun commMap e => commMapAdd commMap e.2 e.1) []).map Prod.snd

/-- The initial partition `nodes.forEach((node, i) => partition[node] = i)`. -/
def initPartition (nodes : List NodeId) : JsObj Nat :=
  nodes.enum.foldl (fun p e => objSet p e.2 e.1) []

/-- The value of `maxIterations` in `louvainAlgorithm`. -/
def maxIterations : Nat := 100

/-- `louvainAlgorithm()` of `app.js`, with `graphData` passed explicitly. -/
def louvainAlgorithm (nodes : List NodeId) (edges : List Edge) :
    Option (List (List NodeId)) :=
  match buildAdjacencyList nodes edges with
  | none => none
  | some adjacency =>
    let keys := objectKeys adjacency
    some (partitionToCommunities
      (louvainLoop adjacency keys maxIterations (initPartition keys)))

/-- Fuel for one run of the inner loop of `findConnectedComponents`: every
iteration removes one queue entry, and the entries ever pushed are bounded by
the total length of the adjacency lists. -/
def bfsFuel (adj : JsObj (List NodeId)) : Nat :=
  (adj.map (fun e => e.2.length)).sum + 2

/-- The inner loop `while (queue.length > 0)` of `findConnectedComponents`,
returning the final `visited` and `component` sets. -/
def bfsComponent (adj : JsObj (List NodeId)) :
    Nat → List NodeId → List NodeId → List NodeId → Option (List NodeId × List NodeId)
  | 0, _, _, _ => none
  | _ + 1, [], visited, component => some (visited, component)
  | fuel + 1, current :: queue, visited, component =>
    if current ∈ visited then bfsComponent adj fuel queue visited component
    else
      let visited1 := setAdd visited current
      bfsComponent adj fuel
        (queue ++ (neighbors adj current).filter (fun neighbor => neighbor ∉ visited1))
        visited1 (setAdd component current)

/-- The loop `for (const node of nodes)` of `findConnectedComponents`. -/
def componentsLoop (adj : JsObj (List NodeId)) :
    List NodeId → List NodeId → List (List NodeId) → Option (List (List NodeId))
  | [], _, components => some components
  | node :: rest, visited, components =>
    if node ∈ visited then componentsLoop adj rest visited components
    else
      match bfsComponent adj (bfsFuel adj) [node] visited [] with
      | none => none
      | some r => componentsLoop adj rest r.1 (components ++ [r.2])

/-- `findConnectedComponents(nodes, edges)`. -/
def findConnectedComponents (nodes : List NodeId) (edges : List Edge) :
    Option (List (List NodeId)) :=
  match addEdges (initAdj nodes) edges with
  | none => none
  | some adj => componentsLoop adj nodes [] []

/-- The template string with `from` and `to` joined by a dash, the key of an
edge in the `betweenness` object. -/
def edgeKey (a b : NodeId) : String := a ++ "-" ++ b

/-- The assignment `distances[current] + 1`; `none` is `Infinity`, and the node
read is always a key of `distances`. -/
def distPlusOne (distances : JsObj (Option Nat)) (current : NodeId) : Option Nat :=
  ((objGet distances current).getD none).map (· + 1)

/-- State of the shortest-path loop of `calculateEdgeBetweenness`. -/
structure PathState where
  distances : JsObj (Option Nat)
  predecessors : JsObj (List NodeId)
  queue : List NodeId

/-- The body of `for (const neighbor of adj[current])` in the shortest-path loop.
`distances` and `predecessors` are given the same keys, so `predecessors[neighbor]`
is defined whenever the second test holds. -/
def visitNeighbor (current : NodeId) (st : PathState) (neighbor : NodeId) : PathState :=
  let st1 : PathState :=
    if objGet st.distances neighbor = some none then
      { st with
        distances := objSet st.distances neighbor (distPlusOne st.distances current)
        queue := st.queue ++ [neighbor] }
    else st
  if objGet st1.distances neighbor = some (distPlusOne st1.distances current) then
    { st1 with
      predecessors :=
        objSet st1.predecessors neighbor (neighbors st1.predecessors neighbor ++ [current]) }
  else st1

/-- The loop `while (queue.length > 0)` of `calculateEdgeBetweenness`, returning
the final `predecessors` object. -/
def bfsPaths (adj : JsObj (List NodeId)) :
    Nat → PathState → Option (JsObj (List NodeId))
  | 0, _ => none
  | fuel + 1, st =>
    match st.queue with
    | [] => some st.predecessors
    | current :: queue =>
      bfsPaths adj fuel
        ((neighbors adj current).foldl (visitNeighbor current) { st with queue := queue })

/-- The initial state of the shortest-path loop for one `source`. -/
def initPathState (nodes : List NodeId) (source : NodeId) : PathState :=
  { distances :=
      objSet (nodes.foldl (fun d n => objSet d n none) []) source (some 0)
    predecessors := nodes.foldl (fun p n => objSet p n []) []
    queue := [source] }

/-- The body of `for (const pred of predecessors[target])`. -/
def creditEdge (target : NodeId) (betweenness : JsObj Nat) (pred : NodeId) : JsObj Nat :=
  let key1 := edgeKey pred target
  let key2 := edgeKey target pred
  match objGet betweenness key1 with
  | some b => objSet betweenness key1 (b + 1)
  | none =>
    match objGet betweenness key2 with
    | some b => objSet betweenness key2 (b + 1)
    | none => betweenness

/-- The loop `for (const target of nodes)` that credits the edges of one source. -/
def creditSource (nodes : List NodeId) (source : NodeId)
    (predecessors : JsObj (List NodeId)) (betweenness : JsObj Nat) : JsObj Nat :=
  nodes.foldl
    (fun b target =>
      if target = source then b
      else (neighbors predecessors target).foldl (creditEdge target) b)
    betweenness

/-- The loop `for (const source of nodes)` of `calculateEdgeBetweenness`; the
second list is the full node list. -/
def betweennessLoop (adj : JsObj (List NodeId)) (nodes : List NodeId) :
    List NodeId → JsObj Nat → Option (JsObj Nat)
  | [], betweenness => some betweenness
  | source :: rest, betweenness =>
    let st := initPathState nodes source
    match bfsPaths adj (st.distances.length + 2) st with
    | none => none
    | some predecessors =>
      betweennessLoop adj nodes rest (creditSource nodes source predecessors betweenness)

/-- `calculateEdgeBetweenness(nodes, edges)`. -/
def calculateEdgeBetweenness (nodes : List NodeId) (edges : List Edge) :
    Option (JsObj Nat) :=
  let betweenness := edges.foldl (fun b e => objSet b (edgeKey e.from_ e.to_) 0) []
  match addEdges (initAdj nodes) edges with
  | none => none
  | some adj => betweennessLoop adj nodes nodes betweenness

/-- The value `betweenness[key] || betweenness[keyReverse] || 0` for one edge. -/
def edgeScore (betweenness : JsObj Nat) (e : Edge) : Nat :=
  let b1 := (objGet betweenness (edgeKey e.from_ e.to_)).getD 0
  if b1 ≠ 0 then b1 else (objGet betweenness (edgeKey e.to_ e.from_)).getD 0

/-- The body of the selection loop of `girvanNewmanAlgorithm` on the state
`(maxBetweenness, edgeToRemove)` for the edge `ie.2` at index `ie.1`. -/
def selectStep (betweenness : JsObj Nat) (st : Nat × Nat) (ie : Nat × Edge) : Nat × Nat :=
  let bet := edgeScore betweenness ie.2
  if bet > st.1 then (bet, ie.1) else st

/-- The selection loop of `girvanNewmanAlgorithm`: the final value of
`edgeToRemove`, scanning the edges in order with `maxBetweenness` starting at 0. -/
def selectEdgeToRemove (edges : List Edge) (betweenness : JsObj Nat) : Nat :=
  (edges.enum.foldl (selectStep betweenness) (0, 0)).2

/-- One removal step of `girvanNewmanAlgorithm`: the betweenness computation,
the selection loop and `edges.splice(edgeToRemove, 1)`. -/
def removeStep (nodes : List NodeId) (edges : List Edge) : Option (List Edge) :=
  match calculateEdgeBetweenness nodes edges with
  | none => none
  | some betweenness => some (edges.eraseIdx (selectEdgeToRemove edges betweenness))

/-- The value of `targetCommunities`: `Math.min(5, Math.ceil(nodes.length / 4))`. -/
def targetCommunities (nodes : List NodeId) : Nat :=
  min 5 ((nodes.length + 3) / 4)

/-- The loop `while (edges.length > 0)` of `girvanNewmanAlgorithm` followed by
the final `return nodes.map(n => new Set([n]))`. -/
def girvanNewmanLoop (nodes : List NodeId) :
    Nat → List Edge → Option (List (List NodeId))
  | _, [] => some (nodes.map (fun n => [n]))
  | 0, _ :: _ => none
  | fuel + 1, e :: es =>
    match findConnectedComponents nodes (e :: es) with
    | none => none
    | some components =>
      if components.length ≥ targetCommunities nodes then some components
      else
        match removeStep nodes (e :: es) with
        | none => none
        | some edges1 => girvanNewmanLoop nodes fuel edges1

/-- `girvanNewmanAlgorithm()` of `app.js`, with `graphData` passed explicitly.
Each iteration removes one edge, so `edges.length` iterations are enough. -/
def girvanNewmanAlgorithm (nodes : List NodeId) (edges : List Edge) :
    Option (List (List NodeId)) :=
  girvanNewmanLoop nodes edges.length edges

/-- Floor of the base-2 logarithm of `n`, by repeated halving; `fuel` bounds the
number of halvings. -/
def log2Fuel : Nat → Nat → Nat
  | 0, _ => 0
  | fuel + 1, n => if n < 2 then 0 else log2Fuel fuel (n / 2) + 1

/-- Position of the leading bit of `n`: `2 ^ bitLog n ≤ n < 2 ^ (bitLog n + 1)`
for `n > 0`. -/
def bitLog (n : Nat) : Nat := log2Fuel n n

/-- Binary exponent of the positive fraction `a / b`: the integer `e` with
`2 ^ e ≤ a / b < 2 ^ (e + 1)`. -/
def floorLog2 (a b : Nat) : Int :=
  if b * 2 ^ bitLog a ≤ a * 2 ^ bitLog b then (bitLog a : Int) - bitLog b
  else (bitLog a : Int) - bitLog b - 1

/-- The integer nearest to `n / d`, a tie going to the even neighbour. -/
def roundHalfEven (n d : Nat) : Nat :=
  let q := n / d
  let r := n % d
  if 2 * r < d then q
  else if d < 2 * r then q + 1
  else if q % 2 = 0 then q else q + 1

/-- The positive fraction `a / b` rounded to 53 significant bits: with `e` its
binary exponent, the multiple of `2 ^ (e - 52)` nearest to it, ties to even. -/
def roundPos (a b : Nat) : ℚ :=
  let s : Int := 52 - floorLog2 a b
  if 0 ≤ s then mkRat (roundHalfEven (a * 2 ^ s.toNat) b) (2 ^ s.toNat)
  else ((roundHalfEven a (b * 2 ^ (-s).toNat) * 2 ^ (-s).toNat : Nat) : ℚ)

/-- The JavaScript Number that holds the real result `q` of an arithmetic
operation: IEEE 754 binary64 rounding to nearest, ties to even, with a 53-bit
significand.  The exponent range is not modelled: the lengths of JavaScript
arrays are below `2 ^ 32`, so every non-zero value that `calculateModularity`
handles has a magnitude between `2 ^ (-118)` and `2 ^ 129`, far inside the
normal range of binary64. -/
def round64 (q : ℚ) : ℚ :=
  if q = 0 then 0
  else if 0 < q then roundPos q.num.natAbs q.den
  else - roundPos q.num.natAbs q.den

/-- The operator `+` on Numbers. -/
def numAdd (a b : ℚ) : ℚ := round64 (a + b)

/-- The operator `-` on Numbers. -/
def numSub (a b : ℚ) : ℚ := round64 (a - b)

/-- The operator `*` on Numbers. -/
def numMul (a b : ℚ) : ℚ := round64 (a * b)

/-- The operator `/` on Numbers. -/
def numDiv (a b : ℚ) : ℚ := round64 (a / b)

/-- The unit roundoff of binary64: the relative error of one rounding is at most
`2 ^ (-53)`. -/
def unitRoundoff : ℚ := 1 / 2 ^ 53

/-- The summand `aij - (ki * kj) / (2 * m)` of `calculateModularity`, each
operator rounding its result to a Number. -/
def modularityTerm (adj : JsObj (List NodeId)) (m : Nat) (i j : NodeId) : ℚ :=
  let aij : ℚ := if j ∈ neighbors adj i then 1 else 0
  let ki : ℚ := (neighbors adj i).length
  let kj : ℚ := (neighbors adj j).length
  numSub aij (numDiv (numMul ki kj) (numMul 2 m))

/-- The accumulator `Q` after the three nested loops of `calculateModularity`;
`Q += t` stores the rounded sum. -/
def modularitySum (adj : JsObj (List NodeId)) (m : Nat)
    (communities : List (List NodeId)) : ℚ :=
  communities.foldl
    (fun Q community =>
      community.foldl
        (fun Q i => community.foldl (fun Q j => numAdd Q (modularityTerm adj m i j)) Q) Q)
    0

/-- `calculateModularity()` of `app.js`, with `graphData` and `communities`
passed explicitly.  Reading `adj[i]` for a member that is not a key throws.  The
value returned is the Number the code holds, as the rational it denotes. -/
def calculateModularity (nodes : List NodeId) (edges : List Edge)
    (communities : List (List NodeId)) : Option ℚ :=
  if communities.length = 0 then some 0
  else
    let m := edges.length
    if m = 0 then some 0
    else
      match buildAdjacencyList nodes edges with
      | none => none
      | some adj =>
        if communities.all (fun c => c.all (fun i => (objGet adj i).isSome)) then
          some (numDiv (modularitySum adj m communities) (numMul 2 m))
        else none

/-- The counter `external` of `displayAnalysis` before the division: over the
members, the neighbours for which `comm.has(neighbor)` is false. -/
def externalCount (adj : JsObj (List NodeId)) (comm : List NodeId) : Nat :=
  comm.foldl
    (fun external member =>
      (neighbors adj member).foldl
        (fun external neighbor => if neighbor ∈ comm then external else external + 1)
        external)
    0

/-- The value shown in the external-edges column: `Math.round(external / 2)`,
which rounds a half upwards. -/
def externalReported (adj : JsObj (List NodeId)) (comm : List NodeId) : Nat :=
  (externalCount adj comm + 1) / 2

/-- The external-edges column of `displayAnalysis` for every community, with
`graphData` and `communities` passed explicitly. -/
def displayAnalysisExternal (nodes : List NodeId) (edges : List Edge)
    (communities : List (List NodeId)) : Option (List Nat) :=
  match buildAdjacencyList nodes edges with
  | none => none
  | some adj =>
    if communities.all (fun c => c.all (fun i => (objGet adj i).isSome)) then
      some (communities.map (externalReported adj))
    else none

/-- The number of edges that leave a community: exactly one endpoint is a member. -/
def leavingEdges (edges : List Edge) (comm : List NodeId) : Nat :=
  (edges.filter (fun e => decide (e.from_ ∈ comm) != decide (e.to_ ∈ comm))).length

/-- Number of ordered member pairs `(i, j)` of a community with `j` in `adj[i]`,
summed over the communities. -/
def pairCount (adj : JsObj (List NodeId)) (communities : List (List NodeId)) : Nat :=
  (communities.map (fun c =>
    (c.map (fun i => (c.map (fun j => if j ∈ neighbors adj i then 1 else 0)).sum)).sum)).sum

/-- Sum of the degree products `ki * kj` over the ordered member pairs of each
community. -/
def degProd (adj : JsObj (List NodeId)) (communities : List (List NodeId)) : Nat :=
  (communities.map (fun c =>
    (c.map (fun i =>
      (c.map (fun j => (neighbors adj i).length * (neighbors adj j).length)).sum)).sum)).sum

/-- No edge joins a node to itself. -/
def NoSelfLoops (edges : List Edge) : Prop :=
  ∀ e ∈ edges, e.from_ ≠ e.to_

/-- No two entries of the edge list join the same pair of nodes, in either
orientation. -/
def NoRepeatedEdges (edges : List Edge) : Prop :=
  edges.Pairwise (fun e1 e2 =>
    ¬ ((e1.from_ = e2.from_ ∧ e1.to_ = e2.to_) ∨ (e1.from_ = e2.to_ ∧ e1.to_ = e2.from_)))

/-- Nodes of the concrete scenario of the specification. -/
def scenarioNodes : List NodeId := ["A", "B", "C", "D", "E"]

/-- Edges of the concrete scenario of the specification. -/
def scenarioEdges : List Edge :=
  [⟨"A", "B"⟩, ⟨"B", "C"⟩, ⟨"A", "C"⟩, ⟨"C", "D"⟩, ⟨"D", "E"⟩, ⟨"E", "C"⟩]

/-- The adjacency object built for the concrete scenario. -/
def scenarioAdj : JsObj (List NodeId) :=
  [("A", ["B", "C"]), ("B", ["A", "C"]), ("C", ["B", "A", "D", "E"]),
    ("D", ["C", "E"]), ("E", ["D", "C"])]

/-- The partition object of the scenario after every odd-numbered pass. -/
def scenarioOdd : JsObj Nat := [("A", 1), ("B", 2), ("C", 1), ("D", 1), ("E", 1)]

/-- The partition object of the scenario after every even-numbered pass. -/
def scenarioEven : JsObj Nat := [("A", 2), ("B", 1), ("C", 2), ("D", 2), ("E", 2)]

/-- Four nodes, each carrying one self-loop. -/
def loopNodes : List NodeId := ["A", "B", "C", "D"]

/-- The four self-loops on `loopNodes`. -/
def loopEdges : List Edge := [⟨"A", "A"⟩, ⟨"B", "B"⟩, ⟨"C", "C"⟩, ⟨"D", "D"⟩]

/-- Two nodes joined by the same edge twice. -/
def doubleEdges : List Edge := [⟨"A", "B"⟩, ⟨"A", "B"⟩]

/-- A star with centre `A` and leaves `B`, `C`. -/
def starEdges : List Edge := [⟨"A", "B"⟩, ⟨"A", "C"⟩]

/-- Nodes of the path graph `A–B–C–D`. -/
def pathNodes : List NodeId := ["A", "B", "C", "D"]

/-- Edges of the path graph `A–B–C–D`. -/
def pathEdges : List Edge := [⟨"A", "B"⟩, ⟨"B", "C"⟩, ⟨"C", "D"⟩]

/-- The opposite endpoints of the edges incident to a node, in edge order: first
the `to` of an edge leaving the node, then the `from` of an edge entering it. -/
def incidentList : List Edge → NodeId → List NodeId
  | [], _ => []
  | e :: es, u =>
    (if e.from_ = u then [e.to_] else []) ++ (if e.to_ = u then [e.from_] else [])
      ++ incidentList es u

/-- Two nodes are the endpoints of an input edge, in either direction. -/
def Linked (edges : List Edge) (a b : NodeId) : Prop :=
  ∃ e ∈ edges, (e.from_ = a ∧ e.to_ = b) ∨ (e.to_ = a ∧ e.from_ = b)

/-- Two nodes are joined by a path of input edges, taken as undirected. -/
def Connected (edges : List Edge) : NodeId → NodeId → Prop :=
  Relation.ReflTransGen (Linked edges)

/-- Total length of the adjacency lists of the keys not yet visited. -/
def unvisitedDeg (adj : JsObj (List NodeId)) (visited : List NodeId) : Nat :=
  ((adj.filter (fun e => decide (e.1 ∉ visited))).map (fun e => e.2.length)).sum

/-- Loop invariant of `bfsComponent` started from `s` with visited set `v0`. -/
def BfsInv (adj : JsObj (List NodeId)) (v0 : List NodeId) (s : NodeId)
    (queue visited component : List NodeId) : Prop :=
  (∀ x, x ∈ visited ↔ x ∈ v0 ∨ x ∈ component) ∧
  component.Nodup ∧
  (∀ x ∈ component, x ∉ v0) ∧
  (∀ x ∈ component, Relation.ReflTransGen (fun u w => w ∈ neighbors adj u) s x) ∧
  (∀ x ∈ queue, Relation.ReflTransGen (fun u w => w ∈ neighbors adj u) s x) ∧
  (∀ u ∈ component, ∀ w, w ∈ neighbors adj u → w ∈ visited ∨ w ∈ queue) ∧
  (s ∈ component ∨ s ∈ queue)

/-- Loop invariant of `componentsLoop`: the components found so far are the
reachability classes of declared nodes and `visited` is their union. -/
def CompInv (adj : JsObj (List NodeId)) (nodes : List NodeId)
    (visited : List NodeId) (components : List (List NodeId)) : Prop :=
  (∀ x, x ∈ visited ↔ ∃ c ∈ components, x ∈ c) ∧
  components.Pairwise List.Disjoint ∧
  ∀ c ∈ components, c.Nodup ∧ ∃ s ∈ nodes,
    ∀ x, x ∈ c ↔ Relation.ReflTransGen (fun u w => w ∈ neighbors adj u) s x

/-- Number of keys of `distances` still at `Infinity`. -/
def infCount (distances : JsObj (Option Nat)) : Nat :=
  distances.countP (fun e => e.2.isNone)

/-- Every queued node of the shortest-path loop has a finite distance. -/
def QueueFinite (st : PathState) : Prop :=
  ∀ x ∈ st.queue, ∃ n, objGet st.distances x = some (some n)

/-- The UTF-16 code units of a character: one unit below `0x10000`, a surrogate
pair otherwise. -/
def utf16Units (c : Char) : List Nat :=
  if c.toNat < 0x10000 then [c.toNat]
  else [0xD800 + (c.toNat - 0x10000) / 0x400, 0xDC00 + (c.toNat - 0x10000) % 0x400]

/-- The UTF-16 code units of a list of characters. -/
def codeUnits : List Char → List Nat
  | [] => []
  | c :: cs => utf16Units c ++ codeUnits cs

/-- Lexicographic comparison of code-unit sequences, a proper prefix being smaller. -/
def unitsLt : List Nat → List Nat → Bool
  | [], [] => false
  | [], _ :: _ => true
  | _ :: _, [] => false
  | a :: as, b :: bs => if a < b then true else if b < a then false else unitsLt as bs

/-- The JavaScript comparison `m1 < m2` of two strings, by UTF-16 code units. -/
def jsStringLt (a b : String) : Bool :=
  unitsLt (codeUnits a.data) (codeUnits b.data)

/-- The counter `internal` of `displayAnalysis`: the ordered member pairs with
`m1 < m2 && adj[m1].includes(m2)`. -/
def internalCount (adj : JsObj (List NodeId)) (members : List NodeId) : Nat :=
  members.foldl
    (fun internal m1 =>
      members.foldl
        (fun internal m2 =>
          if jsStringLt m1 m2 && decide (m2 ∈ neighbors adj m1) then internal + 1
          else internal)
        internal)
    0

/-- The value `possibleEdges = size * (size - 1) / 2` of `displayAnalysis`. -/
def possibleEdges (size : Nat) : ℚ :=
  (size : ℚ) * ((size : ℚ) - 1) / 2

/-- The density of `displayAnalysis` before `toFixed(2)`; the branch that shows
the text `0.00` is the value 0. -/
def densityValue (internal size : Nat) : ℚ :=
  if possibleEdges size > 0 then (internal : ℚ) / possibleEdges size else 0

/-- One row of the table filled by `displayAnalysis`. -/
structure AnalysisRow where
  size : Nat
  internal : Nat
  external : Nat
  density : ℚ
deriving DecidableEq, Repr

/-- The row computed by `displayAnalysis` for one community. -/
def analysisRow (adj : JsObj (List NodeId)) (comm : List NodeId) : AnalysisRow :=
  { size := comm.length
    internal := internalCount adj comm
    external := externalReported adj comm
    density := densityValue (internalCount adj comm) comm.length }

/-- The rows of `displayAnalysis()`, with `graphData` and `communities` passed
explicitly.  Iterating `adj[member]` for a member that is not a key throws. -/
def displayAnalysis (nodes : List NodeId) (edges : List Edge)
    (communities : List (List NodeId)) : Option (List AnalysisRow) :=
  match buildAdjacencyList nodes edges with
  | none => none
  | some adj =>
    if communities.all (fun c => c.all (fun i => (objGet adj i).isSome)) then
      some (communities.map (analysisRow adj))
    else none

/-- The number of edges with both endpoints in a community. -/
def insideEdges (edges : List Edge) (comm : List NodeId) : Nat :=
  (edges.filter (fun e => decide (e.from_ ∈ comm) && decide (e.to_ ∈ comm))).length

/-- Degree of a node: the number of edge endpoints incident to it. -/
def degree (edges : List Edge) (u : NodeId) : Nat :=
  (edges.filter (fun e => decide (e.from_ = u))).length
    + (edges.filter (fun e => decide (e.to_ = u))).length

/-- The standard modularity formula: the sum over the communities of
`L_c / m - (D_c / (2 m))^2`. -/
def standardModularity (edges : List Edge) (communities : List (List NodeId)) : ℚ :=
  (communities.map (fun c =>
    (insideEdges edges c : ℚ) / (edges.length : ℚ)
      - (((c.map (degree edges)).sum : ℚ) / (2 * (edges.length : ℚ))) ^ 2)).sum

/-- The members recorded under one community identifier, in scanning order. -/
def membersOf (entries : List (NodeId × Nat)) (comm : Nat) : List NodeId :=
  (entries.filter (fun e => e.2 = comm)).map Prod.fst

/-- The community identifiers in the order in which a scan first meets them. -/
def firstEncounteredIds (entries : List (NodeId × Nat)) : List Nat :=
  (entries.map Prod.snd).foldl setAdd []

/-- The community identifiers in ascending order, each once. -/
def ascendingIds (entries : List (NodeId × Nat)) : List Nat :=
  List.insertionSort (· ≤ ·) (firstEncounteredIds entries)

/-- Grouping by identifier in the order in which the identifiers are first
encountered while scanning the entries. -/
def groupFirstEncountered (entries : List (NodeId × Nat)) : List (List NodeId) :=
  (firstEncounteredIds entries).map (membersOf entries)

/-- Grouping by identifier with the identifiers in ascending order. -/
def groupAscending (entries : List (NodeId × Nat)) : List (List NodeId) :=
  (ascendingIds entries).map (membersOf entries)

/-- Nodes of a graph on which the order of the returned communities shows. -/
def orderNodes : List NodeId := ["A", "B", "C"]

/-- The single edge `A–C` on `orderNodes`. -/
def orderEdges : List Edge := [⟨"A", "C"⟩]

/-- The adjacency object built for `orderNodes` and `orderEdges`. -/
def orderAdj : JsObj (List NodeId) := [("A", ["C"]), ("B", []), ("C", ["A"])]

/-- The final partition object of the greedy partitioner on that graph. -/
def orderFinal : JsObj Nat := [("A", 2), ("B", 1), ("C", 2)]

/-- The loop `while (improved && iterations < maxIterations)` of
`louvainAlgorithm`, returning the partition together with the final value of
`improved`: `false` when a full pass made no reassignment, `true` when the cap
on the number of passes ended the loop. -/
def louvainRun (adjacency : JsObj (List NodeId)) (nodes : List NodeId) :
    Nat → JsObj Nat → JsObj Nat × Bool
  | 0, partition => (partition, true)
  | k + 1, partition =>
    let r := louvainPass adjacency nodes partition
    if r.2 then louvainRun adjacency nodes k r.1 else (r.1, false)

/-- The value of `improved` when the loop of `louvainAlgorithm` ends. -/
def louvainImproved (nodes : List NodeId) (edges : List Edge) : Option Bool :=
  match buildAdjacencyList nodes edges with
  | none => none
  | some adjacency =>
    let keys := objectKeys adjacency
    some (louvainRun adjacency keys maxIterations (initPartition keys)).2

/-- Invariant of the greedy partitioner: the partition object has the given
keys, and two keys with the same community identifier are joined by a path of
edges. -/
def CommConnected (edges : List Edge) (keys : List NodeId) (partition : JsObj Nat) : Prop :=
  partition.map Prod.fst = keys ∧
  ∀ u ∈ keys, ∀ v ∈ keys, commOf partition u = commOf partition v → Connected edges u v

/-- A partition object that no pass changes: every neighbour of every key has
the community identifier of that key. -/
def CommStable (adj : JsObj (List NodeId)) (keys : List NodeId)
    (partition : JsObj Nat) : Prop :=
  ∀ node ∈ keys, ∀ nb ∈ neighbors adj node, commOf partition nb = commOf partition node

/-- A triangle, the smallest simple graph on which the rounding of the modularity
sum is visible. -/
def triangleNodes : List NodeId := ["A", "B", "C"]

/-- The three edges of the triangle. -/
def triangleEdges : List Edge := [⟨"A", "B"⟩, ⟨"B", "C"⟩, ⟨"A", "C"⟩]

/-- A triangle `A, B, C` with the tail `C–D–E`, on the nodes of the scenario. -/
def tailEdges : List Edge :=
  [⟨"A", "B"⟩, ⟨"B", "C"⟩, ⟨"A", "C"⟩, ⟨"C", "D"⟩, ⟨"D", "E"⟩]

/-- The accumulated score that a betweenness object holds for an edge: the
count stored under the key `from-to` unless it is 0 or missing, then the count
stored under `to-from`, and 0 when that one is missing too. -/
def accumulatedScore (betweenness : JsObj Nat) (e : Edge) : Nat :=
  match objGet betweenness (e.from_ ++ "-" ++ e.to_) with
  | some (n + 1) => n + 1
  | _ =>
    match objGet betweenness (e.to_ ++ "-" ++ e.from_) with
    | some k => k
    | none => 0

/-- The sum over the communities of `L_c / m + (D_c / (2 m))^2`: the standard
modularity formula with the absolute value of each of its terms. -/
def standardMagnitude (edges : List Edge) (communities : List (List NodeId)) : ℚ :=
  (communities.map (fun c =>
    (insideEdges edges c : ℚ) / (edges.length : ℚ)
      + (((c.map (degree edges)).sum : ℚ) / (2 * (edges.length : ℚ))) ^ 2)).sum

/-- The ordered pairs `(i, j)` with `i` in `l` and `j` in `c`, in the order the
two inner loops of `calculateModularity` visit them. -/
def pairsWith (c : List NodeId) : List NodeId → List (NodeId × NodeId)
  | [] => []
  | i :: t => c.map (fun j => (i, j)) ++ pairsWith c t

/-- The ordered member pairs of all communities, in the order `calculateModularity`
visits them. -/
def memberPairs : List (List NodeId) → List (NodeId × NodeId)
  | [] => []
  | c :: t => pairsWith c c ++ memberPairs t

/-- The number of summands that `calculateModularity` accumulates: one for each
ordered pair of members of a community. -/
def summandCount (communities : List (List NodeId)) : Nat :=
  (communities.map (fun c => c.length * c.length)).sum

/-- A list of communities is a partition of the node list: every community is a
duplicate-free list of nodes, the communities are pairwise disjoint, and every
node lies in exactly one community. -/
def IsPartitionOf (nodes : List NodeId) (communities : List (List NodeId)) : Prop :=
  (∀ c ∈ communities, c.Nodup ∧ ∀ v ∈ c, v ∈ nodes) ∧
  communities.Pairwise List.Disjoint ∧
  ∀ v ∈ nodes, communities.countP (fun c => decide (v ∈ c)) = 1

/-- Membership of a node in the member set stored under a key of `commMap`. -/
def commHas (commMap : List (Nat × List NodeId)) (comm : Nat) (node : NodeId) : Prop :=
  ∃ s, (comm, s) ∈ commMap ∧ node ∈ s

/-- Every endpoint of every edge is a declared node. -/
def EndpointsDeclared (nodes : List NodeId) (edges : List Edge) : Prop :=
  ∀ e ∈ edges, e.from_ ∈ nodes ∧ e.to_ ∈ nodes

instance (nodes : List NodeId) (edges : List Edge) :
    Decidable (EndpointsDeclared nodes edges) := by
  unfold EndpointsDeclared
  infer_instance

instance (edges : List Edge) : Decidable (NoSelfLoops edges) := by
  unfold NoSelfLoops
  infer_instance

instance (edges : List Edge) : Decidable (NoRepeatedEdges edges) := by
  unfold NoRepeatedEdges
  infer_instance

/-! ## Dictionary lemmas -/

theorem objGet_objSet {α : Type} (o : JsObj α) (k x : String) (v : α) :
    objGet (objSet o k v) x = if k = x then some v else objGet o x := by
  induction o with
  | nil => simp [objSet, objGet]
  | cons a t ih =>
    obtain ⟨k1, w⟩ := a
    by_cases h : k1 = k
    · subst h
      by_cases hx : k1 = x <;> simp [objSet, objGet, hx]
    · by_cases hx : k = x
      · subst hx
        simp [objSet, objGet, h, ih]
      · by_cases hx1 : k1 = x
        · subst hx1
          simp [objSet, objGet, h, hx]
        · simp [objSet, objGet, h, hx, hx1, ih]

theorem objGet_eq_none_iff {α : Type} (o : JsObj α) (x : String) :
    objGet o x = none ↔ x ∉ o.map Prod.fst := by
  induction o with
  | nil => simp [objGet]
  | cons a t ih =>
    obtain ⟨k1, w⟩ := a
    by_cases h : k1 = x
    · simp [objGet, h]
    · simp [objGet, h, ih, Ne.symm h]

theorem objGet_isSome_of_mem {α : Type} (o : JsObj α) (x : String)
    (h : x ∈ o.map Prod.fst) : ∃ v, objGet o x = some v := by
  cases hg : objGet o x with
  | none => exact absurd h ((objGet_eq_none_iff o x).1 hg)
  | some v => exact ⟨v, rfl⟩

theorem mem_keys_of_objGet {α : Type} (o : JsObj α) (x : String) (v : α)
    (h : objGet o x = some v) : x ∈ o.map Prod.fst := by
  by_contra hn
  rw [(objGet_eq_none_iff o x).2 hn] at h
  exact Option.noConfusion h

theorem keys_objSet_of_mem {α : Type} (o : JsObj α) (k : String) (v : α)
    (h : k ∈ o.map Prod.fst) : (objSet o k v).map Prod.fst = o.map Prod.fst := by
  induction o with
  | nil => simp at h
  | cons a t ih =>
    obtain ⟨k1, w⟩ := a
    by_cases h1 : k1 = k
    · simp [objSet, h1]
    · have ht : k ∈ t.map Prod.fst := by
        simp only [List.map_cons, List.mem_cons] at h
        rcases h with h | h
        · exact absurd h.symm h1
        · exact h
      simp [objSet, h1, ih ht]

theorem keys_objSet_of_not_mem {α : Type} (o : JsObj α) (k : String) (v : α)
    (h : k ∉ o.map Prod.fst) :
    (objSet o k v).map Prod.fst = o.map Prod.fst ++ [k] := by
  induction o with
  | nil => simp [objSet]
  | cons a t ih =>
    obtain ⟨k1, w⟩ := a
    simp only [List.map_cons, List.mem_cons, not_or] at h
    have h1 : ¬ k1 = k := fun e => h.1 e.symm
    simp [objSet, h1, ih h.2]

theorem mem_keys_objSet {α : Type} (o : JsObj α) (k x : String) (v : α) :
    x ∈ (objSet o k v).map Prod.fst ↔ x = k ∨ x ∈ o.map Prod.fst := by
  by_cases h : k ∈ o.map Prod.fst
  · rw [keys_objSet_of_mem o k v h]
    constructor
    · exact fun hx => Or.inr hx
    · rintro (rfl | hx)
      · exact h
      · exact hx
  · rw [keys_objSet_of_not_mem o k v h]
    simp [or_comm]

theorem nodup_keys_objSet {α : Type} (o : JsObj α) (k : String) (v : α)
    (h : (o.map Prod.fst).Nodup) : ((objSet o k v).map Prod.fst).Nodup := by
  by_cases hk : k ∈ o.map Prod.fst
  · rw [keys_objSet_of_mem o k v hk]; exact h
  · rw [keys_objSet_of_not_mem o k v hk]
    exact List.Nodup.append h (List.nodup_singleton k) (by simpa using hk)

theorem objectEntries_perm {α : Type} (o : JsObj α) : (objectEntries o).Perm o := by
  unfold objectEntries
  exact ((List.perm_insertionSort _ _).append_right _).trans
    (List.filter_append_perm _ o)

theorem objectKeys_perm {α : Type} (o : JsObj α) :
    (objectKeys o).Perm (o.map Prod.fst) :=
  (objectEntries_perm o).map Prod.fst

/-! ## Adjacency construction -/

theorem keys_foldl_objSet_nil (nodes : List NodeId) (acc : JsObj (List NodeId)) :
    (∀ x, x ∈ (nodes.foldl (fun adj n => objSet adj n []) acc).map Prod.fst ↔
      x ∈ acc.map Prod.fst ∨ x ∈ nodes) ∧
    ((acc.map Prod.fst).Nodup →
      ((nodes.foldl (fun adj n => objSet adj n []) acc).map Prod.fst).Nodup) := by
  induction nodes generalizing acc with
  | nil => simp
  | cons n t ih =>
    obtain ⟨h1, h2⟩ := ih (objSet acc n [])
    refine ⟨fun x => ?_, fun hnd => ?_⟩
    · rw [List.foldl_cons, h1 x, mem_keys_objSet]
      simp only [List.mem_cons]
      tauto
    · rw [List.foldl_cons]
      exact h2 (nodup_keys_objSet acc n [] hnd)

theorem mem_keys_initAdj (nodes : List NodeId) (x : NodeId) :
    x ∈ (initAdj nodes).map Prod.fst ↔ x ∈ nodes := by
  have h := (keys_foldl_objSet_nil nodes []).1 x
  simpa [initAdj] using h

theorem nodup_keys_initAdj (nodes : List NodeId) :
    ((initAdj nodes).map Prod.fst).Nodup :=
  (keys_foldl_objSet_nil nodes []).2 (by simp)

theorem keys_objPush (adj adj1 : JsObj (List NodeId)) (k v : NodeId)
    (h : objPush adj k v = some adj1) : adj1.map Prod.fst = adj.map Prod.fst := by
  unfold objPush at h
  cases hg : objGet adj k with
  | none => rw [hg] at h; exact Option.noConfusion h
  | some l =>
    rw [hg] at h
    simp only [Option.some.injEq] at h
    rw [← h]
    exact keys_objSet_of_mem adj k _ (mem_keys_of_objGet adj k l hg)

theorem objPush_isSome (adj : JsObj (List NodeId)) (k v : NodeId)
    (h : k ∈ adj.map Prod.fst) : ∃ adj1, objPush adj k v = some adj1 := by
  obtain ⟨l, hl⟩ := objGet_isSome_of_mem adj k h
  exact ⟨objSet adj k (l ++ [v]), by simp [objPush, hl]⟩

theorem keys_addEdges (edges : List Edge) (adj adj1 : JsObj (List NodeId))
    (h : addEdges adj edges = some adj1) : adj1.map Prod.fst = adj.map Prod.fst := by
  induction edges generalizing adj with
  | nil =>
    simp only [addEdges, Option.some.injEq] at h
    rw [h]
  | cons e es ih =>
    simp only [addEdges] at h
    cases h1 : objPush adj e.from_ e.to_ with
    | none => rw [h1] at h; exact Option.noConfusion h
    | some a1 =>
      rw [h1] at h
      simp only at h
      cases h2 : objPush a1 e.to_ e.from_ with
      | none => rw [h2] at h; exact Option.noConfusion h
      | some a2 =>
        rw [h2] at h
        simp only at h
        rw [ih a2 h, keys_objPush a1 a2 _ _ h2, keys_objPush adj a1 _ _ h1]

theorem addEdges_isSome (edges : List Edge) (adj : JsObj (List NodeId))
    (h : ∀ e ∈ edges, e.from_ ∈ adj.map Prod.fst ∧ e.to_ ∈ adj.map Prod.fst) :
    ∃ adj1, addEdges adj edges = some adj1 := by
  induction edges generalizing adj with
  | nil => exact ⟨adj, rfl⟩
  | cons e es ih =>
    have he := h e (List.mem_cons_self e es)
    obtain ⟨a1, h1⟩ := objPush_isSome adj e.from_ e.to_ he.1
    have k1 := keys_objPush adj a1 _ _ h1
    obtain ⟨a2, h2⟩ := objPush_isSome a1 e.to_ e.from_ (by rw [k1]; exact he.2)
    have k2 := keys_objPush a1 a2 _ _ h2
    obtain ⟨a3, h3⟩ := ih a2 (fun e1 he1 => by
      rw [k2, k1]; exact h e1 (List.mem_cons_of_mem e he1))
    exact ⟨a3, by simp [addEdges, h1, h2, h3]⟩

theorem buildAdjacencyList_isSome (nodes : List NodeId) (edges : List Edge)
    (h : EndpointsDeclared nodes edges) :
    ∃ adj, buildAdjacencyList nodes edges = some adj := by
  unfold buildAdjacencyList
  apply addEdges_isSome
  intro e he
  rw [mem_keys_initAdj, mem_keys_initAdj]
  exact h e he

theorem mem_keys_buildAdjacencyList (nodes : List NodeId) (edges : List Edge)
    (adj : JsObj (List NodeId)) (h : buildAdjacencyList nodes edges = some adj)
    (x : NodeId) : x ∈ adj.map Prod.fst ↔ x ∈ nodes := by
  unfold buildAdjacencyList at h
  rw [keys_addEdges edges _ adj h, mem_keys_initAdj]

theorem nodup_keys_buildAdjacencyList (nodes : List NodeId) (edges : List Edge)
    (adj : JsObj (List NodeId)) (h : buildAdjacencyList nodes edges = some adj) :
    (adj.map Prod.fst).Nodup := by
  unfold buildAdjacencyList at h
  rw [keys_addEdges edges _ adj h]
  exact nodup_keys_initAdj nodes

/-! ## The greedy partitioner keeps the key set of the partition object -/

theorem keys_louvainNode (adjacency : JsObj (List NodeId)) (partition : JsObj Nat)
    (node : NodeId) (h : node ∈ partition.map Prod.fst) :
    (louvainNode adjacency partition node).1.map Prod.fst = partition.map Prod.fst := by
  unfold louvainNode
  simp only
  split
  · exact keys_objSet_of_mem partition node _ h
  · rfl

theorem keys_louvainPass (adjacency : JsObj (List NodeId)) (nodes : List NodeId)
    (partition : JsObj Nat) (h : ∀ n ∈ nodes, n ∈ partition.map Prod.fst) :
    (louvainPass adjacency nodes partition).1.map Prod.fst = partition.map Prod.fst := by
  unfold louvainPass
  generalize false = b
  induction nodes generalizing partition b with
  | nil => rfl
  | cons n t ih =>
    rw [List.foldl_cons]
    have hn := keys_louvainNode adjacency partition n (h n (List.mem_cons_self n t))
    simp only
    rw [ih (louvainNode adjacency partition n).1 (fun m hm => by
      rw [hn]; exact h m (List.mem_cons_of_mem n hm)), hn]

theorem keys_louvainLoop (adjacency : JsObj (List NodeId)) (nodes : List NodeId)
    (k : Nat) (partition : JsObj Nat) (h : ∀ n ∈ nodes, n ∈ partition.map Prod.fst) :
    (louvainLoop adjacency nodes k partition).map Prod.fst = partition.map Prod.fst := by
  induction k generalizing partition with
  | zero => rfl
  | succ k ih =>
    have hp := keys_louvainPass adjacency nodes partition h
    simp only [louvainLoop]
    split
    · rw [ih _ (fun n hn => by rw [hp]; exact h n hn), hp]
    · exact hp

theorem keys_foldl_enumFrom (l : List NodeId) (n : Nat) (acc : JsObj Nat)
    (hd : ∀ x ∈ l, x ∉ acc.map Prod.fst) (hl : l.Nodup) :
    ((l.enumFrom n).foldl (fun p e => objSet p e.2 e.1) acc).map Prod.fst
      = acc.map Prod.fst ++ l := by
  induction l generalizing n acc with
  | nil => simp
  | cons a t ih =>
    rw [List.enumFrom_cons, List.foldl_cons]
    have ha : a ∉ acc.map Prod.fst := hd a (List.mem_cons_self a t)
    have hk := keys_objSet_of_not_mem acc a n ha
    rw [List.nodup_cons] at hl
    rw [ih (n + 1) (objSet acc a n) (fun x hx => by
      rw [hk]
      simp only [List.mem_append, List.mem_singleton, not_or]
      refine ⟨hd x (List.mem_cons_of_mem a hx), ?_⟩
      rintro rfl
      exact hl.1 hx) hl.2, hk]
    simp

theorem keys_initPartition (l : List NodeId) (hl : l.Nodup) :
    (initPartition l).map Prod.fst = l := by
  unfold initPartition List.enum
  rw [keys_foldl_enumFrom l 0 [] (by simp) hl]
  simp

/-! ## Grouping a partition object into communities -/

theorem mem_setAdd {α : Type} [DecidableEq α] (s : List α) (x y : α) :
    y ∈ setAdd s x ↔ y ∈ s ∨ y = x := by
  unfold setAdd
  split
  · constructor
    · exact fun h => Or.inl h
    · rintro (h | rfl)
      · exact h
      · assumption
  · simp

theorem nodup_setAdd {α : Type} [DecidableEq α] (s : List α) (x : α)
    (h : s.Nodup) : (setAdd s x).Nodup := by
  unfold setAdd
  split
  · exact h
  · rename_i hx
    exact List.Nodup.append h (List.nodup_singleton x) (by simpa using hx)

theorem commHas_commMapAdd (m : List (Nat × List NodeId)) (c : Nat) (x : NodeId)
    (k : Nat) (y : NodeId) :
    commHas (commMapAdd m c x) k y ↔ commHas m k y ∨ (k = c ∧ y = x) := by
  induction m with
  | nil =>
    simp only [commHas, commMapAdd, List.mem_singleton, Prod.mk.injEq, List.not_mem_nil,
      false_and, exists_false, false_or]
    constructor
    · rintro ⟨s, ⟨rfl, rfl⟩, hy⟩
      exact ⟨rfl, by simpa using hy⟩
    · rintro ⟨rfl, rfl⟩
      exact ⟨[y], ⟨rfl, rfl⟩, by simp⟩
  | cons a t ih =>
    obtain ⟨k0, s0⟩ := a
    unfold commHas at ih ⊢
    by_cases h1 : c = k0
    · subst h1
      simp only [commMapAdd, if_true, List.mem_cons, Prod.mk.injEq]
      constructor
      · rintro ⟨s, (⟨rfl, rfl⟩ | hs), hy⟩
        · rcases (mem_setAdd s0 x y).1 hy with h | h
          · exact Or.inl ⟨s0, Or.inl ⟨rfl, rfl⟩, h⟩
          · exact Or.inr ⟨rfl, h⟩
        · exact Or.inl ⟨s, Or.inr hs, hy⟩
      · rintro (⟨s, (⟨rfl, rfl⟩ | hs), hy⟩ | ⟨rfl, rfl⟩)
        · exact ⟨setAdd s x, Or.inl ⟨rfl, rfl⟩, (mem_setAdd s x y).2 (Or.inl hy)⟩
        · exact ⟨s, Or.inr hs, hy⟩
        · exact ⟨setAdd s0 y, Or.inl ⟨rfl, rfl⟩, (mem_setAdd s0 y y).2 (Or.inr rfl)⟩
    · by_cases h2 : c < k0
      · simp only [commMapAdd, h1, h2, if_true, if_false, List.mem_cons, Prod.mk.injEq]
        constructor
        · rintro ⟨s, (⟨rfl, rfl⟩ | ⟨rfl, rfl⟩ | hs), hy⟩
          · exact Or.inr ⟨rfl, by simpa using hy⟩
          · exact Or.inl ⟨s, Or.inl ⟨rfl, rfl⟩, hy⟩
          · exact Or.inl ⟨s, Or.inr hs, hy⟩
        · rintro (⟨s, (⟨rfl, rfl⟩ | hs), hy⟩ | ⟨rfl, rfl⟩)
          · exact ⟨s, Or.inr (Or.inl ⟨rfl, rfl⟩), hy⟩
          · exact ⟨s, Or.inr (Or.inr hs), hy⟩
          · exact ⟨[y], Or.inl ⟨rfl, rfl⟩, by simp⟩
      · simp only [commMapAdd, h1, h2, if_false, List.mem_cons, Prod.mk.injEq]
        constructor
        · rintro ⟨s, (⟨rfl, rfl⟩ | hs), hy⟩
          · exact Or.inl ⟨s, Or.inl ⟨rfl, rfl⟩, hy⟩
          · rcases ih.1 ⟨s, hs, hy⟩ with ⟨s1, hs1, hy1⟩ | h
            · exact Or.inl ⟨s1, Or.inr hs1, hy1⟩
            · exact Or.inr h
        · rintro (⟨s, (⟨rfl, rfl⟩ | hs), hy⟩ | h)
          · exact ⟨s, Or.inl ⟨rfl, rfl⟩, hy⟩
          · obtain ⟨s1, hs1, hy1⟩ := ih.2 (Or.inl ⟨s, hs, hy⟩)
            exact ⟨s1, Or.inr hs1, hy1⟩
          · obtain ⟨s1, hs1, hy1⟩ := ih.2 (Or.inr h)
            exact ⟨s1, Or.inr hs1, hy1⟩

theorem keys_commMapAdd_subset (m : List (Nat × List NodeId)) (c : Nat) (x : NodeId)
    (k : Nat) (h : k ∈ (commMapAdd m c x).map Prod.fst) :
    k = c ∨ k ∈ m.map Prod.fst := by
  induction m with
  | nil => simpa [commMapAdd] using h
  | cons a t ih =>
    obtain ⟨k0, s0⟩ := a
    by_cases h1 : c = k0
    · subst h1
      simp only [commMapAdd, if_true, List.map_cons, List.mem_cons] at h ⊢
      tauto
    · by_cases h2 : c < k0
      · simp only [commMapAdd, h1, h2, if_true, if_false, List.map_cons,
          List.mem_cons] at h ⊢
        tauto
      · simp only [commMapAdd, h1, h2, if_false, List.map_cons, List.mem_cons] at h ⊢
        rcases h with h | h
        · exact Or.inr (Or.inl h)
        · rcases ih h with h | h
          · exact Or.inl h
          · exact Or.inr (Or.inr h)

theorem sorted_commMapAdd (m : List (Nat × List NodeId)) (c : Nat) (x : NodeId)
    (h : (m.map Prod.fst).Pairwise (· < ·)) :
    ((commMapAdd m c x).map Prod.fst).Pairwise (· < ·) := by
  induction m with
  | nil => simp [commMapAdd]
  | cons a t ih =>
    obtain ⟨k0, s0⟩ := a
    simp only [List.map_cons, List.pairwise_cons] at h
    by_cases h1 : c = k0
    · subst h1
      simp only [commMapAdd, if_true, List.map_cons, List.pairwise_cons]
      exact h
    · by_cases h2 : c < k0
      · simp only [commMapAdd, h1, h2, if_true, if_false, List.map_cons,
          List.pairwise_cons, List.mem_cons]
        refine ⟨?_, h⟩
        rintro b (rfl | hb)
        · exact h2
        · exact lt_trans h2 (h.1 b hb)
      · simp only [commMapAdd, h1, h2, if_false, List.map_cons, List.pairwise_cons]
        refine ⟨fun b hb => ?_, ih h.2⟩
        rcases keys_commMapAdd_subset t c x b hb with rfl | hb
        · omega
        · exact h.1 b hb

theorem nodup_commMapAdd (m : List (Nat × List NodeId)) (c : Nat) (x : NodeId)
    (h : ∀ e ∈ m, e.2.Nodup) : ∀ e ∈ commMapAdd m c x, e.2.Nodup := by
  induction m with
  | nil => simp [commMapAdd]
  | cons a t ih =>
    obtain ⟨k0, s0⟩ := a
    have h0 : s0.Nodup := h (k0, s0) (List.mem_cons_self _ _)
    have ht : ∀ e ∈ t, e.2.Nodup := fun e he => h e (List.mem_cons_of_mem _ he)
    by_cases h1 : c = k0
    · subst h1
      simp only [commMapAdd, if_true, List.mem_cons]
      rintro e (rfl | he)
      · exact nodup_setAdd s0 x h0
      · exact ht e he
    · by_cases h2 : c < k0
      · simp only [commMapAdd, h1, h2, if_true, if_false, List.mem_cons]
        rintro e (rfl | rfl | he)
        · simp
        · exact h0
        · exact ht e he
      · simp only [commMapAdd, h1, h2, if_false, List.mem_cons]
        rintro e (rfl | he)
        · exact h0
        · exact ih ht e he

theorem commMap_fold (es : List (NodeId × Nat)) (m : List (Nat × List NodeId))
    (hs : (m.map Prod.fst).Pairwise (· < ·)) (hn : ∀ e ∈ m, e.2.Nodup) :
    ((es.foldl (fun commMap e => commMapAdd commMap e.2 e.1) m).map
        Prod.fst).Pairwise (· < ·) ∧
    (∀ e ∈ es.foldl (fun commMap e => commMapAdd commMap e.2 e.1) m, e.2.Nodup) ∧
    ∀ k y, commHas (es.foldl (fun commMap e => commMapAdd commMap e.2 e.1) m) k y ↔
      commHas m k y ∨ (y, k) ∈ es := by
  induction es generalizing m with
  | nil => exact ⟨hs, hn, fun k y => by simp⟩
  | cons a t ih =>
    obtain ⟨h1, h2, h3⟩ := ih (commMapAdd m a.2 a.1) (sorted_commMapAdd m _ _ hs)
      (nodup_commMapAdd m _ _ hn)
    refine ⟨h1, h2, fun k y => ?_⟩
    rw [List.foldl_cons, h3 k y, commHas_commMapAdd, List.mem_cons]
    constructor
    · rintro ((h | ⟨rfl, rfl⟩) | h)
      · exact Or.inl h
      · exact Or.inr (Or.inl rfl)
      · exact Or.inr (Or.inr h)
    · rintro (h | rfl | h)
      · exact Or.inl (Or.inl h)
      · exact Or.inl (Or.inr ⟨rfl, rfl⟩)
      · exact Or.inr h

theorem countP_mem_eq_one (comms : List (List NodeId)) (v : NodeId)
    (hp : comms.Pairwise List.Disjoint) (c : List NodeId) (hc : c ∈ comms)
    (hv : v ∈ c) : comms.countP (fun c => decide (v ∈ c)) = 1 := by
  induction comms with
  | nil => simp at hc
  | cons a t ih =>
    rw [List.pairwise_cons] at hp
    rcases List.mem_cons.1 hc with rfl | hct
    · have h0 : t.countP (fun c => decide (v ∈ c)) = 0 := by
        rw [List.countP_eq_zero]
        intro b hb
        simp only [decide_eq_true_eq]
        exact fun hvb => hp.1 b hb hv hvb
      rw [List.countP_cons_of_pos _ _ (by simpa using hv), h0]
    · have hva : v ∉ a := fun hva => hp.1 c hct hva hv
      rw [List.countP_cons_of_neg _ _ (by simpa using hva)]
      exact ih hp.2 hct

theorem isPartitionOf_congr (l1 l2 : List NodeId) (comms : List (List NodeId))
    (h : ∀ x, x ∈ l1 ↔ x ∈ l2) (hp : IsPartitionOf l1 comms) :
    IsPartitionOf l2 comms := by
  obtain ⟨h1, h2, h3⟩ := hp
  exact ⟨fun c hc => ⟨(h1 c hc).1, fun v hv => (h v).1 ((h1 c hc).2 v hv)⟩, h2,
    fun v hv => h3 v ((h v).2 hv)⟩

theorem partitionToCommunities_isPartitionOf (partition : JsObj Nat)
    (hnd : (partition.map Prod.fst).Nodup) :
    IsPartitionOf (partition.map Prod.fst) (partitionToCommunities partition) := by
  have hperm := objectEntries_perm partition
  obtain ⟨hs, hn, hm⟩ := commMap_fold (objectEntries partition) [] (by simp) (by simp)
  have hm1 : ∀ k y,
      commHas ((objectEntries partition).foldl
        (fun commMap e => commMapAdd commMap e.2 e.1) []) k y ↔ (y, k) ∈ partition := by
    intro k y
    rw [hm k y, hperm.mem_iff]
    simp [commHas]
  have huniq : ∀ y k1 k2, (y, k1) ∈ partition → (y, k2) ∈ partition → k1 = k2 := by
    intro y k1 k2 h1 h2
    have := List.inj_on_of_nodup_map hnd h1 h2 rfl
    exact (Prod.mk.injEq _ _ _ _ ▸ this : y = y ∧ k1 = k2).2
  unfold partitionToCommunities
  generalize (objectEntries partition).foldl
    (fun commMap e => commMapAdd commMap e.2 e.1) [] = m at hs hn hm1
  have hdis : (m.map Prod.snd).Pairwise List.Disjoint := by
    rw [List.pairwise_map]
    rw [List.pairwise_map] at hs
    refine List.Pairwise.imp_of_mem ?_ hs
    intro a b ha hb hab v hva hvb
    have e1 := (hm1 a.1 v).1 ⟨a.2, ha, hva⟩
    have e2 := (hm1 b.1 v).1 ⟨b.2, hb, hvb⟩
    have := huniq v a.1 b.1 e1 e2
    omega
  refine ⟨?_, hdis, ?_⟩
  · intro c hc
    obtain ⟨e, he, rfl⟩ := List.mem_map.1 hc
    refine ⟨hn e he, fun v hv => ?_⟩
    have := (hm1 e.1 v).1 ⟨e.2, he, hv⟩
    exact List.mem_map.2 ⟨(v, e.1), this, rfl⟩
  · intro v hv
    obtain ⟨⟨v1, k⟩, hk, rfl⟩ := List.mem_map.1 hv
    obtain ⟨s, hs1, hs2⟩ := (hm1 k v1).2 hk
    exact countP_mem_eq_one _ v1 hdis s (List.mem_map.2 ⟨(k, s), hs1, rfl⟩) hs2

/-- C1: on a graph whose edge endpoints are declared nodes, `louvainAlgorithm`
returns a list of communities, and that list is a partition of the node set:
the communities are pairwise disjoint, contain only nodes, and every node lies
in exactly one of them. -/
theorem louvainAlgorithm_isPartitionOf (nodes : List NodeId) (edges : List Edge)
    (hE : EndpointsDeclared nodes edges) :
    ∃ comms, louvainAlgorithm nodes edges = some comms ∧ IsPartitionOf nodes comms := by
  obtain ⟨adj, hadj⟩ := buildAdjacencyList_isSome nodes edges hE
  have hkeys : (objectKeys adj).Nodup :=
    (objectKeys_perm adj).nodup_iff.2 (nodup_keys_buildAdjacencyList nodes edges adj hadj)
  have hmem : ∀ x, x ∈ objectKeys adj ↔ x ∈ nodes := fun x => by
    rw [(objectKeys_perm adj).mem_iff]
    exact mem_keys_buildAdjacencyList nodes edges adj hadj x
  have hinit := keys_initPartition (objectKeys adj) hkeys
  have hfin := keys_louvainLoop adj (objectKeys adj) maxIterations
    (initPartition (objectKeys adj)) (fun n hn => by rw [hinit]; exact hn)
  rw [hinit] at hfin
  refine ⟨partitionToCommunities
    (louvainLoop adj (objectKeys adj) maxIterations (initPartition (objectKeys adj))),
    by simp only [louvainAlgorithm, hadj], ?_⟩
  have hp := partitionToCommunities_isPartitionOf
    (louvainLoop adj (objectKeys adj) maxIterations (initPartition (objectKeys adj)))
    (by rw [hfin]; exact hkeys)
  rw [hfin] at hp
  exact isPartitionOf_congr _ _ _ hmem hp

/-! ## Adjacency lists -/

theorem neighbors_objSet (adj : JsObj (List NodeId)) (k u : NodeId) (l : List NodeId) :
    neighbors (objSet adj k l) u = if k = u then l else neighbors adj u := by
  unfold neighbors
  rw [objGet_objSet]
  split <;> rfl

theorem neighbors_objPush (adj adj1 : JsObj (List NodeId)) (k v u : NodeId)
    (h : objPush adj k v = some adj1) :
    neighbors adj1 u = if k = u then neighbors adj u ++ [v] else neighbors adj u := by
  unfold objPush at h
  cases hg : objGet adj k with
  | none => rw [hg] at h; exact Option.noConfusion h
  | some l =>
    rw [hg] at h
    simp only [Option.some.injEq] at h
    rw [← h, neighbors_objSet]
    by_cases hk : k = u
    · subst hk
      simp [neighbors, hg]
    · simp [hk]

theorem neighbors_foldl_objSet_nil (nodes : List NodeId) (acc : JsObj (List NodeId))
    (h : ∀ u, neighbors acc u = []) (u : NodeId) :
    neighbors (nodes.foldl (fun adj n => objSet adj n []) acc) u = [] := by
  induction nodes generalizing acc with
  | nil => exact h u
  | cons n t ih =>
    rw [List.foldl_cons]
    apply ih
    intro w
    rw [neighbors_objSet]
    split
    · rfl
    · exact h w

theorem neighbors_initAdj (nodes : List NodeId) (u : NodeId) :
    neighbors (initAdj nodes) u = [] :=
  neighbors_foldl_objSet_nil nodes [] (fun _ => rfl) u

theorem neighbors_addEdges (edges : List Edge) (adj adj1 : JsObj (List NodeId))
    (h : addEdges adj edges = some adj1) (u : NodeId) :
    neighbors adj1 u = neighbors adj u ++ incidentList edges u := by
  induction edges generalizing adj with
  | nil =>
    simp only [addEdges, Option.some.injEq] at h
    simp [h, incidentList]
  | cons e es ih =>
    simp only [addEdges] at h
    cases h1 : objPush adj e.from_ e.to_ with
    | none => rw [h1] at h; exact Option.noConfusion h
    | some a1 =>
      rw [h1] at h
      simp only at h
      cases h2 : objPush a1 e.to_ e.from_ with
      | none => rw [h2] at h; exact Option.noConfusion h
      | some a2 =>
        rw [h2] at h
        simp only at h
        rw [ih a2 h, neighbors_objPush a1 a2 _ _ u h2, neighbors_objPush adj a1 _ _ u h1]
        by_cases hf : e.from_ = u <;> by_cases ht : e.to_ = u <;>
          simp [incidentList, hf, ht]

theorem neighbors_buildAdjacencyList (nodes : List NodeId) (edges : List Edge)
    (adj : JsObj (List NodeId)) (h : buildAdjacencyList nodes edges = some adj)
    (u : NodeId) : neighbors adj u = incidentList edges u := by
  unfold buildAdjacencyList at h
  rw [neighbors_addEdges edges _ adj h u, neighbors_initAdj]
  rfl

theorem mem_incidentList (edges : List Edge) (u w : NodeId) :
    w ∈ incidentList edges u ↔ Linked edges u w := by
  induction edges with
  | nil => simp [incidentList, Linked]
  | cons e es ih =>
    unfold Linked at ih ⊢
    simp only [incidentList, List.mem_append, ih, List.mem_cons, exists_eq_or_imp]
    constructor
    · rintro ((h | h) | h)
      · by_cases hf : e.from_ = u
        · simp only [hf, if_true, List.mem_singleton] at h
          exact Or.inl (Or.inl ⟨hf, h.symm⟩)
        · simp [hf] at h
      · by_cases ht : e.to_ = u
        · simp only [ht, if_true, List.mem_singleton] at h
          exact Or.inl (Or.inr ⟨ht, h.symm⟩)
        · simp [ht] at h
      · exact Or.inr h
    · rintro ((⟨hf, ht⟩ | ⟨ht, hf⟩) | h)
      · exact Or.inl (Or.inl (by simp [hf, ht]))
      · exact Or.inl (Or.inr (by simp [hf, ht]))
      · exact Or.inr h

theorem linked_symm (edges : List Edge) (a b : NodeId) (h : Linked edges a b) :
    Linked edges b a := by
  obtain ⟨e, he, h1 | h1⟩ := h
  · exact ⟨e, he, Or.inr ⟨h1.2, h1.1⟩⟩
  · exact ⟨e, he, Or.inl ⟨h1.2, h1.1⟩⟩

theorem connected_symm (edges : List Edge) (a b : NodeId) (h : Connected edges a b) :
    Connected edges b a := by
  unfold Connected at h ⊢
  induction h with
  | refl => exact Relation.ReflTransGen.refl
  | tail _ hbc ih => exact Relation.ReflTransGen.head (linked_symm edges _ _ hbc) ih

theorem connected_mem_nodes (nodes : List NodeId) (edges : List Edge)
    (hE : EndpointsDeclared nodes edges) (a b : NodeId) (h : Connected edges a b)
    (ha : a ∈ nodes) : b ∈ nodes := by
  unfold Connected at h
  induction h with
  | refl => exact ha
  | tail _ hbc _ =>
    obtain ⟨e, he, h1 | h1⟩ := hbc
    · rw [← h1.2]; exact (hE e he).2
    · rw [← h1.2]; exact (hE e he).1

/-! ## Connected components: the fuel of the inner loop is enough -/

theorem unvisitedDeg_setAdd_le (adj : JsObj (List NodeId)) (visited : List NodeId)
    (cur : NodeId) : unvisitedDeg adj (setAdd visited cur) ≤ unvisitedDeg adj visited := by
  induction adj with
  | nil => simp [unvisitedDeg]
  | cons a t ih =>
    unfold unvisitedDeg at ih ⊢
    by_cases h1 : a.1 ∈ visited
    · have h2 : a.1 ∈ setAdd visited cur := (mem_setAdd visited cur a.1).2 (Or.inl h1)
      simpa [List.filter_cons, h1, h2] using ih
    · by_cases h2 : a.1 ∈ setAdd visited cur
      · simp only [List.filter_cons, h1, h2, not_true_eq_false, decide_False,
          not_false_eq_true, decide_True, if_true, List.map_cons, List.sum_cons]
        simp only [Bool.false_eq_true, if_false]
        omega
      · simp only [List.filter_cons, h1, h2, not_false_eq_true, decide_True, if_true,
          List.map_cons, List.sum_cons]
        omega

theorem unvisitedDeg_visit (adj : JsObj (List NodeId)) (visited : List NodeId)
    (cur : NodeId) (hc : cur ∉ visited) :
    unvisitedDeg adj (setAdd visited cur) + (neighbors adj cur).length
      ≤ unvisitedDeg adj visited := by
  induction adj with
  | nil => simp [unvisitedDeg, neighbors, objGet]
  | cons a t ih =>
    obtain ⟨k, l⟩ := a
    by_cases hk : k = cur
    · subst hk
      have h2 : k ∈ setAdd visited k := (mem_setAdd visited k k).2 (Or.inr rfl)
      have h3 := unvisitedDeg_setAdd_le t visited k
      have hn : neighbors ((k, l) :: t) k = l := by simp [neighbors, objGet]
      rw [hn]
      unfold unvisitedDeg at h3 ⊢
      simp only [List.filter_cons, hc, h2, not_true_eq_false, decide_False,
        not_false_eq_true, decide_True, if_true, List.map_cons, List.sum_cons]
      simp only [Bool.false_eq_true, if_false]
      omega
    · have hn : neighbors ((k, l) :: t) cur = neighbors t cur := by
        simp [neighbors, objGet, hk]
      rw [hn]
      have hiff : k ∈ setAdd visited cur ↔ k ∈ visited := by
        rw [mem_setAdd]
        constructor
        · rintro (h | h)
          · exact h
          · exact absurd h hk
        · exact fun h => Or.inl h
      unfold unvisitedDeg at ih ⊢
      by_cases h1 : k ∈ visited
      · have h2 := hiff.2 h1
        simpa [List.filter_cons, h1, h2] using ih
      · have h2 : k ∉ setAdd visited cur := fun h => h1 (hiff.1 h)
        simp only [List.filter_cons, h1, h2, not_false_eq_true, decide_True, if_true,
          List.map_cons, List.sum_cons]
        omega

theorem unvisitedDeg_le (adj : JsObj (List NodeId)) (visited : List NodeId) :
    unvisitedDeg adj visited ≤ (adj.map (fun e => e.2.length)).sum := by
  induction adj with
  | nil => simp [unvisitedDeg]
  | cons a t ih =>
    unfold unvisitedDeg at ih ⊢
    by_cases h1 : a.1 ∈ visited
    · simp only [List.filter_cons, h1, not_true_eq_false, decide_False, List.map_cons,
        List.sum_cons]
      simp only [Bool.false_eq_true, if_false]
      omega
    · simp only [List.filter_cons, h1, not_false_eq_true, decide_True, if_true,
        List.map_cons, List.sum_cons]
      omega

theorem bfsComponent_isSome (adj : JsObj (List NodeId)) (fuel : Nat)
    (queue visited component : List NodeId)
    (h : queue.length + unvisitedDeg adj visited < fuel) :
    ∃ r, bfsComponent adj fuel queue visited component = some r := by
  induction fuel generalizing queue visited component with
  | zero => omega
  | succ fuel ih =>
    cases queue with
    | nil => exact ⟨(visited, component), rfl⟩
    | cons cur q =>
      by_cases hc : cur ∈ visited
      · simp only [bfsComponent, hc, if_true]
        apply ih
        simp only [List.length_cons] at h
        omega
      · simp only [bfsComponent, hc, if_false]
        apply ih
        have h1 := unvisitedDeg_visit adj visited cur hc
        have h2 := List.length_filter_le
          (fun neighbor => decide (neighbor ∉ setAdd visited cur)) (neighbors adj cur)
        simp only [List.length_cons] at h
        simp only [List.length_append]
        omega

theorem bfsComponent_start_isSome (adj : JsObj (List NodeId)) (node : NodeId)
    (visited : List NodeId) :
    ∃ r, bfsComponent adj (bfsFuel adj) [node] visited [] = some r := by
  apply bfsComponent_isSome
  have := unvisitedDeg_le adj visited
  simp only [List.length_singleton, bfsFuel]
  omega

theorem componentsLoop_isSome (adj : JsObj (List NodeId)) (l visited : List NodeId)
    (components : List (List NodeId)) :
    ∃ r, componentsLoop adj l visited components = some r := by
  induction l generalizing visited components with
  | nil => exact ⟨components, rfl⟩
  | cons n t ih =>
    by_cases hn : n ∈ visited
    · simp only [componentsLoop, hn, if_true]
      exact ih visited components
    · obtain ⟨r, hr⟩ := bfsComponent_start_isSome adj n visited
      simp only [componentsLoop, hn, if_false, hr]
      exact ih _ _

/-! ## Connected components: invariants of the two loops -/

theorem bfsComponent_inv (adj : JsObj (List NodeId)) (v0 : List NodeId) (s : NodeId)
    (hs : s ∉ v0) (fuel : Nat) (queue visited component : List NodeId)
    (r : List NodeId × List NodeId)
    (h : bfsComponent adj fuel queue visited component = some r)
    (hinv : BfsInv adj v0 s queue visited component) :
    BfsInv adj v0 s [] r.1 r.2 := by
  induction fuel generalizing queue visited component with
  | zero => simp [bfsComponent] at h
  | succ fuel ih =>
    cases queue with
    | nil =>
      simp only [bfsComponent, Option.some.injEq] at h
      rw [← h]
      exact hinv
    | cons cur q =>
      obtain ⟨i1, i2, i3, i4, i5, i6, i7⟩ := hinv
      by_cases hc : cur ∈ visited
      · simp only [bfsComponent, hc, if_true] at h
        refine ih q visited component h ⟨i1, i2, i3, i4, ?_, ?_, ?_⟩
        · exact fun x hx => i5 x (List.mem_cons_of_mem cur hx)
        · intro u hu w hw
          rcases i6 u hu w hw with h1 | h1
          · exact Or.inl h1
          · rcases List.mem_cons.1 h1 with rfl | h2
            · exact Or.inl hc
            · exact Or.inr h2
        · rcases i7 with h1 | h1
          · exact Or.inl h1
          · rcases List.mem_cons.1 h1 with rfl | h2
            · rcases (i1 s).1 hc with h3 | h3
              · exact absurd h3 hs
              · exact Or.inl h3
            · exact Or.inr h2
      · simp only [bfsComponent, hc, if_false] at h
        have hcur : Relation.ReflTransGen (fun u w => w ∈ neighbors adj u) s cur :=
          i5 cur (List.mem_cons_self cur q)
        refine ih _ _ _ h ⟨?_, ?_, ?_, ?_, ?_, ?_, ?_⟩
        · intro x
          rw [mem_setAdd, mem_setAdd, i1 x]
          tauto
        · exact nodup_setAdd component cur i2
        · intro x hx
          rcases (mem_setAdd component cur x).1 hx with h1 | rfl
          · exact i3 x h1
          · exact fun h0 => hc ((i1 x).2 (Or.inl h0))
        · intro x hx
          rcases (mem_setAdd component cur x).1 hx with h1 | rfl
          · exact i4 x h1
          · exact hcur
        · intro x hx
          rcases List.mem_append.1 hx with h1 | h1
          · exact i5 x (List.mem_cons_of_mem cur h1)
          · exact Relation.ReflTransGen.tail hcur (List.mem_filter.1 h1).1
        · intro u hu w hw
          rcases (mem_setAdd component cur u).1 hu with h1 | rfl
          · rcases i6 u h1 w hw with h2 | h2
            · exact Or.inl ((mem_setAdd visited cur w).2 (Or.inl h2))
            · rcases List.mem_cons.1 h2 with rfl | h3
              · exact Or.inl ((mem_setAdd visited w w).2 (Or.inr rfl))
              · exact Or.inr (List.mem_append.2 (Or.inl h3))
          · by_cases hw1 : w ∈ setAdd visited u
            · exact Or.inl hw1
            · exact Or.inr (List.mem_append.2
                (Or.inr (List.mem_filter.2 ⟨hw, by simpa using hw1⟩)))
        · rcases i7 with h1 | h1
          · exact Or.inl ((mem_setAdd component cur s).2 (Or.inl h1))
          · rcases List.mem_cons.1 h1 with rfl | h2
            · exact Or.inl ((mem_setAdd component s s).2 (Or.inr rfl))
            · exact Or.inr (List.mem_append.2 (Or.inl h2))

theorem bfsInv_final (adj : JsObj (List NodeId)) (v0 : List NodeId) (s : NodeId)
    (visited component : List NodeId)
    (hsym : ∀ u w, w ∈ neighbors adj u → u ∈ neighbors adj w)
    (hclosed : ∀ u ∈ v0, ∀ w, w ∈ neighbors adj u → w ∈ v0)
    (hinv : BfsInv adj v0 s [] visited component) (x : NodeId) :
    x ∈ component ↔ Relation.ReflTransGen (fun u w => w ∈ neighbors adj u) s x := by
  obtain ⟨i1, _, i3, i4, _, i6, i7⟩ := hinv
  constructor
  · exact i4 x
  · intro hx
    induction hx with
    | refl =>
      rcases i7 with h | h
      · exact h
      · simp at h
    | @tail b c _ hbc ih =>
      rcases i6 b ih c hbc with h | h
      · rcases (i1 c).1 h with h1 | h1
        · exact absurd (hclosed c h1 b (hsym b c hbc)) (i3 b ih)
        · exact h1
      · simp at h

theorem compInv_closed (adj : JsObj (List NodeId)) (nodes visited : List NodeId)
    (components : List (List NodeId)) (hinv : CompInv adj nodes visited components) :
    ∀ u ∈ visited, ∀ w, w ∈ neighbors adj u → w ∈ visited := by
  intro u hu w hw
  obtain ⟨j1, _, j3⟩ := hinv
  obtain ⟨c, hc, huc⟩ := (j1 u).1 hu
  obtain ⟨_, s, _, hs⟩ := j3 c hc
  exact (j1 w).2 ⟨c, hc, (hs w).2 (Relation.ReflTransGen.tail ((hs u).1 huc) hw)⟩

theorem componentsLoop_inv (adj : JsObj (List NodeId)) (nodes : List NodeId)
    (hsym : ∀ u w, w ∈ neighbors adj u → u ∈ neighbors adj w)
    (l visited : List NodeId) (components result : List (List NodeId))
    (hl : ∀ n ∈ l, n ∈ nodes)
    (h : componentsLoop adj l visited components = some result)
    (hinv : CompInv adj nodes visited components) :
    ∃ visitedF, CompInv adj nodes visitedF result ∧
      (∀ x ∈ visited, x ∈ visitedF) ∧ ∀ n ∈ l, n ∈ visitedF := by
  induction l generalizing visited components with
  | nil =>
    simp only [componentsLoop, Option.some.injEq] at h
    rw [← h]
    exact ⟨visited, hinv, fun x hx => hx, by simp⟩
  | cons n t ih =>
    have ht : ∀ m ∈ t, m ∈ nodes := fun m hm => hl m (List.mem_cons_of_mem n hm)
    by_cases hn : n ∈ visited
    · simp only [componentsLoop, hn, if_true] at h
      obtain ⟨vf, h1, h2, h3⟩ := ih visited components ht h hinv
      refine ⟨vf, h1, h2, ?_⟩
      intro m hm
      rcases List.mem_cons.1 hm with rfl | hm1
      · exact h2 m hn
      · exact h3 m hm1
    · obtain ⟨r, hr⟩ := bfsComponent_start_isSome adj n visited
      simp only [componentsLoop, hn, if_false, hr] at h
      have hstart : BfsInv adj visited n [n] visited [] := by
        refine ⟨by simp, List.nodup_nil, by simp, by simp, ?_, by simp, Or.inr (by simp)⟩
        intro x hx
        rw [List.mem_singleton.1 hx]
      have hfin := bfsComponent_inv adj visited n hn _ _ _ _ r hr hstart
      have hreach := bfsInv_final adj visited n r.1 r.2 hsym
        (compInv_closed adj nodes visited components hinv) hfin
      obtain ⟨i1, i2, i3, _, _, _, _⟩ := hfin
      obtain ⟨j1, j2, j3⟩ := hinv
      have hnew : CompInv adj nodes r.1 (components ++ [r.2]) := by
        refine ⟨?_, ?_, ?_⟩
        · intro x
          rw [i1 x, j1 x]
          constructor
          · rintro (⟨c, hc, hx⟩ | hx)
            · exact ⟨c, List.mem_append.2 (Or.inl hc), hx⟩
            · exact ⟨r.2, by simp, hx⟩
          · rintro ⟨c, hc, hx⟩
            rcases List.mem_append.1 hc with h1 | h1
            · exact Or.inl ⟨c, h1, hx⟩
            · rw [List.mem_singleton.1 h1] at hx
              exact Or.inr hx
        · rw [List.pairwise_append]
          refine ⟨j2, List.pairwise_singleton _ _, ?_⟩
          intro a ha b hb x hxa hxb
          rw [List.mem_singleton.1 hb] at hxb
          exact i3 x hxb ((j1 x).2 ⟨a, ha, hxa⟩)
        · intro c hc
          rcases List.mem_append.1 hc with h1 | h1
          · exact j3 c h1
          · rw [List.mem_singleton.1 h1]
            exact ⟨i2, n, hl n (List.mem_cons_self n t), hreach⟩
      obtain ⟨vf, h1, h2, h3⟩ := ih r.1 (components ++ [r.2]) ht h hnew
      refine ⟨vf, h1, fun x hx => h2 x ((i1 x).2 (Or.inl hx)), ?_⟩
      intro m hm
      rcases List.mem_cons.1 hm with rfl | hm1
      · exact h2 m ((i1 m).2 (Or.inr ((hreach m).2 Relation.ReflTransGen.refl)))
      · exact h3 m hm1

theorem reach_iff_connected (adj : JsObj (List NodeId)) (edges : List Edge)
    (hadj : ∀ u, neighbors adj u = incidentList edges u) (a b : NodeId) :
    Relation.ReflTransGen (fun u w => w ∈ neighbors adj u) a b ↔ Connected edges a b := by
  have heq : (fun u w => w ∈ neighbors adj u) = Linked edges := by
    funext u w
    rw [hadj u]
    exact propext (mem_incidentList edges u w)
  unfold Connected
  rw [heq]

/-- Joint specification of `findConnectedComponents`: it returns, the result is
a partition of the node list, and every component is the set of nodes joined to
one declared node by a path of edges. -/
theorem findConnectedComponents_spec (nodes : List NodeId) (edges : List Edge)
    (hE : EndpointsDeclared nodes edges) :
    ∃ comps, findConnectedComponents nodes edges = some comps ∧
      IsPartitionOf nodes comps ∧
      ∀ c ∈ comps, ∃ s ∈ nodes, ∀ x, x ∈ c ↔ Connected edges s x := by
  obtain ⟨adj, hadj⟩ := buildAdjacencyList_isSome nodes edges hE
  have hnb := neighbors_buildAdjacencyList nodes edges adj hadj
  unfold buildAdjacencyList at hadj
  obtain ⟨comps, hcomps⟩ := componentsLoop_isSome adj nodes [] []
  have hsym : ∀ u w, w ∈ neighbors adj u → u ∈ neighbors adj w := by
    intro u w hw
    rw [hnb, mem_incidentList] at hw ⊢
    exact linked_symm edges u w hw
  obtain ⟨vf, ⟨j1, j2, j3⟩, _, hall⟩ := componentsLoop_inv adj nodes hsym nodes [] [] comps
    (fun n hn => hn) hcomps ⟨by simp, List.Pairwise.nil, by simp⟩
  have hcls : ∀ c ∈ comps, ∃ s ∈ nodes, ∀ x, x ∈ c ↔ Connected edges s x := by
    intro c hc
    obtain ⟨_, s, hs, hx⟩ := j3 c hc
    exact ⟨s, hs, fun x => (hx x).trans (reach_iff_connected adj edges hnb s x)⟩
  refine ⟨comps, by simp only [findConnectedComponents, hadj, hcomps], ⟨?_, j2, ?_⟩, hcls⟩
  · intro c hc
    refine ⟨(j3 c hc).1, fun v hv => ?_⟩
    obtain ⟨s, hs, hx⟩ := hcls c hc
    exact connected_mem_nodes nodes edges hE s v ((hx v).1 hv) hs
  · intro v hv
    obtain ⟨c, hc, hvc⟩ := (j1 v).1 (hall v hv)
    exact countP_mem_eq_one comps v j2 c hc hvc

/-- C3: for every node list and every edge list with declared endpoints,
`findConnectedComponents` returns a list of components in which every node
appears in exactly one component (the components are pairwise disjoint lists of
nodes), and no component is empty. -/
theorem findConnectedComponents_partition (nodes : List NodeId) (edges : List Edge)
    (hE : EndpointsDeclared nodes edges) :
    ∃ comps, findConnectedComponents nodes edges = some comps ∧
      IsPartitionOf nodes comps ∧ ∀ c ∈ comps, c ≠ [] := by
  obtain ⟨comps, h1, h2, h3⟩ := findConnectedComponents_spec nodes edges hE
  refine ⟨comps, h1, h2, fun c hc hnil => ?_⟩
  obtain ⟨s, _, hx⟩ := h3 c hc
  have : s ∈ c := (hx s).2 Relation.ReflTransGen.refl
  rw [hnil] at this
  simp at this

/-- C4: for every node list and every edge list with declared endpoints, two
nodes lie in a common component returned by `findConnectedComponents` exactly
when they are joined by a path of input edges taken as undirected, and no input
edge has its endpoints in two different returned components. -/
theorem findConnectedComponents_connected (nodes : List NodeId) (edges : List Edge)
    (hE : EndpointsDeclared nodes edges) :
    ∃ comps, findConnectedComponents nodes edges = some comps ∧
      (∀ u ∈ nodes, ∀ v ∈ nodes,
        (∃ c ∈ comps, u ∈ c ∧ v ∈ c) ↔ Connected edges u v) ∧
      ∀ e ∈ edges, ∀ c1 ∈ comps, ∀ c2 ∈ comps,
        e.from_ ∈ c1 → e.to_ ∈ c2 → c1 = c2 := by
  obtain ⟨comps, h1, ⟨_, hdis, hcnt⟩, h3⟩ := findConnectedComponents_spec nodes edges hE
  refine ⟨comps, h1, ?_, ?_⟩
  · intro u hu v _
    constructor
    · rintro ⟨c, hc, huc, hvc⟩
      obtain ⟨s, _, hx⟩ := h3 c hc
      exact Relation.ReflTransGen.trans (connected_symm edges s u ((hx u).1 huc))
        ((hx v).1 hvc)
    · intro huv
      have hpos : 0 < comps.countP (fun c => decide (u ∈ c)) := by
        rw [hcnt u hu]; exact Nat.one_pos
      obtain ⟨c, hc, huc⟩ := List.countP_pos_iff.1 hpos
      have huc1 : u ∈ c := by simpa using huc
      obtain ⟨s, _, hx⟩ := h3 c hc
      exact ⟨c, hc, huc1, (hx v).2 (Relation.ReflTransGen.trans ((hx u).1 huc1) huv)⟩
  · intro e he c1 hc1 c2 hc2 hf ht
    obtain ⟨s, _, hx⟩ := h3 c1 hc1
    have hlink : Linked edges e.from_ e.to_ := ⟨e, he, Or.inl ⟨rfl, rfl⟩⟩
    have ht1 : e.to_ ∈ c1 := (hx e.to_).2 (Relation.ReflTransGen.tail ((hx e.from_).1 hf) hlink)
    by_contra hne
    have hsymm : Symmetric (List.Disjoint : List NodeId → List NodeId → Prop) :=
      fun a b hab => hab.symm
    exact hdis.forall hsymm hc1 hc2 hne ht1 ht

/-! ## Edge betweenness: the fuel of the shortest-path loop is enough -/

theorem infCount_objSet (d : JsObj (Option Nat)) (k : NodeId) (v : Nat)
    (h : objGet d k = some none) : infCount (objSet d k (some v)) + 1 = infCount d := by
  induction d with
  | nil => simp [objGet] at h
  | cons a t ih =>
    obtain ⟨k0, w⟩ := a
    unfold infCount at ih ⊢
    by_cases hk : k0 = k
    · subst hk
      simp only [objGet, if_true, Option.some.injEq] at h
      subst h
      simp [objSet, List.countP_cons]
    · simp only [objGet, hk, if_false] at h
      have := ih h
      simp only [objSet, hk, if_false, List.countP_cons]
      omega

theorem visitNeighbor_spec (current neighbor : NodeId) (st : PathState) (n : Nat)
    (hcur : objGet st.distances current = some (some n)) (hq : QueueFinite st) :
    objGet (visitNeighbor current st neighbor).distances current = some (some n) ∧
    QueueFinite (visitNeighbor current st neighbor) ∧
    (visitNeighbor current st neighbor).queue.length
        + infCount (visitNeighbor current st neighbor).distances
      = st.queue.length + infCount st.distances := by
  by_cases hinf : objGet st.distances neighbor = some none
  · have hne : neighbor ≠ current := by
      rintro rfl
      rw [hcur] at hinf
      simp at hinf
    have hplus : distPlusOne st.distances current = some (n + 1) := by
      simp [distPlusOne, hcur]
    have hd : (visitNeighbor current st neighbor).distances
        = objSet st.distances neighbor (some (n + 1)) := by
      unfold visitNeighbor
      simp only [hinf, if_true, hplus]
      split <;> rfl
    have hqu : (visitNeighbor current st neighbor).queue = st.queue ++ [neighbor] := by
      unfold visitNeighbor
      simp only [hinf, if_true]
      split <;> rfl
    rw [hd, hqu]
    refine ⟨?_, ?_, ?_⟩
    · rw [objGet_objSet, if_neg hne]
      exact hcur
    · intro x hx
      rw [hqu] at hx
      rw [hd, objGet_objSet]
      by_cases hxn : neighbor = x
      · exact ⟨n + 1, by rw [if_pos hxn]⟩
      · rw [if_neg hxn]
        rcases List.mem_append.1 hx with h1 | h1
        · exact hq x h1
        · exact absurd (List.mem_singleton.1 h1).symm hxn
    · have := infCount_objSet st.distances neighbor (n + 1) hinf
      simp only [List.length_append, List.length_singleton]
      omega
  · have hd : (visitNeighbor current st neighbor).distances = st.distances := by
      unfold visitNeighbor
      simp only [hinf, if_false]
      split <;> rfl
    have hqu : (visitNeighbor current st neighbor).queue = st.queue := by
      unfold visitNeighbor
      simp only [hinf, if_false]
      split <;> rfl
    refine ⟨by rw [hd]; exact hcur, ?_, by rw [hd, hqu]⟩
    intro x hx
    rw [hqu] at hx
    rw [hd]
    exact hq x hx

theorem foldl_visitNeighbor_spec (current : NodeId) (l : List NodeId) (st : PathState)
    (n : Nat) (hcur : objGet st.distances current = some (some n))
    (hq : QueueFinite st) :
    QueueFinite (l.foldl (visitNeighbor current) st) ∧
    (l.foldl (visitNeighbor current) st).queue.length
        + infCount (l.foldl (visitNeighbor current) st).distances
      = st.queue.length + infCount st.distances := by
  induction l generalizing st with
  | nil => exact ⟨hq, rfl⟩
  | cons a t ih =>
    obtain ⟨h1, h2, h3⟩ := visitNeighbor_spec current a st n hcur hq
    obtain ⟨h4, h5⟩ := ih (visitNeighbor current st a) h1 h2
    rw [List.foldl_cons]
    exact ⟨h4, by rw [h5, h3]⟩

theorem bfsPaths_isSome (adj : JsObj (List NodeId)) (fuel : Nat) (st : PathState)
    (hq : QueueFinite st) (h : st.queue.length + infCount st.distances < fuel) :
    ∃ r, bfsPaths adj fuel st = some r := by
  induction fuel generalizing st with
  | zero => omega
  | succ fuel ih =>
    unfold bfsPaths
    cases hqueue : st.queue with
    | nil => exact ⟨st.predecessors, rfl⟩
    | cons current q =>
      simp only
      obtain ⟨n, hn⟩ := hq current (by rw [hqueue]; exact List.mem_cons_self current q)
      have hq0 : QueueFinite { st with queue := q } := by
        intro x hx
        exact hq x (by rw [hqueue]; exact List.mem_cons_of_mem current hx)
      obtain ⟨h1, h2⟩ := foldl_visitNeighbor_spec current (neighbors adj current)
        { st with queue := q } n hn hq0
      apply ih _ h1
      rw [h2]
      rw [hqueue] at h
      simp only [List.length_cons] at h
      simp only
      omega

theorem bfsPaths_init_isSome (adj : JsObj (List NodeId)) (nodes : List NodeId)
    (source : NodeId) :
    ∃ r, bfsPaths adj ((initPathState nodes source).distances.length + 2)
      (initPathState nodes source) = some r := by
  apply bfsPaths_isSome
  · intro x hx
    simp only [initPathState, List.mem_singleton] at hx
    subst hx
    exact ⟨0, by simp [initPathState, objGet_objSet]⟩
  · have h1 : infCount (initPathState nodes source).distances
        ≤ (initPathState nodes source).distances.length := List.countP_le_length _
    have h2 : (initPathState nodes source).queue.length = 1 := rfl
    omega

theorem betweennessLoop_isSome (adj : JsObj (List NodeId)) (nodes l : List NodeId)
    (b : JsObj Nat) : ∃ r, betweennessLoop adj nodes l b = some r := by
  induction l generalizing b with
  | nil => exact ⟨b, rfl⟩
  | cons source t ih =>
    obtain ⟨p, hp⟩ := bfsPaths_init_isSome adj nodes source
    simp only [betweennessLoop, hp]
    exact ih _

theorem calculateEdgeBetweenness_isSome (nodes : List NodeId) (edges : List Edge)
    (hE : EndpointsDeclared nodes edges) :
    ∃ b, calculateEdgeBetweenness nodes edges = some b := by
  obtain ⟨adj, hadj⟩ := buildAdjacencyList_isSome nodes edges hE
  unfold buildAdjacencyList at hadj
  obtain ⟨r, hr⟩ := betweennessLoop_isSome adj nodes nodes
    (edges.foldl (fun b e => objSet b (edgeKey e.from_ e.to_) 0) [])
  exact ⟨r, by simp only [calculateEdgeBetweenness, hadj, hr]⟩

/-! ## The betweenness partitioner -/

theorem selectFold_index (betweenness : JsObj Nat) (l : List Edge) (n : Nat)
    (st : Nat × Nat) :
    ((l.enumFrom n).foldl (selectStep betweenness) st).2 = st.2 ∨
    ((l.enumFrom n).foldl (selectStep betweenness) st).2 < n + l.length := by
  induction l generalizing n st with
  | nil => exact Or.inl rfl
  | cons e es ih =>
    rw [List.enumFrom_cons, List.foldl_cons]
    simp only [List.length_cons]
    by_cases hb : edgeScore betweenness e > st.1
    · have hstep : selectStep betweenness st (n, e) = (edgeScore betweenness e, n) := by
        simp [selectStep, hb]
      rw [hstep]
      rcases ih (n + 1) (edgeScore betweenness e, n) with h | h
      · right
        rw [h]
        simp only
        omega
      · right
        omega
    · have hstep : selectStep betweenness st (n, e) = st := by
        simp [selectStep, hb]
      rw [hstep]
      rcases ih (n + 1) st with h | h
      · exact Or.inl h
      · right
        omega

theorem selectEdgeToRemove_lt (edges : List Edge) (betweenness : JsObj Nat)
    (h : edges ≠ []) : selectEdgeToRemove edges betweenness < edges.length := by
  have hpos : 0 < edges.length := List.length_pos.2 h
  unfold selectEdgeToRemove List.enum
  rcases selectFold_index betweenness edges 0 (0, 0) with h1 | h1
  · rw [h1]
    exact hpos
  · omega

theorem removeStep_spec (nodes : List NodeId) (edges : List Edge)
    (hE : EndpointsDeclared nodes edges) (h : edges ≠ []) :
    ∃ edges1, removeStep nodes edges = some edges1 ∧
      edges1.length + 1 = edges.length ∧ EndpointsDeclared nodes edges1 := by
  obtain ⟨b, hb⟩ := calculateEdgeBetweenness_isSome nodes edges hE
  refine ⟨edges.eraseIdx (selectEdgeToRemove edges b), by simp only [removeStep, hb], ?_, ?_⟩
  · have hlt := selectEdgeToRemove_lt edges b h
    rw [List.length_eraseIdx_of_lt hlt]
    omega
  · intro e he
    exact hE e (List.mem_of_mem_eraseIdx he)

theorem singletons_isPartitionOf (nodes : List NodeId) (hnd : nodes.Nodup) :
    IsPartitionOf nodes (nodes.map (fun n => [n])) := by
  have hdis : (nodes.map (fun n => [n])).Pairwise List.Disjoint := by
    rw [List.pairwise_map]
    refine List.Pairwise.imp ?_ hnd
    intro a b hab x hxa hxb
    rw [List.mem_singleton] at hxa hxb
    exact hab (hxa.symm.trans hxb)
  refine ⟨?_, hdis, ?_⟩
  · intro c hc
    obtain ⟨n, hn, rfl⟩ := List.mem_map.1 hc
    exact ⟨List.nodup_singleton n, fun v hv => by rw [List.mem_singleton.1 hv]; exact hn⟩
  · intro v hv
    exact countP_mem_eq_one _ v hdis [v] (List.mem_map.2 ⟨v, hv, rfl⟩)
      (List.mem_singleton.2 rfl)

theorem targetCommunities_le_length (nodes : List NodeId) :
    targetCommunities nodes ≤ nodes.length := by
  unfold targetCommunities
  have : (nodes.length + 3) / 4 ≤ nodes.length := by omega
  exact le_trans (min_le_right _ _) this

theorem girvanNewmanLoop_spec (nodes : List NodeId) (fuel : Nat) (edges : List Edge)
    (hfuel : edges.length ≤ fuel) (hE : EndpointsDeclared nodes edges) :
    ∃ comms, girvanNewmanLoop nodes fuel edges = some comms ∧
      targetCommunities nodes ≤ comms.length ∧
      (nodes.Nodup → IsPartitionOf nodes comms) := by
  induction fuel generalizing edges with
  | zero =>
    cases edges with
    | nil =>
      exact ⟨_, rfl, by simpa using targetCommunities_le_length nodes,
        singletons_isPartitionOf nodes⟩
    | cons e es => simp at hfuel
  | succ fuel ih =>
    cases edges with
    | nil =>
      exact ⟨_, rfl, by simpa using targetCommunities_le_length nodes,
        singletons_isPartitionOf nodes⟩
    | cons e es =>
      obtain ⟨comps, hc1, hc2, _⟩ := findConnectedComponents_spec nodes (e :: es) hE
      by_cases ht : comps.length ≥ targetCommunities nodes
      · exact ⟨comps, by simp only [girvanNewmanLoop, hc1, ht, if_true], ht, fun _ => hc2⟩
      · obtain ⟨edges1, hr1, hr2, hr3⟩ := removeStep_spec nodes (e :: es) hE (by simp)
        obtain ⟨comms, hm1, hm2⟩ := ih edges1 (by
          simp only [List.length_cons] at hfuel hr2
          omega) hr3
        exact ⟨comms, by simp only [girvanNewmanLoop, hc1, ht, if_false, hr1, hm1], hm2⟩

/-- C2: on a graph with distinct node ids whose edge endpoints are declared
nodes, `girvanNewmanAlgorithm` returns a list of communities that is a partition
of the node set, on both exits (the current components, or all singletons). -/
theorem girvanNewmanAlgorithm_isPartitionOf (nodes : List NodeId) (edges : List Edge)
    (hnd : nodes.Nodup) (hE : EndpointsDeclared nodes edges) :
    ∃ comms, girvanNewmanAlgorithm nodes edges = some comms ∧
      IsPartitionOf nodes comms := by
  obtain ⟨comms, h1, _, h3⟩ := girvanNewmanLoop_spec nodes edges.length edges
    (Nat.le_refl _) hE
  exact ⟨comms, h1, h3 hnd⟩

/-- C9: on a graph whose edge endpoints are declared nodes, the list returned by
`girvanNewmanAlgorithm` has at least `min(5, ceil(n / 4))` communities, `n`
being the number of nodes. -/
theorem girvanNewmanAlgorithm_length (nodes : List NodeId) (edges : List Edge)
    (hE : EndpointsDeclared nodes edges) :
    ∃ comms, girvanNewmanAlgorithm nodes edges = some comms ∧
      min 5 ((nodes.length + 3) / 4) ≤ comms.length := by
  obtain ⟨comms, h1, h2, _⟩ := girvanNewmanLoop_spec nodes edges.length edges
    (Nat.le_refl _) hE
  exact ⟨comms, h1, h2⟩

/-! ## Rounding to binary64 -/

theorem log2Fuel_spec (fuel n : Nat) (hn : 0 < n) (hf : n ≤ fuel) :
    2 ^ log2Fuel fuel n ≤ n ∧ n < 2 ^ (log2Fuel fuel n + 1) := by
  induction fuel generalizing n with
  | zero => omega
  | succ f ih =>
    unfold log2Fuel
    split
    · constructor <;> simp <;> omega
    · obtain ⟨h3, h4⟩ := ih (n / 2) (by omega) (by omega)
      rw [pow_succ] at h4
      constructor
      · rw [pow_succ]; omega
      · rw [pow_succ, pow_succ]; omega

theorem bitLog_spec (n : Nat) (hn : 0 < n) :
    2 ^ bitLog n ≤ n ∧ n < 2 ^ (bitLog n + 1) :=
  log2Fuel_spec n n hn (Nat.le_refl n)

theorem floorLog2_le (a b : Nat) (ha : 0 < a) (hb : 0 < b) :
    (2 : ℚ) ^ floorLog2 a b ≤ (a : ℚ) / b := by
  obtain ⟨ha1, _⟩ := bitLog_spec a ha
  obtain ⟨_, hb2⟩ := bitLog_spec b hb
  have hbq : (0 : ℚ) < b := by exact_mod_cast hb
  have h2 : (2 : ℚ) ≠ 0 := by norm_num
  have hpa : (0 : ℚ) < 2 ^ bitLog a := by positivity
  have hpb : (0 : ℚ) < 2 ^ bitLog b := by positivity
  unfold floorLog2
  split
  · rename_i hc
    rw [zpow_sub₀ h2, zpow_natCast, zpow_natCast, div_le_div_iff₀ hpb hbq]
    have : ((b * 2 ^ bitLog a : Nat) : ℚ) ≤ ((a * 2 ^ bitLog b : Nat) : ℚ) := by
      exact_mod_cast hc
    push_cast at this
    linarith
  · rw [zpow_sub₀ h2, zpow_sub₀ h2, zpow_natCast, zpow_natCast, zpow_one, div_div,
      div_le_div_iff₀ (by positivity) hbq]
    have h1 : ((2 ^ bitLog a : Nat) : ℚ) ≤ (a : ℚ) := by exact_mod_cast ha1
    have h3 : ((b : Nat) : ℚ) ≤ ((2 ^ (bitLog b + 1) : Nat) : ℚ) := by
      exact_mod_cast hb2.le
    push_cast at h1 h3
    rw [pow_succ] at h3
    calc (2 : ℚ) ^ bitLog a * b ≤ a * b := by
          apply mul_le_mul_of_nonneg_right h1 hbq.le
      _ ≤ a * (2 ^ bitLog b * 2) := by
          apply mul_le_mul_of_nonneg_left h3 (by positivity)

theorem lt_floorLog2_succ (a b : Nat) (ha : 0 < a) (hb : 0 < b) :
    (a : ℚ) / b < (2 : ℚ) ^ (floorLog2 a b + 1) := by
  obtain ⟨_, ha2⟩ := bitLog_spec a ha
  obtain ⟨hb1, _⟩ := bitLog_spec b hb
  have hbq : (0 : ℚ) < b := by exact_mod_cast hb
  have haq : (0 : ℚ) < a := by exact_mod_cast ha
  have h2 : (2 : ℚ) ≠ 0 := by norm_num
  have hpa : (0 : ℚ) < 2 ^ bitLog a := by positivity
  have hpb : (0 : ℚ) < 2 ^ bitLog b := by positivity
  unfold floorLog2
  split
  · rw [zpow_add₀ h2, zpow_sub₀ h2, zpow_natCast, zpow_natCast, zpow_one, div_mul_eq_mul_div,
      div_lt_div_iff₀ hbq hpb]
    have h1 : ((a : Nat) : ℚ) < ((2 ^ (bitLog a + 1) : Nat) : ℚ) := by exact_mod_cast ha2
    have h3 : ((2 ^ bitLog b : Nat) : ℚ) ≤ (b : ℚ) := by exact_mod_cast hb1
    push_cast at h1 h3
    rw [pow_succ] at h1
    calc (a : ℚ) * 2 ^ bitLog b ≤ a * b := by
          apply mul_le_mul_of_nonneg_left h3 haq.le
      _ < 2 ^ bitLog a * 2 * b := by
          apply mul_lt_mul_of_pos_right h1 hbq
  · rename_i hc
    have hc1 : a * 2 ^ bitLog b < b * 2 ^ bitLog a := Nat.lt_of_not_le hc
    have : ((a * 2 ^ bitLog b : Nat) : ℚ) < ((b * 2 ^ bitLog a : Nat) : ℚ) := by
      exact_mod_cast hc1
    push_cast at this
    have he : (bitLog a : Int) - bitLog b - 1 + 1 = (bitLog a : Int) - bitLog b := by ring
    rw [he, zpow_sub₀ h2, zpow_natCast, zpow_natCast, div_lt_div_iff₀ hbq hpb]
    linarith

theorem roundHalfEven_spec (n d : Nat) (hd : 0 < d) :
    2 * (roundHalfEven n d * d) ≤ 2 * n + d ∧ 2 * n ≤ 2 * (roundHalfEven n d * d) + d := by
  have h1 := Nat.div_add_mod n d
  have h2 := Nat.mod_lt n hd
  have h3 : (n / d + 1) * d = n / d * d + d := by ring
  have h4 : d * (n / d) = n / d * d := Nat.mul_comm _ _
  unfold roundHalfEven
  simp only []
  split
  · omega
  · split
    · rw [h3]; omega
    · split
      · omega
      · rw [h3]; omega

theorem roundHalfEven_error (n d : Nat) (hd : 0 < d) :
    |(roundHalfEven n d : ℚ) - (n : ℚ) / d| ≤ 1 / 2 := by
  obtain ⟨h1, h2⟩ := roundHalfEven_spec n d hd
  have hdq : (0 : ℚ) < d := by exact_mod_cast hd
  have h1q : ((2 * (roundHalfEven n d * d) : Nat) : ℚ) ≤ ((2 * n + d : Nat) : ℚ) := by
    exact_mod_cast h1
  have h2q : ((2 * n : Nat) : ℚ) ≤ ((2 * (roundHalfEven n d * d) + d : Nat) : ℚ) := by
    exact_mod_cast h2
  push_cast at h1q h2q
  rw [abs_le]
  constructor
  · rw [le_sub_iff_add_le, ← sub_eq_neg_add, sub_le_iff_le_add, div_le_iff₀ hdq]
    linarith
  · rw [sub_le_iff_le_add, ← sub_le_iff_le_add', le_div_iff₀ hdq]
    linarith

theorem roundPos_nonneg (a b : Nat) : 0 ≤ roundPos a b := by
  unfold roundPos
  simp only []
  split
  · rw [Rat.mkRat_eq_div]
    apply div_nonneg
    · exact_mod_cast Int.natCast_nonneg _
    · exact_mod_cast Int.natCast_nonneg _
  · exact Nat.cast_nonneg _

theorem roundPos_error (a b : Nat) (ha : 0 < a) (hb : 0 < b) :
    |roundPos a b - (a : ℚ) / b| ≤ (a : ℚ) / b * unitRoundoff := by
  have hbq : (0 : ℚ) < b := by exact_mod_cast hb
  have h2 : (2 : ℚ) ≠ 0 := by norm_num
  have hlow := floorLog2_le a b ha hb
  unfold roundPos unitRoundoff
  simp only []
  split
  · rename_i hs
    obtain ⟨k, hk⟩ := Int.eq_ofNat_of_zero_le hs
    have hkq : (0 : ℚ) < 2 ^ k := by positivity
    have he : floorLog2 a b = 52 - (k : Int) := by omega
    rw [he, zpow_sub₀ h2, zpow_natCast] at hlow
    have hlow1 : (2 : ℚ) ^ (52 : Int) = 2 ^ 52 := by norm_cast
    rw [hlow1, div_le_iff₀ hkq] at hlow
    rw [hk, Int.toNat_ofNat, Rat.mkRat_eq_div]
    have herr := roundHalfEven_error (a * 2 ^ k) b hb
    push_cast at herr ⊢
    have hsplit : (roundHalfEven (a * 2 ^ k) b : ℚ) / 2 ^ k - (a : ℚ) / b
        = ((roundHalfEven (a * 2 ^ k) b : ℚ) - (a : ℚ) * 2 ^ k / b) / 2 ^ k := by
      field_simp
      ring
    rw [hsplit, abs_div, abs_of_pos hkq, div_le_iff₀ hkq]
    calc |(roundHalfEven (a * 2 ^ k) b : ℚ) - (a : ℚ) * 2 ^ k / b| ≤ 1 / 2 := herr
      _ = 2 ^ 52 * (1 / 2 ^ 53) := by norm_num
      _ ≤ (a : ℚ) / b * 2 ^ k * (1 / 2 ^ 53) := by
          apply mul_le_mul_of_nonneg_right hlow (by positivity)
      _ = (a : ℚ) / b * (1 / 2 ^ 53) * 2 ^ k := by ring
  · rename_i hs
    obtain ⟨k, hk⟩ := Int.eq_ofNat_of_zero_le (show 0 ≤ -(52 - floorLog2 a b) by omega)
    have hkq : (0 : ℚ) < 2 ^ k := by positivity
    have he : floorLog2 a b = 52 + (k : Int) := by omega
    rw [he, zpow_add₀ h2, zpow_natCast] at hlow
    have hlow1 : (2 : ℚ) ^ (52 : Int) = 2 ^ 52 := by norm_cast
    rw [hlow1] at hlow
    rw [hk, Int.toNat_ofNat]
    have herr := roundHalfEven_error a (b * 2 ^ k) (by positivity)
    push_cast at herr ⊢
    have hsplit : (roundHalfEven a (b * 2 ^ k) : ℚ) * 2 ^ k - (a : ℚ) / b
        = ((roundHalfEven a (b * 2 ^ k) : ℚ) - (a : ℚ) / (b * 2 ^ k)) * 2 ^ k := by
      field_simp
      ring
    rw [hsplit, abs_mul, abs_of_pos hkq]
    calc |(roundHalfEven a (b * 2 ^ k) : ℚ) - (a : ℚ) / (b * 2 ^ k)| * 2 ^ k
        ≤ 1 / 2 * 2 ^ k := by
          apply mul_le_mul_of_nonneg_right herr hkq.le
      _ = 2 ^ 52 * 2 ^ k * (1 / 2 ^ 53) := by ring
      _ ≤ (a : ℚ) / b * (1 / 2 ^ 53) := by
          apply mul_le_mul_of_nonneg_right hlow (by positivity)

theorem round64_zero : round64 0 = 0 := by
  simp [round64]

theorem rat_eq_natAbs_div (q : ℚ) (hq : 0 < q) : q = (q.num.natAbs : ℚ) / q.den := by
  have h1 : 0 < q.num := Rat.num_pos.2 hq
  have h3 : (q.num.natAbs : ℚ) = (q.num : ℚ) := by
    rw [Nat.cast_natAbs, abs_of_pos h1]
  rw [h3]
  exact (Rat.num_div_den q).symm

theorem round64_of_pos (q : ℚ) (hq : 0 < q) :
    round64 q = roundPos q.num.natAbs q.den := by
  simp [round64, hq, hq.ne']

theorem round64_of_neg (q : ℚ) (hq : q < 0) :
    round64 q = - roundPos (-q).num.natAbs (-q).den := by
  simp [round64, hq.ne, not_lt.2 hq.le]

theorem round64_neg (q : ℚ) : round64 (-q) = - round64 q := by
  rcases lt_trichotomy q 0 with h | h | h
  · rw [round64_of_neg q h, round64_of_pos (-q) (neg_pos.2 h), neg_neg]
  · subst h
    simp [round64_zero]
  · rw [round64_of_pos q h, round64_of_neg (-q) (neg_neg_of_pos h), neg_neg]

theorem round64_nonneg (q : ℚ) (hq : 0 ≤ q) : 0 ≤ round64 q := by
  rcases hq.eq_or_lt with h | h
  · rw [← h, round64_zero]
  · rw [round64_of_pos q h]
    exact roundPos_nonneg _ _

theorem round64_nonpos (q : ℚ) (hq : q ≤ 0) : round64 q ≤ 0 := by
  have h := round64_nonneg (-q) (neg_nonneg.2 hq)
  rw [round64_neg] at h
  exact neg_nonneg.1 h

theorem round64_error_of_pos (q : ℚ) (hq : 0 < q) :
    |round64 q - q| ≤ q * unitRoundoff := by
  have h := roundPos_error q.num.natAbs q.den
    (Int.natAbs_pos.2 (Rat.num_pos.2 hq).ne') q.den_pos
  rw [round64_of_pos q hq]
  rw [← rat_eq_natAbs_div q hq] at h
  exact h

theorem round64_error (q : ℚ) : |round64 q - q| ≤ |q| * unitRoundoff := by
  rcases lt_trichotomy q 0 with h | h | h
  · have h1 := round64_error_of_pos (-q) (neg_pos.2 h)
    have h2 : round64 (-q) - -q = -(round64 q - q) := by
      rw [round64_neg]
      ring
    rw [h2, abs_neg] at h1
    rw [abs_of_neg h]
    exact h1
  · subst h
    simp [round64_zero]
  · rw [abs_of_pos h]
    exact round64_error_of_pos q h

theorem roundPos_format (a b : Nat) (ha : 0 < a) (hb : 0 < b) :
    ∃ m : Nat, 2 ^ 52 ≤ m ∧ m ≤ 2 ^ 53 ∧
      roundPos a b = (m : ℚ) * (2 : ℚ) ^ (floorLog2 a b - 52) := by
  have hbq : (0 : ℚ) < b := by exact_mod_cast hb
  have h2 : (2 : ℚ) ≠ 0 := by norm_num
  have hlow := floorLog2_le a b ha hb
  have hupp := lt_floorLog2_succ a b ha hb
  have h52 : (2 : ℚ) ^ (52 : Int) = 2 ^ 52 := by norm_cast
  have hbound : ∀ (m : Nat) (y : ℚ), |(m : ℚ) - y| ≤ 1 / 2 → (2 : ℚ) ^ 52 ≤ y →
      y < 2 ^ 53 → 2 ^ 52 ≤ m ∧ m ≤ 2 ^ 53 := by
    intro m y hm h1 h3
    rw [abs_le] at hm
    have hm1 : ((2 ^ 52 : Nat) : ℚ) < (m : ℚ) + 1 := by
      push_cast
      linarith [hm.1]
    have hm2 : (m : ℚ) < ((2 ^ 53 : Nat) : ℚ) + 1 := by
      push_cast
      linarith [hm.2]
    have hm3 : 2 ^ 52 < m + 1 := by exact_mod_cast hm1
    have hm4 : m < 2 ^ 53 + 1 := by exact_mod_cast hm2
    constructor <;> omega
  unfold roundPos
  simp only []
  split
  · rename_i hs
    obtain ⟨k, hk⟩ := Int.eq_ofNat_of_zero_le hs
    have hkq : (0 : ℚ) < 2 ^ k := by positivity
    have he : floorLog2 a b = 52 - (k : Int) := by omega
    have he1 : floorLog2 a b + 1 = 53 - (k : Int) := by omega
    have h53 : (2 : ℚ) ^ (53 : Int) = 2 ^ 53 := by norm_cast
    rw [he, zpow_sub₀ h2, zpow_natCast, h52, div_le_iff₀ hkq] at hlow
    rw [he1, zpow_sub₀ h2, zpow_natCast, h53, lt_div_iff₀ hkq] at hupp
    have herr := roundHalfEven_error (a * 2 ^ k) b hb
    push_cast at herr
    have hy : (a : ℚ) * 2 ^ k / b = (a : ℚ) / b * 2 ^ k := by ring
    rw [hy] at herr
    obtain ⟨hm1, hm2⟩ := hbound _ _ herr hlow hupp
    refine ⟨_, hm1, hm2, ?_⟩
    have hexp : floorLog2 a b - 52 = -(k : Int) := by omega
    rw [hk, Int.toNat_ofNat, Rat.mkRat_eq_div, hexp, zpow_neg, zpow_natCast]
    push_cast
    rfl
  · rename_i hs
    obtain ⟨k, hk⟩ := Int.eq_ofNat_of_zero_le (show 0 ≤ -(52 - floorLog2 a b) by omega)
    have hkq : (0 : ℚ) < 2 ^ k := by positivity
    have he : floorLog2 a b = 52 + (k : Int) := by omega
    have he1 : floorLog2 a b + 1 = 53 + (k : Int) := by omega
    have h53 : (2 : ℚ) ^ (53 : Int) = 2 ^ 53 := by norm_cast
    rw [he, zpow_add₀ h2, zpow_natCast, h52] at hlow
    rw [he1, zpow_add₀ h2, zpow_natCast, h53] at hupp
    have herr := roundHalfEven_error a (b * 2 ^ k) (by positivity)
    push_cast at herr
    have hy1 : (2 : ℚ) ^ 52 ≤ (a : ℚ) / (b * 2 ^ k) := by
      rw [le_div_iff₀ (by positivity)]
      rw [le_div_iff₀ hbq] at hlow
      linarith
    have hy2 : (a : ℚ) / (b * 2 ^ k) < 2 ^ 53 := by
      rw [div_lt_iff₀ (by positivity)]
      rw [div_lt_iff₀ hbq] at hupp
      linarith
    obtain ⟨hm1, hm2⟩ := hbound _ _ herr hy1 hy2
    refine ⟨_, hm1, hm2, ?_⟩
    have hexp : floorLog2 a b - 52 = (k : Int) := by omega
    rw [hk, Int.toNat_ofNat, hexp, zpow_natCast]
    push_cast
    rfl

theorem roundPos_halfUlp (a b : Nat) (hb : 0 < b) :
    |roundPos a b - (a : ℚ) / b| ≤ (2 : ℚ) ^ (floorLog2 a b - 52) / 2 := by
  have hbq : (0 : ℚ) < b := by exact_mod_cast hb
  unfold roundPos
  simp only []
  split
  · rename_i hs
    obtain ⟨k, hk⟩ := Int.eq_ofNat_of_zero_le hs
    have hkq : (0 : ℚ) < 2 ^ k := by positivity
    have hexp : floorLog2 a b - 52 = -(k : Int) := by omega
    rw [hk, Int.toNat_ofNat, Rat.mkRat_eq_div, hexp, zpow_neg, zpow_natCast]
    have herr := roundHalfEven_error (a * 2 ^ k) b hb
    push_cast at herr ⊢
    have hsplit : (roundHalfEven (a * 2 ^ k) b : ℚ) / 2 ^ k - (a : ℚ) / b
        = ((roundHalfEven (a * 2 ^ k) b : ℚ) - (a : ℚ) * 2 ^ k / b) / 2 ^ k := by
      field_simp
      ring
    rw [hsplit, abs_div, abs_of_pos hkq, div_le_iff₀ hkq]
    calc |(roundHalfEven (a * 2 ^ k) b : ℚ) - (a : ℚ) * 2 ^ k / b| ≤ 1 / 2 := herr
      _ = ((2 : ℚ) ^ k)⁻¹ / 2 * 2 ^ k := by field_simp
  · rename_i hs
    obtain ⟨k, hk⟩ := Int.eq_ofNat_of_zero_le (show 0 ≤ -(52 - floorLog2 a b) by omega)
    have hkq : (0 : ℚ) < 2 ^ k := by positivity
    have hexp : floorLog2 a b - 52 = (k : Int) := by omega
    rw [hk, Int.toNat_ofNat, hexp, zpow_natCast]
    have herr := roundHalfEven_error a (b * 2 ^ k) (by positivity)
    push_cast at herr ⊢
    have hsplit : (roundHalfEven a (b * 2 ^ k) : ℚ) * 2 ^ k - (a : ℚ) / b
        = ((roundHalfEven a (b * 2 ^ k) : ℚ) - (a : ℚ) / (b * 2 ^ k)) * 2 ^ k := by
      field_simp
      ring
    rw [hsplit, abs_mul, abs_of_pos hkq]
    calc |(roundHalfEven a (b * 2 ^ k) : ℚ) - (a : ℚ) / (b * 2 ^ k)| * 2 ^ k
        ≤ 1 / 2 * 2 ^ k := mul_le_mul_of_nonneg_right herr hkq.le
      _ = (2 : ℚ) ^ k / 2 := by ring

theorem round64_format (q : ℚ) (hq : 0 < q) :
    ∃ (m : Nat) (k : Int), 2 ^ 52 ≤ m ∧ m ≤ 2 ^ 53 ∧
      round64 q = (m : ℚ) * (2 : ℚ) ^ k ∧ |round64 q - q| ≤ (2 : ℚ) ^ k / 2 := by
  have ha : 0 < q.num.natAbs := Int.natAbs_pos.2 (Rat.num_pos.2 hq).ne'
  obtain ⟨m, h1, h2, h3⟩ := roundPos_format q.num.natAbs q.den ha q.den_pos
  have h4 := roundPos_halfUlp q.num.natAbs q.den q.den_pos
  rw [← rat_eq_natAbs_div q hq] at h4
  refine ⟨m, floorLog2 q.num.natAbs q.den - 52, h1, h2, ?_, ?_⟩
  · rw [round64_of_pos q hq]
    exact h3
  · rw [round64_of_pos q hq]
    exact h4

/-! ## Accumulated rounding error of the modularity sum -/

theorem unitRoundoff_facts :
    0 < unitRoundoff ∧ unitRoundoff < 1 ∧
      1 ≤ (1 - unitRoundoff) * (1 + unitRoundoff) ^ 2 ∧
      (1 - unitRoundoff) * (1 + unitRoundoff) ≤ 1 ∧
      1 - (1 - unitRoundoff) ^ 3 ≤ (1 + unitRoundoff) ^ 4 - 1 := by
  unfold unitRoundoff
  norm_num

theorem round64_bounds (x : ℚ) (hx : 0 ≤ x) :
    x * (1 - unitRoundoff) ≤ round64 x ∧ round64 x ≤ x * (1 + unitRoundoff) := by
  have h := round64_error x
  rw [abs_of_nonneg hx, abs_le] at h
  constructor <;> linarith [h.1, h.2]

theorem ratio_bounds (D : ℚ) (hD : 0 < D) :
    0 < round64 D ∧ 1 - unitRoundoff ≤ D / round64 D ∧
      D / round64 D ≤ (1 + unitRoundoff) ^ 2 := by
  obtain ⟨hu0, hu1, hF1, hF2, _⟩ := unitRoundoff_facts
  obtain ⟨hd1, hd2⟩ := round64_bounds D hD.le
  generalize unitRoundoff = u at *
  generalize round64 D = d at *
  have hdpos : 0 < d := lt_of_lt_of_le (mul_pos hD (by linarith)) hd1
  refine ⟨hdpos, ?_, ?_⟩
  · rw [le_div_iff₀ hdpos]
    calc (1 - u) * d ≤ (1 - u) * (D * (1 + u)) :=
          mul_le_mul_of_nonneg_left hd2 (by linarith)
      _ = D * ((1 - u) * (1 + u)) := by ring
      _ ≤ D * 1 := mul_le_mul_of_nonneg_left hF2 hD.le
      _ = D := mul_one D
  · rw [div_le_iff₀ hdpos]
    calc D = D * 1 := (mul_one D).symm
      _ ≤ D * ((1 - u) * (1 + u) ^ 2) := mul_le_mul_of_nonneg_left hF1 hD.le
      _ = (1 + u) ^ 2 * (D * (1 - u)) := by ring
      _ ≤ (1 + u) ^ 2 * d := mul_le_mul_of_nonneg_left hd1 (by positivity)

theorem quotient_bounds (P D : ℚ) (hP : 0 ≤ P) (hD : 0 < D) :
    P / D * (1 - unitRoundoff) ^ 3 ≤ numDiv (round64 P) (round64 D) ∧
      numDiv (round64 P) (round64 D) ≤ P / D * (1 + unitRoundoff) ^ 4 := by
  obtain ⟨hu0, hu1, _, _, _⟩ := unitRoundoff_facts
  obtain ⟨hp1, hp2⟩ := round64_bounds P hP
  obtain ⟨hdpos, hc1, hc2⟩ := ratio_bounds D hD
  have hp0 : 0 ≤ round64 P := round64_nonneg P hP
  have hx0 : 0 ≤ round64 P / round64 D := div_nonneg hp0 hdpos.le
  obtain ⟨ht1, ht2⟩ := round64_bounds (round64 P / round64 D) hx0
  have hx : round64 P / round64 D = round64 P * (D / round64 D) / D := by
    field_simp
    ring
  unfold numDiv
  generalize round64 (round64 P / round64 D) = t at *
  rw [hx] at ht1 ht2
  generalize D / round64 D = c at *
  generalize round64 P = p at *
  generalize unitRoundoff = u at *
  have h1u : 0 ≤ 1 - u := by linarith
  have hc0 : 0 ≤ c := le_trans h1u hc1
  constructor
  · calc P / D * (1 - u) ^ 3 = P * (1 - u) * (1 - u) / D * (1 - u) := by ring
      _ ≤ p * c / D * (1 - u) := by
          apply mul_le_mul_of_nonneg_right _ h1u
          apply div_le_div_of_nonneg_right _ hD.le
          exact mul_le_mul hp1 hc1 h1u hp0
      _ ≤ t := ht1
  · calc t ≤ p * c / D * (1 + u) := ht2
      _ ≤ P * (1 + u) * (1 + u) ^ 2 / D * (1 + u) := by
          apply mul_le_mul_of_nonneg_right _ (by linarith)
          apply div_le_div_of_nonneg_right _ hD.le
          exact mul_le_mul hp2 hc2 hc0 (mul_nonneg hP (by linarith))
      _ = P / D * (1 + u) ^ 4 := by ring

theorem term_error (A P D : ℚ) (hA : 0 ≤ A) (hP : 0 ≤ P) (hD : 0 < D) :
    |numSub A (numDiv (round64 P) (round64 D)) - (A - P / D)|
      ≤ ((1 + unitRoundoff) ^ 5 - 1) * (A + P / D) := by
  obtain ⟨hu0, hu1, _, _, hF3⟩ := unitRoundoff_facts
  obtain ⟨ht1, ht2⟩ := quotient_bounds P D hP hD
  have hy : 0 ≤ P / D := div_nonneg hP hD.le
  unfold numSub
  have hs := round64_error (A - numDiv (round64 P) (round64 D))
  generalize numDiv (round64 P) (round64 D) = t at *
  generalize round64 (A - t) = s at *
  generalize P / D = y at *
  generalize unitRoundoff = u at *
  have hr4 : 1 ≤ (1 + u) ^ 4 := one_le_pow₀ (by linarith)
  have hr5 : (1 + u) ^ 5 = (1 + u) ^ 4 * (1 + u) := by ring
  rw [hr5]
  generalize (1 + u) ^ 4 = R at *
  have ht0 : 0 ≤ t := le_trans (mul_nonneg hy (pow_nonneg (by linarith) 3)) ht1
  have hty : |t - y| ≤ (R - 1) * y := by
    rw [abs_le]
    constructor
    · have : y * (1 - (1 - u) ^ 3) ≤ y * (R - 1) := mul_le_mul_of_nonneg_left hF3 hy
      linarith
    · linarith
  have hat : |A - t| ≤ A + t := by
    rw [abs_le]
    constructor <;> linarith
  have hsu : |s - (A - t)| ≤ (A + y * R) * u := by
    calc |s - (A - t)| ≤ |A - t| * u := hs
      _ ≤ (A + t) * u := mul_le_mul_of_nonneg_right hat hu0.le
      _ ≤ (A + y * R) * u := by
          apply mul_le_mul_of_nonneg_right _ hu0.le
          linarith
  have hsplit : s - (A - y) = (s - (A - t)) - (t - y) := by ring
  rw [hsplit]
  have hAR : 0 ≤ A * (R - 1) * (1 + u) :=
    mul_nonneg (mul_nonneg hA (by linarith)) (by linarith)
  calc |(s - (A - t)) - (t - y)| ≤ |s - (A - t)| + |t - y| := abs_sub _ _
    _ ≤ (A + y * R) * u + (R - 1) * y := add_le_add hsu hty
    _ ≤ (R * (1 + u) - 1) * (A + y) := by nlinarith [hAR]

theorem term_abs (A P D : ℚ) (hA : 0 ≤ A) (hP : 0 ≤ P) (hD : 0 < D) :
    |A - P / D| ≤ A + P / D := by
  have hy : 0 ≤ P / D := div_nonneg hP hD.le
  rw [abs_le]
  constructor <;> linarith

theorem accumulate_error (k : Nat) (Q S W t e w : ℚ)
    (h1 : |Q - S| ≤ ((1 + unitRoundoff) ^ (k + 5) - 1) * W) (h2 : |S| ≤ W)
    (h3 : |t - e| ≤ ((1 + unitRoundoff) ^ 5 - 1) * w) (h4 : |e| ≤ w) :
    |numAdd Q t - (S + e)| ≤ ((1 + unitRoundoff) ^ (k + 1 + 5) - 1) * (W + w) ∧
      |S + e| ≤ W + w := by
  obtain ⟨hu0, hu1, _, _, _⟩ := unitRoundoff_facts
  have hW : 0 ≤ W := le_trans (abs_nonneg S) h2
  have hw : 0 ≤ w := le_trans (abs_nonneg e) h4
  have hSe : |S + e| ≤ W + w := le_trans (abs_add S e) (add_le_add h2 h4)
  refine ⟨?_, hSe⟩
  unfold numAdd
  have hs := round64_error (Q + t)
  generalize round64 (Q + t) = z at *
  have hpow : (1 + unitRoundoff) ^ (k + 1 + 5) = (1 + unitRoundoff) ^ (k + 5) * (1 + unitRoundoff) := by
    ring
  have hmono : (1 + unitRoundoff) ^ 5 ≤ (1 + unitRoundoff) ^ (k + 5) :=
    pow_le_pow_right₀ (by linarith) (by omega)
  have hone : 1 ≤ (1 + unitRoundoff) ^ 5 := one_le_pow₀ (by linarith)
  rw [hpow]
  generalize (1 + unitRoundoff) ^ (k + 5) = R at *
  generalize (1 + unitRoundoff) ^ 5 = R0 at *
  generalize unitRoundoff = u at *
  have hy : |(Q + t) - (S + e)| ≤ (R - 1) * (W + w) := by
    have hsplit : (Q + t) - (S + e) = (Q - S) + (t - e) := by ring
    rw [hsplit]
    calc |(Q - S) + (t - e)| ≤ |Q - S| + |t - e| := abs_add _ _
      _ ≤ (R - 1) * W + (R0 - 1) * w := add_le_add h1 h3
      _ ≤ (R - 1) * W + (R - 1) * w := by
          apply add_le_add_left
          apply mul_le_mul_of_nonneg_right _ hw
          linarith
      _ = (R - 1) * (W + w) := by ring
  have hyabs : |Q + t| ≤ R * (W + w) := by
    have hsplit : Q + t = ((Q + t) - (S + e)) + (S + e) := by ring
    rw [hsplit]
    calc |((Q + t) - (S + e)) + (S + e)| ≤ |(Q + t) - (S + e)| + |S + e| := abs_add _ _
      _ ≤ (R - 1) * (W + w) + (W + w) := add_le_add hy hSe
      _ = R * (W + w) := by ring
  have hsplit : z - (S + e) = (z - (Q + t)) + ((Q + t) - (S + e)) := by ring
  rw [hsplit]
  calc |(z - (Q + t)) + ((Q + t) - (S + e))| ≤ |z - (Q + t)| + |(Q + t) - (S + e)| :=
        abs_add _ _
    _ ≤ R * (W + w) * u + (R - 1) * (W + w) := by
        apply add_le_add _ hy
        exact le_trans hs (mul_le_mul_of_nonneg_right hyabs hu0.le)
    _ = (R * (1 + u) - 1) * (W + w) := by ring

theorem foldl_error {α : Type} (t e w : α → ℚ) (l : List α)
    (hl : ∀ x ∈ l, |t x - e x| ≤ ((1 + unitRoundoff) ^ 5 - 1) * w x ∧ |e x| ≤ w x)
    (k : Nat) (Q S W : ℚ)
    (h1 : |Q - S| ≤ ((1 + unitRoundoff) ^ (k + 5) - 1) * W) (h2 : |S| ≤ W) :
    |l.foldl (fun Q x => numAdd Q (t x)) Q - (S + (l.map e).sum)|
        ≤ ((1 + unitRoundoff) ^ (k + l.length + 5) - 1) * (W + (l.map w).sum) ∧
      |S + (l.map e).sum| ≤ W + (l.map w).sum := by
  induction l generalizing k Q S W with
  | nil => simpa using ⟨h1, h2⟩
  | cons a l ih =>
    obtain ⟨ha1, ha2⟩ := hl a (List.mem_cons_self a l)
    obtain ⟨hs1, hs2⟩ := accumulate_error k Q S W (t a) (e a) (w a) h1 h2 ha1 ha2
    have := ih (fun x hx => hl x (List.mem_cons_of_mem a hx)) (k + 1) _ _ _ hs1 hs2
    simp only [List.foldl_cons, List.map_cons, List.sum_cons, List.length_cons]
    have hk : k + (l.length + 1) + 5 = k + 1 + l.length + 5 := by omega
    rw [hk, ← add_assoc, ← add_assoc]
    exact this

theorem final_error (k : Nat) (Q S W D : ℚ) (hD : 0 < D)
    (h1 : |Q - S| ≤ ((1 + unitRoundoff) ^ (k + 5) - 1) * W) (h2 : |S| ≤ W) :
    |numDiv Q (round64 D) - S / D| ≤ ((1 + unitRoundoff) ^ (k + 8) - 1) * (W / D) := by
  obtain ⟨hu0, hu1, _, _, _⟩ := unitRoundoff_facts
  obtain ⟨hdpos, hc1, hc2⟩ := ratio_bounds D hD
  have hW : 0 ≤ W := le_trans (abs_nonneg S) h2
  unfold numDiv
  have hs := round64_error (Q / round64 D)
  have hz : Q / round64 D = Q * (D / round64 D) / D := by
    field_simp
    ring
  rw [hz] at hs ⊢
  have hpow : (1 + unitRoundoff) ^ (k + 8)
      = (1 + unitRoundoff) ^ (k + 5) * (1 + unitRoundoff) ^ 2 * (1 + unitRoundoff) := by
    ring
  have hone : 1 ≤ (1 + unitRoundoff) ^ (k + 5) := one_le_pow₀ (by linarith)
  have hr2 : (1 + unitRoundoff) ^ 2 = 1 + (2 * unitRoundoff + unitRoundoff ^ 2) := by ring
  rw [hpow]
  generalize D / round64 D = c at *
  generalize round64 (Q * c / D) = z at *
  generalize (1 + unitRoundoff) ^ (k + 5) = R at *
  rw [hr2] at hc2 ⊢
  have hv : 0 ≤ 2 * unitRoundoff + unitRoundoff ^ 2 := by positivity
  have hvu : unitRoundoff ≤ 2 * unitRoundoff + unitRoundoff ^ 2 := by nlinarith
  generalize 2 * unitRoundoff + unitRoundoff ^ 2 = v at *
  generalize unitRoundoff = u at *
  have hc0 : 0 ≤ c := le_trans (by linarith) hc1
  have hQ : |Q| ≤ R * W := by
    have hsplit : Q = (Q - S) + S := by ring
    rw [hsplit]
    calc |(Q - S) + S| ≤ |Q - S| + |S| := abs_add _ _
      _ ≤ (R - 1) * W + W := add_le_add h1 h2
      _ = R * W := by ring
  have hc : |c - 1| ≤ v := by
    rw [abs_le]
    constructor <;> linarith
  have hQc : |Q * c - S| ≤ (R * (1 + v) - 1) * W := by
    have hsplit : Q * c - S = (Q - S) * c + S * (c - 1) := by ring
    rw [hsplit]
    calc |(Q - S) * c + S * (c - 1)| ≤ |(Q - S) * c| + |S * (c - 1)| := abs_add _ _
      _ = |Q - S| * c + |S| * |c - 1| := by rw [abs_mul, abs_mul, abs_of_nonneg hc0]
      _ ≤ (R - 1) * W * (1 + v) + W * v := by
          apply add_le_add
          · exact mul_le_mul h1 hc2 hc0 (mul_nonneg (by linarith) hW)
          · exact mul_le_mul h2 hc (abs_nonneg _) hW
      _ = (R * (1 + v) - 1) * W := by ring
  have hQcabs : |Q * c| ≤ R * W * (1 + v) := by
    rw [abs_mul, abs_of_nonneg hc0]
    exact mul_le_mul hQ hc2 hc0 (mul_nonneg (by linarith) hW)
  have hgoal : |z - S / D| * D ≤ ((R * (1 + v) * (1 + u) - 1) * (W / D)) * D := by
    have hl : |z - S / D| * D = |z * D - S| := by
      rw [← abs_of_pos hD, ← abs_mul, abs_of_pos hD]
      congr 1
      field_simp
    have hr : ((R * (1 + v) * (1 + u) - 1) * (W / D)) * D
        = (R * (1 + v) * (1 + u) - 1) * W := by
      field_simp
    rw [hl, hr]
    have hzD : |z * D - Q * c| ≤ R * W * (1 + v) * u := by
      have h3 : z * D - Q * c = (z - Q * c / D) * D := by field_simp
      rw [h3, abs_mul, abs_of_pos hD]
      have h4 : |Q * c / D| * D = |Q * c| := by
        rw [abs_div, abs_of_pos hD]
        field_simp
      calc |z - Q * c / D| * D ≤ |Q * c / D| * u * D := mul_le_mul_of_nonneg_right hs hD.le
        _ = |Q * c / D| * D * u := by ring
        _ = |Q * c| * u := by rw [h4]
        _ ≤ R * W * (1 + v) * u := mul_le_mul_of_nonneg_right hQcabs hu0.le
    have hsplit : z * D - S = (z * D - Q * c) + (Q * c - S) := by ring
    rw [hsplit]
    calc |(z * D - Q * c) + (Q * c - S)| ≤ |z * D - Q * c| + |Q * c - S| := abs_add _ _
      _ ≤ R * W * (1 + v) * u + (R * (1 + v) - 1) * W := add_le_add hzD hQc
      _ = (R * (1 + v) * (1 + u) - 1) * W := by ring
  exact le_of_mul_le_mul_right hgoal hD

theorem pow_le_linear (j : Nat) (hj : j ≤ 2 ^ 52) :
    (1 + unitRoundoff) ^ j ≤ 1 + (j : ℚ) / 2 ^ 52 := by
  induction j with
  | zero => simp
  | succ j ih =>
    have h := ih (by omega)
    have hjq : (j : ℚ) ≤ 2 ^ 52 := by exact_mod_cast (show j ≤ 2 ^ 52 by omega)
    have hj0 : (0 : ℚ) ≤ j := Nat.cast_nonneg j
    rw [pow_succ]
    unfold unitRoundoff at h ⊢
    push_cast
    calc (1 + 1 / 2 ^ 53) ^ j * (1 + 1 / 2 ^ 53)
        ≤ (1 + (j : ℚ) / 2 ^ 52) * (1 + 1 / 2 ^ 53) :=
          mul_le_mul_of_nonneg_right h (by norm_num)
      _ ≤ 1 + ((j : ℚ) + 1) / 2 ^ 52 := by
          have : (j : ℚ) / 2 ^ 52 * (1 / 2 ^ 53) ≤ 1 / 2 ^ 53 := by
            have : (j : ℚ) / 2 ^ 52 ≤ 1 := by
              rw [div_le_one (by positivity)]
              exact hjq
            nlinarith
          have hexp : (1 + (j : ℚ) / 2 ^ 52) * (1 + 1 / 2 ^ 53)
              = 1 + (j : ℚ) / 2 ^ 52 + 1 / 2 ^ 53 + (j : ℚ) / 2 ^ 52 * (1 / 2 ^ 53) := by
            ring
          rw [hexp]
          have h53 : (1 : ℚ) / 2 ^ 53 + 1 / 2 ^ 53 = 1 / 2 ^ 52 := by norm_num
          have hadd : 1 + ((j : ℚ) + 1) / 2 ^ 52 = 1 + (j : ℚ) / 2 ^ 52 + 1 / 2 ^ 52 := by
            ring
          rw [hadd, ← h53]
          linarith

/-! ## The modularity sum as one loop over the ordered member pairs -/

theorem foldl_pairsWith {β : Type} (f : β → NodeId → NodeId → β) (c l : List NodeId) (q : β) :
    l.foldl (fun Q i => c.foldl (fun Q j => f Q i j) Q) q
      = (pairsWith c l).foldl (fun Q p => f Q p.1 p.2) q := by
  induction l generalizing q with
  | nil => rfl
  | cons i t ih =>
    simp only [List.foldl_cons, pairsWith, List.foldl_append, List.foldl_map]
    exact ih _

theorem foldl_memberPairs {β : Type} (f : β → NodeId → NodeId → β)
    (communities : List (List NodeId)) (q : β) :
    communities.foldl
        (fun Q c => c.foldl (fun Q i => c.foldl (fun Q j => f Q i j) Q) Q) q
      = (memberPairs communities).foldl (fun Q p => f Q p.1 p.2) q := by
  induction communities generalizing q with
  | nil => rfl
  | cons c t ih =>
    simp only [List.foldl_cons, memberPairs, List.foldl_append]
    rw [foldl_pairsWith f c c q]
    exact ih _

theorem modularitySum_eq_foldl (adj : JsObj (List NodeId)) (m : Nat)
    (communities : List (List NodeId)) :
    modularitySum adj m communities
      = (memberPairs communities).foldl
          (fun Q p => numAdd Q (modularityTerm adj m p.1 p.2)) 0 :=
  foldl_memberPairs (fun Q i j => numAdd Q (modularityTerm adj m i j)) communities 0

theorem sum_pairsWith (g : NodeId → NodeId → Nat) (c l : List NodeId) :
    ((pairsWith c l).map (fun p => g p.1 p.2)).sum
      = (l.map (fun i => (c.map (fun j => g i j)).sum)).sum := by
  induction l with
  | nil => rfl
  | cons i t ih =>
    simp only [pairsWith, List.map_append, List.sum_append, List.map_map, List.map_cons,
      List.sum_cons, ih]
    rfl

theorem sum_memberPairs (g : NodeId → NodeId → Nat) (communities : List (List NodeId)) :
    ((memberPairs communities).map (fun p => g p.1 p.2)).sum
      = (communities.map (fun c =>
          (c.map (fun i => (c.map (fun j => g i j)).sum)).sum)).sum := by
  induction communities with
  | nil => rfl
  | cons c t ih =>
    simp only [memberPairs, List.map_append, List.sum_append, List.map_cons, List.sum_cons,
      ih, sum_pairsWith]

theorem length_pairsWith (c l : List NodeId) :
    (pairsWith c l).length = l.length * c.length := by
  induction l with
  | nil => simp [pairsWith]
  | cons i t ih =>
    simp only [pairsWith, List.length_append, List.length_map, ih, List.length_cons]
    ring

theorem length_memberPairs (communities : List (List NodeId)) :
    (memberPairs communities).length = summandCount communities := by
  unfold summandCount
  induction communities with
  | nil => rfl
  | cons c t ih =>
    simp only [memberPairs, List.length_append, length_pairsWith, ih, List.map_cons,
      List.sum_cons]

theorem sum_exact_terms {α : Type} (a b : α → Nat) (D : ℚ) (l : List α) :
    (l.map (fun x => (a x : ℚ) - (b x : ℚ) / D)).sum
      = (((l.map a).sum : Nat) : ℚ) - (((l.map b).sum : Nat) : ℚ) / D := by
  induction l with
  | nil => simp
  | cons x t ih =>
    simp only [List.map_cons, List.sum_cons]
    rw [ih]
    push_cast
    ring

theorem sum_weight_terms {α : Type} (a b : α → Nat) (D : ℚ) (l : List α) :
    (l.map (fun x => (a x : ℚ) + (b x : ℚ) / D)).sum
      = (((l.map a).sum : Nat) : ℚ) + (((l.map b).sum : Nat) : ℚ) / D := by
  induction l with
  | nil => simp
  | cons x t ih =>
    simp only [List.map_cons, List.sum_cons]
    rw [ih]
    push_cast
    ring

theorem modularityTerm_error (adj : JsObj (List NodeId)) (m : Nat) (hm : 0 < m)
    (i j : NodeId) :
    |modularityTerm adj m i j
        - (((if j ∈ neighbors adj i then 1 else 0 : Nat) : ℚ)
          - (((neighbors adj i).length * (neighbors adj j).length : Nat) : ℚ)
            / ((2 * m : Nat) : ℚ))|
      ≤ ((1 + unitRoundoff) ^ 5 - 1)
        * (((if j ∈ neighbors adj i then 1 else 0 : Nat) : ℚ)
          + (((neighbors adj i).length * (neighbors adj j).length : Nat) : ℚ)
            / ((2 * m : Nat) : ℚ)) := by
  have hD : (0 : ℚ) < ((2 * m : Nat) : ℚ) := by
    exact_mod_cast (show 0 < 2 * m by omega)
  have h := term_error ((if j ∈ neighbors adj i then 1 else 0 : Nat) : ℚ)
    (((neighbors adj i).length * (neighbors adj j).length : Nat) : ℚ)
    ((2 * m : Nat) : ℚ) (Nat.cast_nonneg _) (Nat.cast_nonneg _) hD
  have hterm : modularityTerm adj m i j
      = numSub ((if j ∈ neighbors adj i then 1 else 0 : Nat) : ℚ)
          (numDiv (round64 (((neighbors adj i).length * (neighbors adj j).length : Nat) : ℚ))
            (round64 ((2 * m : Nat) : ℚ))) := by
    unfold modularityTerm numMul
    push_cast
    rfl
  rw [hterm]
  exact h

theorem calculateModularity_error (nodes : List NodeId) (edges : List Edge)
    (communities : List (List NodeId)) (adj : JsObj (List NodeId))
    (hc : communities ≠ []) (hm : edges.length ≠ 0)
    (hadj : buildAdjacencyList nodes edges = some adj)
    (hkeys : ∀ c ∈ communities, ∀ i ∈ c, i ∈ adj.map Prod.fst) :
    ∃ q, calculateModularity nodes edges communities = some q ∧
      |q - ((pairCount adj communities : ℚ)
          - (degProd adj communities : ℚ) / ((2 * edges.length : Nat) : ℚ))
          / ((2 * edges.length : Nat) : ℚ)|
        ≤ ((1 + unitRoundoff) ^ (summandCount communities + 8) - 1)
          * (((pairCount adj communities : ℚ)
            + (degProd adj communities : ℚ) / ((2 * edges.length : Nat) : ℚ))
            / ((2 * edges.length : Nat) : ℚ)) := by
  have hlen : communities.length ≠ 0 := fun h => hc (List.length_eq_zero.1 h)
  have hall : communities.all (fun c => c.all (fun i => (objGet adj i).isSome)) = true := by
    rw [List.all_eq_true]
    intro c hcm
    rw [List.all_eq_true]
    intro i hi
    obtain ⟨v, hv⟩ := objGet_isSome_of_mem adj i (hkeys c hcm i hi)
    rw [hv]
    rfl
  have hD : (0 : ℚ) < ((2 * edges.length : Nat) : ℚ) := by
    exact_mod_cast (show 0 < 2 * edges.length by omega)
  refine ⟨numDiv (modularitySum adj edges.length communities)
    (numMul 2 edges.length), ?_, ?_⟩
  · simp only [calculateModularity, hlen, hm, if_false, hadj, hall, if_true]
  · have hfold := foldl_error
      (fun p : NodeId × NodeId => modularityTerm adj edges.length p.1 p.2)
      (fun p => ((if p.2 ∈ neighbors adj p.1 then 1 else 0 : Nat) : ℚ)
        - (((neighbors adj p.1).length * (neighbors adj p.2).length : Nat) : ℚ)
          / ((2 * edges.length : Nat) : ℚ))
      (fun p => ((if p.2 ∈ neighbors adj p.1 then 1 else 0 : Nat) : ℚ)
        + (((neighbors adj p.1).length * (neighbors adj p.2).length : Nat) : ℚ)
          / ((2 * edges.length : Nat) : ℚ))
      (memberPairs communities)
      (fun p _ => ⟨modularityTerm_error adj edges.length (by omega) p.1 p.2,
        term_abs _ _ _ (Nat.cast_nonneg _) (Nat.cast_nonneg _) hD⟩)
      0 0 0 0 (by simp) (by simp)
    rw [sum_exact_terms (fun p : NodeId × NodeId => if p.2 ∈ neighbors adj p.1 then 1 else 0)
        (fun p => (neighbors adj p.1).length * (neighbors adj p.2).length),
      sum_weight_terms (fun p : NodeId × NodeId => if p.2 ∈ neighbors adj p.1 then 1 else 0)
        (fun p => (neighbors adj p.1).length * (neighbors adj p.2).length),
      sum_memberPairs (fun i j => if j ∈ neighbors adj i then 1 else 0),
      sum_memberPairs (fun i j => (neighbors adj i).length * (neighbors adj j).length),
      length_memberPairs, ← modularitySum_eq_foldl, zero_add, zero_add, zero_add] at hfold
    have hfin := final_error (summandCount communities)
      (modularitySum adj edges.length communities) _ _ _ hD hfold.1 hfold.2
    have hnum : numMul 2 (edges.length : ℚ) = round64 ((2 * edges.length : Nat) : ℚ) := by
      unfold numMul
      push_cast
      rfl
    rw [hnum]
    exact hfin

/-! ## Modularity of the all-singletons and the single-community partitions -/

theorem not_mem_neighbors_self (adj : JsObj (List NodeId)) (edges : List Edge)
    (hnb : ∀ u, neighbors adj u = incidentList edges u) (hloop : NoSelfLoops edges)
    (n : NodeId) : n ∉ neighbors adj n := by
  rw [hnb, mem_incidentList]
  rintro ⟨e, he, h | h⟩
  · exact hloop e he (h.1.trans h.2.symm)
  · exact hloop e he (h.2.trans h.1.symm)

theorem sum_indicator_eq_length_filter {α : Type} (c : List α) (p : α → Prop)
    [DecidablePred p] :
    (c.map (fun j => if p j then 1 else 0)).sum = (c.filter (fun j => decide (p j))).length := by
  induction c with
  | nil => rfl
  | cons a t ih =>
    by_cases h : p a
    · simp only [List.map_cons, List.sum_cons, h, if_true, ih, List.filter_cons,
        decide_True, List.length_cons]
      omega
    · simp only [List.map_cons, List.sum_cons, h, if_false, ih, List.filter_cons,
        decide_False, zero_add]
      simp

theorem sum_indicator_mem (c l : List NodeId) (hc : c.Nodup) (hl : l.Nodup)
    (hsub : ∀ x ∈ l, x ∈ c) :
    (c.map (fun j => if j ∈ l then 1 else 0)).sum = l.length := by
  rw [sum_indicator_eq_length_filter]
  apply List.Perm.length_eq
  rw [List.perm_ext_iff_of_nodup (hc.filter _) hl]
  intro x
  simp only [List.mem_filter, decide_eq_true_eq]
  exact ⟨fun h => h.2, fun h => ⟨hsub x h, h⟩⟩

theorem sum_indicator_eq (c : List NodeId) (a : NodeId) (hc : c.Nodup) (ha : a ∈ c) :
    (c.map (fun u => if a = u then 1 else 0)).sum = 1 := by
  have h := sum_indicator_mem c [a] hc (List.nodup_singleton a)
    (fun x hx => by rw [List.mem_singleton.1 hx]; exact ha)
  have hfun : (fun u : NodeId => if a = u then 1 else 0)
      = (fun j : NodeId => if j ∈ [a] then 1 else 0) := by
    funext u
    by_cases hu : a = u
    · simp [hu]
    · simp [hu, Ne.symm hu]
  rw [hfun, h]
  rfl

theorem length_incidentList_cons (e : Edge) (es : List Edge) (u : NodeId) :
    (incidentList (e :: es) u).length
      = (if e.from_ = u then 1 else 0) + (if e.to_ = u then 1 else 0)
        + (incidentList es u).length := by
  by_cases hf : e.from_ = u <;> by_cases ht : e.to_ = u <;>
    simp [incidentList, hf, ht] <;> omega

theorem degree_sum (c : List NodeId) (edges : List Edge) (hc : c.Nodup)
    (hE : EndpointsDeclared c edges) :
    (c.map (fun u => (incidentList edges u).length)).sum = 2 * edges.length := by
  induction edges with
  | nil => simp [incidentList]
  | cons e es ih =>
    have he := hE e (List.mem_cons_self e es)
    have hes : EndpointsDeclared c es := fun e1 h1 => hE e1 (List.mem_cons_of_mem e h1)
    simp only [length_incidentList_cons, List.sum_map_add, ih hes,
      sum_indicator_eq c e.from_ hc he.1, sum_indicator_eq c e.to_ hc he.2,
      List.length_cons]
    omega

theorem incidentList_nodup (edges : List Edge) (hloop : NoSelfLoops edges)
    (hrep : NoRepeatedEdges edges) (u : NodeId) : (incidentList edges u).Nodup := by
  induction edges with
  | nil => simp [incidentList]
  | cons e es ih =>
    unfold NoRepeatedEdges at hrep
    rw [List.pairwise_cons] at hrep
    have hne : e.from_ ≠ e.to_ := hloop e (List.mem_cons_self e es)
    have ih1 := ih (fun e1 h1 => hloop e1 (List.mem_cons_of_mem e h1)) hrep.2
    have hnew : ∀ w, Linked [e] u w → ¬ Linked es u w := by
      rintro w ⟨e0, he0, h0⟩ ⟨e1, he1, h1⟩
      rw [List.mem_singleton] at he0
      subst he0
      apply hrep.1 e1 he1
      rcases h0 with ⟨a1, a2⟩ | ⟨a1, a2⟩ <;> rcases h1 with ⟨b1, b2⟩ | ⟨b1, b2⟩
      · exact Or.inl ⟨a1.trans b1.symm, a2.trans b2.symm⟩
      · exact Or.inr ⟨a1.trans b1.symm, a2.trans b2.symm⟩
      · exact Or.inr ⟨a2.trans b2.symm, a1.trans b1.symm⟩
      · exact Or.inl ⟨a2.trans b2.symm, a1.trans b1.symm⟩
    have hsplit : incidentList (e :: es) u = incidentList [e] u ++ incidentList es u := by
      simp [incidentList]
    rw [hsplit]
    refine List.Nodup.append ?_ ih1 ?_
    · by_cases hf : e.from_ = u <;> by_cases ht : e.to_ = u
      · exact absurd (hf.trans ht.symm) hne
      · simp [incidentList, hf, ht]
      · simp [incidentList, hf, ht]
      · simp [incidentList, hf, ht]
    · intro w hw1 hw2
      exact hnew w ((mem_incidentList [e] u w).1 hw1) ((mem_incidentList es u w).1 hw2)

theorem sum_mul_sum (l c : List NodeId) (f : NodeId → Nat) :
    (l.map (fun i => (c.map (fun j => f i * f j)).sum)).sum
      = (l.map f).sum * (c.map f).sum := by
  induction l with
  | nil => simp
  | cons a t ih =>
    simp only [List.map_cons, List.sum_cons]
    rw [ih, List.sum_map_mul_left]
    ring

theorem pairCount_single (adj : JsObj (List NodeId)) (edges : List Edge)
    (c : List NodeId) (hnb : ∀ u, neighbors adj u = incidentList edges u)
    (hc : c.Nodup) (hE : EndpointsDeclared c edges) (hloop : NoSelfLoops edges)
    (hrep : NoRepeatedEdges edges) : pairCount adj [c] = 2 * edges.length := by
  have hinner : ∀ i, (c.map (fun j => if j ∈ neighbors adj i then 1 else 0)).sum
      = (incidentList edges i).length := by
    intro i
    rw [hnb i]
    apply sum_indicator_mem c _ hc (incidentList_nodup edges hloop hrep i)
    intro x hx
    obtain ⟨e, he, h | h⟩ := (mem_incidentList edges i x).1 hx
    · rw [← h.2]; exact (hE e he).2
    · rw [← h.2]; exact (hE e he).1
  simp only [pairCount, List.map_cons, List.map_nil, List.sum_cons, List.sum_nil,
    add_zero, hinner]
  exact degree_sum c edges hc hE

theorem degProd_single (adj : JsObj (List NodeId)) (edges : List Edge)
    (c : List NodeId) (hnb : ∀ u, neighbors adj u = incidentList edges u)
    (hc : c.Nodup) (hE : EndpointsDeclared c edges) :
    degProd adj [c] = (2 * edges.length) * (2 * edges.length) := by
  simp only [degProd, List.map_cons, List.map_nil, List.sum_cons, List.sum_nil,
    add_zero, hnb]
  rw [sum_mul_sum c c (fun u => (incidentList edges u).length), degree_sum c edges hc hE]

theorem pow_sub_one_le (K : Nat) (hK : K ≤ 2 ^ 52) :
    (1 + unitRoundoff) ^ K - 1 ≤ (K : ℚ) / 2 ^ 52 := by
  have h := pow_le_linear K hK
  linarith

theorem memberPairs_singletons (nodes : List NodeId) :
    memberPairs (nodes.map (fun n => [n])) = nodes.map (fun n => (n, n)) := by
  induction nodes with
  | nil => rfl
  | cons a t ih => simp [memberPairs, pairsWith, ih]

theorem foldl_numAdd_nonpos {α : Type} (t : α → ℚ) (l : List α) (h : ∀ x ∈ l, t x ≤ 0)
    (Q : ℚ) (hQ : Q ≤ 0) : l.foldl (fun Q x => numAdd Q (t x)) Q ≤ 0 := by
  induction l generalizing Q with
  | nil => exact hQ
  | cons a l ih =>
    rw [List.foldl_cons]
    apply ih (fun x hx => h x (List.mem_cons_of_mem a hx))
    exact round64_nonpos _ (add_nonpos hQ (h a (List.mem_cons_self a l)))

theorem modularityTerm_nonpos (adj : JsObj (List NodeId)) (m : Nat) (i j : NodeId)
    (h : j ∉ neighbors adj i) : modularityTerm adj m i j ≤ 0 := by
  unfold modularityTerm numSub numDiv numMul
  simp only [h, if_false, zero_sub]
  apply round64_nonpos
  rw [neg_nonpos]
  apply round64_nonneg
  apply div_nonneg
  · exact round64_nonneg _ (mul_nonneg (Nat.cast_nonneg _) (Nat.cast_nonneg _))
  · exact round64_nonneg _ (mul_nonneg (by norm_num) (Nat.cast_nonneg _))

/-- C6 (amended): on a graph with `m > 0` edges, none of them a self-loop, whose
endpoints are declared nodes, `calculateModularity` of the partition in which
every node is its own singleton community is at most 0. -/
theorem calculateModularity_singletons_nonpos (nodes : List NodeId) (edges : List Edge)
    (hm : 0 < edges.length) (hE : EndpointsDeclared nodes edges)
    (hloop : NoSelfLoops edges) :
    ∃ q, calculateModularity nodes edges (nodes.map (fun n => [n])) = some q ∧ q ≤ 0 := by
  obtain ⟨adj, hadj⟩ := buildAdjacencyList_isSome nodes edges hE
  have hnb := neighbors_buildAdjacencyList nodes edges adj hadj
  have hlen : (nodes.map (fun n => [n])).length ≠ 0 := by
    cases edges with
    | nil => simp at hm
    | cons e es =>
      have := (hE e (List.mem_cons_self e es)).1
      intro h
      rw [List.length_map, List.length_eq_zero] at h
      rw [h] at this
      simp at this
  have hall : (nodes.map (fun n => [n])).all
      (fun c => c.all (fun i => (objGet adj i).isSome)) = true := by
    rw [List.all_eq_true]
    intro c hc
    obtain ⟨n, hn, rfl⟩ := List.mem_map.1 hc
    rw [List.all_eq_true]
    intro i hi
    rw [List.mem_singleton.1 hi]
    obtain ⟨v, hv⟩ := objGet_isSome_of_mem adj n
      ((mem_keys_buildAdjacencyList nodes edges adj hadj n).2 hn)
    rw [hv]
    rfl
  have hm0 : edges.length ≠ 0 := by omega
  refine ⟨numDiv (modularitySum adj edges.length (nodes.map (fun n => [n])))
    (numMul 2 edges.length), ?_, ?_⟩
  · simp only [calculateModularity, hlen, hm0, if_false, hadj, hall, if_true]
  · have hsum : modularitySum adj edges.length (nodes.map (fun n => [n])) ≤ 0 := by
      rw [modularitySum_eq_foldl, memberPairs_singletons]
      apply foldl_numAdd_nonpos _ _ _ 0 (le_refl 0)
      intro p hp
      obtain ⟨n, _, rfl⟩ := List.mem_map.1 hp
      exact modularityTerm_nonpos adj edges.length n n
        (not_mem_neighbors_self adj edges hnb hloop n)
    unfold numDiv numMul
    apply round64_nonpos
    apply div_nonpos_of_nonpos_of_nonneg hsum
    exact round64_nonneg _ (mul_nonneg (by norm_num) (Nat.cast_nonneg _))

/-- C6 (counterexample): four nodes each carrying one self-loop (`m = 4`); the
all-singletons partition has modularity `(4 - 16/8) / 8 = 1/4 > 0`. -/
theorem calculateModularity_singletons_counterexample :
    ¬ ∃ q, calculateModularity loopNodes loopEdges (loopNodes.map (fun n => [n])) = some q
      ∧ q ≤ 0 := by
  have hval : calculateModularity loopNodes loopEdges (loopNodes.map (fun n => [n]))
      = some (1 / 4) := by decide!
  rintro ⟨q, hq, hle⟩
  rw [hval, Option.some.injEq] at hq
  rw [← hq] at hle
  norm_num at hle

theorem single_community_sums (nodes : List NodeId) (edges : List Edge)
    (c : List NodeId) (adj : JsObj (List NodeId))
    (hadj : buildAdjacencyList nodes edges = some adj)
    (hE : EndpointsDeclared nodes edges)
    (hloop : NoSelfLoops edges) (hrep : NoRepeatedEdges edges)
    (hc : c.Nodup) (hmem : ∀ x, x ∈ c ↔ x ∈ nodes) (hm : edges.length ≠ 0) :
    ((pairCount adj [c] : ℚ) - (degProd adj [c] : ℚ) / ((2 * edges.length : Nat) : ℚ))
        / ((2 * edges.length : Nat) : ℚ) = 0 ∧
      ((pairCount adj [c] : ℚ) + (degProd adj [c] : ℚ) / ((2 * edges.length : Nat) : ℚ))
        / ((2 * edges.length : Nat) : ℚ) = 2 := by
  have hnb := neighbors_buildAdjacencyList nodes edges adj hadj
  have hEc : EndpointsDeclared c edges := fun e he =>
    ⟨(hmem _).2 (hE e he).1, (hmem _).2 (hE e he).2⟩
  rw [pairCount_single adj edges c hnb hc hEc hloop hrep, degProd_single adj edges c hnb hc hEc]
  have h2m : ((2 * edges.length : Nat) : ℚ) ≠ 0 := by
    have : 2 * edges.length ≠ 0 := by omega
    exact_mod_cast this
  rw [Nat.cast_mul (2 * edges.length) (2 * edges.length), mul_div_assoc, div_self h2m, mul_one,
    sub_self, zero_div]
  refine ⟨rfl, ?_⟩
  field_simp
  ring

/-- C5 (amended): on a graph with declared edge endpoints, no self-loop and no
repeated edge, `calculateModularity` of the partition made of one community
holding exactly the `n` nodes of the graph is 0 up to the rounding of its
`n * n` additions: its absolute value is at most
`2 * ((1 + 2^(-53))^(n * n + 8) - 1)`, which is at most `(n * n + 8) / 2^51` as
long as `n * n + 8 ≤ 2^52`. -/
theorem calculateModularity_single_community (nodes : List NodeId) (edges : List Edge)
    (c : List NodeId) (hE : EndpointsDeclared nodes edges)
    (hloop : NoSelfLoops edges) (hrep : NoRepeatedEdges edges)
    (hc : c.Nodup) (hmem : ∀ x, x ∈ c ↔ x ∈ nodes) :
    ∃ q, calculateModularity nodes edges [c] = some q ∧
      |q| ≤ 2 * ((1 + unitRoundoff) ^ (c.length * c.length + 8) - 1) ∧
      (c.length * c.length + 8 ≤ 2 ^ 52 →
        |q| ≤ ((c.length * c.length + 8 : Nat) : ℚ) / 2 ^ 51) := by
  have hmain : ∃ q, calculateModularity nodes edges [c] = some q ∧
      |q| ≤ 2 * ((1 + unitRoundoff) ^ (c.length * c.length + 8) - 1) := by
    by_cases hm : edges.length = 0
    · refine ⟨0, by simp [calculateModularity, hm], ?_⟩
      rw [abs_zero]
      have : (1 : ℚ) ≤ (1 + unitRoundoff) ^ (c.length * c.length + 8) :=
        one_le_pow₀ (by linarith [unitRoundoff_facts.1])
      linarith
    · obtain ⟨adj, hadj⟩ := buildAdjacencyList_isSome nodes edges hE
      have hkeys : ∀ c1 ∈ [c], ∀ i ∈ c1, i ∈ adj.map Prod.fst := by
        intro c1 hc1 i hi
        rw [List.mem_singleton.1 hc1] at hi
        exact (mem_keys_buildAdjacencyList nodes edges adj hadj i).2 ((hmem i).1 hi)
      obtain ⟨q, hq, hb⟩ := calculateModularity_error nodes edges [c] adj (by simp) hm hadj hkeys
      obtain ⟨h0, h2⟩ := single_community_sums nodes edges c adj hadj hE hloop hrep hc hmem hm
      rw [h0, h2, sub_zero] at hb
      have hN : summandCount [c] = c.length * c.length := by simp [summandCount]
      rw [hN, mul_comm] at hb
      exact ⟨q, hq, hb⟩
  obtain ⟨q, hq, hb⟩ := hmain
  refine ⟨q, hq, hb, fun hsize => ?_⟩
  have hp := pow_sub_one_le (c.length * c.length + 8) hsize
  calc |q| ≤ 2 * ((1 + unitRoundoff) ^ (c.length * c.length + 8) - 1) := hb
    _ ≤ 2 * (((c.length * c.length + 8 : Nat) : ℚ) / 2 ^ 52) :=
        mul_le_mul_of_nonneg_left hp (by norm_num)
    _ = ((c.length * c.length + 8 : Nat) : ℚ) / 2 ^ 51 := by ring

/-- C5 (counterexample): the triangle has no self-loop and no repeated edge, and
the single community of its three nodes has modularity `2^(-54)`, not 0; with
the edge `A–B` listed twice, the single community `{A, B}` has modularity
`(2 - 16/4) / 4 = -1/2`; with one self-loop on `A`, the single community `{A}`
has modularity `(1 - 4/2) / 2 = -1/2`. -/
theorem calculateModularity_single_community_counterexample :
    (NoSelfLoops triangleEdges ∧ NoRepeatedEdges triangleEdges ∧
      calculateModularity triangleNodes triangleEdges [triangleNodes] = some (1 / 2 ^ 54) ∧
      calculateModularity triangleNodes triangleEdges [triangleNodes] ≠ some 0) ∧
    (calculateModularity ["A", "B"] doubleEdges [["A", "B"]] = some (-1 / 2) ∧
      calculateModularity ["A", "B"] doubleEdges [["A", "B"]] ≠ some 0) ∧
    calculateModularity ["A"] [⟨"A", "A"⟩] [["A"]] = some (-1 / 2) := by
  have ht : calculateModularity triangleNodes triangleEdges [triangleNodes]
      = some (1 / 2 ^ 54) := by decide!
  have hd : calculateModularity ["A", "B"] doubleEdges [["A", "B"]] = some (-1 / 2) := by
    decide!
  have hl : calculateModularity ["A"] [⟨"A", "A"⟩] [["A"]] = some (-1 / 2) := by decide!
  refine ⟨⟨by decide, by decide, ht, ?_⟩, ⟨hd, ?_⟩, hl⟩
  · rw [ht]
    norm_num
  · rw [hd]
    norm_num

/-! ## The concrete scenario under the greedy partitioner -/

theorem scenario_buildAdjacencyList :
    buildAdjacencyList scenarioNodes scenarioEdges = some scenarioAdj := by decide

theorem scenario_objectKeys : objectKeys scenarioAdj = scenarioNodes := by decide

theorem scenario_firstPass :
    louvainPass scenarioAdj scenarioNodes (initPartition scenarioNodes)
      = (scenarioOdd, true) := by decide!

theorem scenario_oddPass :
    louvainPass scenarioAdj scenarioNodes scenarioOdd = (scenarioEven, true) := by decide!

theorem scenario_evenPass :
    louvainPass scenarioAdj scenarioNodes scenarioEven = (scenarioOdd, true) := by decide!

theorem louvainLoop_succ_of_improved (adjacency : JsObj (List NodeId))
    (nodes : List NodeId) (k : Nat) (partition next : JsObj Nat)
    (h : louvainPass adjacency nodes partition = (next, true)) :
    louvainLoop adjacency nodes (k + 1) partition = louvainLoop adjacency nodes k next := by
  simp only [louvainLoop, h, if_true]

theorem scenario_loop_odd (k : Nat) :
    louvainLoop scenarioAdj scenarioNodes (2 * k + 1) scenarioOdd = scenarioEven := by
  induction k with
  | zero =>
    rw [louvainLoop_succ_of_improved _ _ _ _ _ scenario_oddPass]
    rfl
  | succ k ih =>
    have h : 2 * (k + 1) + 1 = (2 * k + 1) + 1 + 1 := by omega
    rw [h, louvainLoop_succ_of_improved _ _ _ _ _ scenario_oddPass,
      louvainLoop_succ_of_improved _ _ _ _ _ scenario_evenPass]
    exact ih

theorem scenario_louvainLoop :
    louvainLoop scenarioAdj scenarioNodes maxIterations (initPartition scenarioNodes)
      = scenarioEven := by
  have h : maxIterations = (2 * 49 + 1) + 1 := rfl
  rw [h, louvainLoop_succ_of_improved _ _ _ _ _ scenario_firstPass]
  exact scenario_loop_odd 49

theorem scenario_louvainAlgorithm :
    louvainAlgorithm scenarioNodes scenarioEdges = some [["B"], ["A", "C", "D", "E"]] := by
  have hcomm : partitionToCommunities scenarioEven = [["B"], ["A", "C", "D", "E"]] := by
    decide
  simp only [louvainAlgorithm, scenario_buildAdjacencyList, scenario_objectKeys,
    scenario_louvainLoop, hcomm]

theorem scenario_calculateModularity :
    calculateModularity scenarioNodes scenarioEdges [["B"], ["A", "C", "D", "E"]]
      = some (-500399958596721 / 2 ^ 53) := by decide!

/-- C7 (amended): on the scenario graph the greedy partitioner stops at the cap
of 100 passes and returns the communities `{B}` and `{A, C, D, E}`, whose
`calculateModularity` is negative: it is the Number `-500399958596721 / 2^53`,
about `-0.0556`. -/
theorem louvainAlgorithm_scenario_modularity :
    louvainAlgorithm scenarioNodes scenarioEdges = some [["B"], ["A", "C", "D", "E"]] ∧
      ∃ q, calculateModularity scenarioNodes scenarioEdges [["B"], ["A", "C", "D", "E"]]
          = some q ∧ q < 0 ∧ q = -500399958596721 / 2 ^ 53 :=
  ⟨scenario_louvainAlgorithm, _, scenario_calculateModularity, by norm_num, rfl⟩

/-- C7 (counterexample): on the scenario graph the partition returned by
`louvainAlgorithm` does not have `calculateModularity` strictly greater than 0. -/
theorem louvainAlgorithm_scenario_counterexample :
    ¬ ∃ comms q, louvainAlgorithm scenarioNodes scenarioEdges = some comms ∧
      calculateModularity scenarioNodes scenarioEdges comms = some q ∧ 0 < q := by
  rintro ⟨comms, q, h1, h2, h3⟩
  rw [scenario_louvainAlgorithm, Option.some.injEq] at h1
  rw [← h1, scenario_calculateModularity, Option.some.injEq] at h2
  rw [← h2] at h3
  norm_num at h3

/-! ## The path graph under the removal step -/

theorem path_calculateEdgeBetweenness :
    calculateEdgeBetweenness pathNodes pathEdges
      = some [("A-B", 4), ("B-C", 4), ("C-D", 4)] := by decide!

theorem path_selectEdgeToRemove :
    selectEdgeToRemove pathEdges [("A-B", 4), ("B-C", 4), ("C-D", 4)] = 0 := by decide

theorem path_removeStep :
    removeStep pathNodes pathEdges = some [⟨"B", "C"⟩, ⟨"C", "D"⟩] := by
  simp only [removeStep, path_calculateEdgeBetweenness, path_selectEdgeToRemove]
  rfl

theorem path_components_after :
    findConnectedComponents pathNodes [⟨"B", "C"⟩, ⟨"C", "D"⟩]
      = some [["A"], ["B", "C", "D"]] := by decide!

/-- C8 (amended): on the path graph `A–B–C–D` every edge gets the score 4, so the
selection loop keeps index 0 and the removal step deletes the edge `A–B`; the
components after this single removal are `{A}` and `{B, C, D}`. -/
theorem removeStep_path :
    calculateEdgeBetweenness pathNodes pathEdges
        = some [("A-B", 4), ("B-C", 4), ("C-D", 4)] ∧
      selectEdgeToRemove pathEdges [("A-B", 4), ("B-C", 4), ("C-D", 4)] = 0 ∧
      removeStep pathNodes pathEdges = some [⟨"B", "C"⟩, ⟨"C", "D"⟩] ∧
      findConnectedComponents pathNodes [⟨"B", "C"⟩, ⟨"C", "D"⟩]
        = some [["A"], ["B", "C", "D"]] :=
  ⟨path_calculateEdgeBetweenness, path_selectEdgeToRemove, path_removeStep,
    path_components_after⟩

/-- C8 (counterexample): on the path graph the edge selected by the removal step
is not the midpoint edge `B–C`, and the step does not leave `A–B` and `C–D`. -/
theorem removeStep_path_counterexample :
    (¬ ∃ b, calculateEdgeBetweenness pathNodes pathEdges = some b ∧
        pathEdges[selectEdgeToRemove pathEdges b]? = some ⟨"B", "C"⟩) ∧
      removeStep pathNodes pathEdges ≠ some [⟨"A", "B"⟩, ⟨"C", "D"⟩] := by
  constructor
  · rintro ⟨b, h1, h2⟩
    rw [path_calculateEdgeBetweenness, Option.some.injEq] at h1
    rw [← h1, path_selectEdgeToRemove] at h2
    revert h2
    decide
  · rw [path_removeStep]
    decide

/-- C10 (failing input): on the star with centre `A` and leaves `B`, `C`, the
external-edges column shows 1 for the community `{A}` although 2 edges leave it. -/
theorem displayAnalysisExternal_star :
    displayAnalysisExternal ["A", "B", "C"] starEdges [["A"], ["B", "C"]] = some [1, 1] ∧
      leavingEdges starEdges ["A"] = 2 ∧ leavingEdges starEdges ["B", "C"] = 2 := by
  decide

/-! ## The general theorems at the concrete scenario -/

/-- C1 at the scenario graph. -/
theorem louvainAlgorithm_isPartitionOf_witness :
    EndpointsDeclared scenarioNodes scenarioEdges ∧
      ∃ comms, louvainAlgorithm scenarioNodes scenarioEdges = some comms ∧
        IsPartitionOf scenarioNodes comms :=
  ⟨by decide, louvainAlgorithm_isPartitionOf scenarioNodes scenarioEdges (by decide)⟩

/-- C2 at the scenario graph. -/
theorem girvanNewmanAlgorithm_isPartitionOf_witness :
    scenarioNodes.Nodup ∧ EndpointsDeclared scenarioNodes scenarioEdges ∧
      ∃ comms, girvanNewmanAlgorithm scenarioNodes scenarioEdges = some comms ∧
        IsPartitionOf scenarioNodes comms :=
  ⟨by decide, by decide,
    girvanNewmanAlgorithm_isPartitionOf scenarioNodes scenarioEdges (by decide) (by decide)⟩

/-- C3 at the path graph. -/
theorem findConnectedComponents_partition_witness :
    EndpointsDeclared pathNodes pathEdges ∧
      ∃ comps, findConnectedComponents pathNodes pathEdges = some comps ∧
        IsPartitionOf pathNodes comps ∧ ∀ c ∈ comps, c ≠ [] :=
  ⟨by decide, findConnectedComponents_partition pathNodes pathEdges (by decide)⟩

/-- C4 at the star graph with an isolated node `D`. -/
theorem findConnectedComponents_connected_witness :
    EndpointsDeclared ["A", "B", "C", "D"] starEdges ∧
      ∃ comps, findConnectedComponents ["A", "B", "C", "D"] starEdges = some comps ∧
        (∀ u ∈ ["A", "B", "C", "D"], ∀ v ∈ ["A", "B", "C", "D"],
          (∃ c ∈ comps, u ∈ c ∧ v ∈ c) ↔ Connected starEdges u v) ∧
        ∀ e ∈ starEdges, ∀ c1 ∈ comps, ∀ c2 ∈ comps,
          e.from_ ∈ c1 → e.to_ ∈ c2 → c1 = c2 :=
  ⟨by decide, findConnectedComponents_connected ["A", "B", "C", "D"] starEdges (by decide)⟩

/-- C5 (amended) at the scenario graph. -/
theorem calculateModularity_single_community_witness :
    EndpointsDeclared scenarioNodes scenarioEdges ∧
      NoSelfLoops scenarioEdges ∧ NoRepeatedEdges scenarioEdges ∧
      scenarioNodes.Nodup ∧ (∀ x, x ∈ scenarioNodes ↔ x ∈ scenarioNodes) ∧
      ∃ q, calculateModularity scenarioNodes scenarioEdges [scenarioNodes] = some q ∧
        |q| ≤ 2 * ((1 + unitRoundoff) ^ (scenarioNodes.length * scenarioNodes.length + 8) - 1) ∧
        (scenarioNodes.length * scenarioNodes.length + 8 ≤ 2 ^ 52 →
          |q| ≤ ((scenarioNodes.length * scenarioNodes.length + 8 : Nat) : ℚ) / 2 ^ 51) :=
  ⟨by decide, by decide, by decide, by decide, fun _ => Iff.rfl,
    calculateModularity_single_community scenarioNodes scenarioEdges scenarioNodes
      (by decide) (by decide) (by decide) (by decide) (fun _ => Iff.rfl)⟩

/-- C6 (amended) at the scenario graph. -/
theorem calculateModularity_singletons_nonpos_witness :
    0 < scenarioEdges.length ∧ EndpointsDeclared scenarioNodes scenarioEdges ∧
      NoSelfLoops scenarioEdges ∧
      ∃ q, calculateModularity scenarioNodes scenarioEdges
        (scenarioNodes.map (fun n => [n])) = some q ∧ q ≤ 0 :=
  ⟨by decide, by decide, by decide,
    calculateModularity_singletons_nonpos scenarioNodes scenarioEdges (by decide)
      (by decide) (by decide)⟩

/-- C9 at the scenario graph. -/
theorem girvanNewmanAlgorithm_length_witness :
    EndpointsDeclared scenarioNodes scenarioEdges ∧
      ∃ comms, girvanNewmanAlgorithm scenarioNodes scenarioEdges = some comms ∧
        min 5 ((scenarioNodes.length + 3) / 4) ≤ comms.length :=
  ⟨by decide, girvanNewmanAlgorithm_length scenarioNodes scenarioEdges (by decide)⟩

/-- C13: `calculateModularity` returns 0 whenever the list of communities is empty
or the graph has no edges, for every node list and every partition; the return
comes before the adjacency object is built and before any division, so it also
holds when an edge endpoint is not a declared node. -/
theorem calculateModularity_guard (nodes : List NodeId) (edges : List Edge)
    (communities : List (List NodeId)) (h : communities = [] ∨ edges = []) :
    calculateModularity nodes edges communities = some 0 := by
  rcases h with h | h
  · subst h
    simp [calculateModularity]
  · subst h
    simp [calculateModularity]

theorem densityValue_eq (internal size : Nat) :
    densityValue internal size
      = if 2 ≤ size then (internal : ℚ) / ((size : ℚ) * ((size : ℚ) - 1) / 2) else 0 := by
  unfold densityValue possibleEdges
  by_cases h : 2 ≤ size
  · have h1 : (2 : ℚ) ≤ (size : ℚ) := by exact_mod_cast h
    have hpos : (size : ℚ) * ((size : ℚ) - 1) / 2 > 0 := by
      apply div_pos _ (by norm_num)
      apply mul_pos <;> linarith
    rw [if_pos hpos, if_pos h]
  · have hle : (size : ℚ) * ((size : ℚ) - 1) / 2 ≤ 0 := by
      have : size = 0 ∨ size = 1 := by omega
      rcases this with h0 | h0 <;> subst h0 <;> norm_num
    rw [if_neg (not_lt.2 hle), if_neg h]

/-! ## Adjacency object in full -/

theorem keys_foldl_objSet_fresh (l : List NodeId) (acc : JsObj (List NodeId))
    (hd : ∀ x ∈ l, x ∉ acc.map Prod.fst) (hl : l.Nodup) :
    (l.foldl (fun adj n => objSet adj n []) acc).map Prod.fst = acc.map Prod.fst ++ l := by
  induction l generalizing acc with
  | nil => simp
  | cons a t ih =>
    rw [List.foldl_cons]
    have ha : a ∉ acc.map Prod.fst := hd a (List.mem_cons_self a t)
    have hk := keys_objSet_of_not_mem acc a ([] : List NodeId) ha
    rw [List.nodup_cons] at hl
    rw [ih (objSet acc a []) (fun x hx => by
      rw [hk]
      simp only [List.mem_append, List.mem_singleton, not_or]
      refine ⟨hd x (List.mem_cons_of_mem a hx), ?_⟩
      rintro rfl
      exact hl.1 hx) hl.2, hk]
    simp

theorem keys_initAdj (nodes : List NodeId) (hnd : nodes.Nodup) :
    (initAdj nodes).map Prod.fst = nodes := by
  unfold initAdj
  rw [keys_foldl_objSet_fresh nodes [] (by simp) hnd]
  simp

theorem objGet_of_mem_nodup {α : Type} (o : JsObj α) (hnd : (o.map Prod.fst).Nodup)
    (e : String × α) (he : e ∈ o) : objGet o e.1 = some e.2 := by
  induction o with
  | nil => simp at he
  | cons a t ih =>
    obtain ⟨k, v⟩ := a
    simp only [List.map_cons, List.nodup_cons] at hnd
    rcases List.mem_cons.1 he with rfl | h
    · simp [objGet]
    · have hne : k ≠ e.1 := by
        rintro rfl
        exact hnd.1 (List.mem_map.2 ⟨e, h, rfl⟩)
      simp only [objGet, hne, if_false]
      exact ih hnd.2 h

theorem objGet_eq_some_neighbors (adj : JsObj (List NodeId)) (u : NodeId)
    (h : u ∈ adj.map Prod.fst) : objGet adj u = some (neighbors adj u) := by
  obtain ⟨l, hl⟩ := objGet_isSome_of_mem adj u h
  simp [neighbors, hl]

theorem sum_lengths_eq (adj : JsObj (List NodeId)) (hnd : (adj.map Prod.fst).Nodup) :
    (adj.map (fun e => e.2.length)).sum
      = ((adj.map Prod.fst).map (fun u => (neighbors adj u).length)).sum := by
  rw [List.map_map]
  congr 1
  apply List.map_congr_left
  intro e he
  simp [neighbors, objGet_of_mem_nodup adj hnd e he]

/-- C12: for distinct node ids and declared edge endpoints, `buildAdjacencyList`
returns an object whose keys are exactly the declared nodes, in which every
node maps to the opposite endpoints of its incident edges in edge order (an
isolated node to the empty list), and whose list lengths sum to twice the number
of edges. -/
theorem buildAdjacencyList_spec (nodes : List NodeId) (edges : List Edge)
    (hnd : nodes.Nodup) (hE : EndpointsDeclared nodes edges) :
    ∃ adj, buildAdjacencyList nodes edges = some adj ∧
      adj.map Prod.fst = nodes ∧
      (∀ u ∈ nodes, objGet adj u = some (incidentList edges u)) ∧
      (∀ u ∈ nodes, (∀ e ∈ edges, e.from_ ≠ u ∧ e.to_ ≠ u) → objGet adj u = some []) ∧
      (adj.map (fun e => e.2.length)).sum = 2 * edges.length := by
  obtain ⟨adj, hadj⟩ := buildAdjacencyList_isSome nodes edges hE
  have hnb := neighbors_buildAdjacencyList nodes edges adj hadj
  have hkeys : adj.map Prod.fst = nodes := by
    have := hadj
    unfold buildAdjacencyList at this
    rw [keys_addEdges edges _ adj this, keys_initAdj nodes hnd]
  have hget : ∀ u ∈ nodes, objGet adj u = some (incidentList edges u) := by
    intro u hu
    rw [objGet_eq_some_neighbors adj u (by rw [hkeys]; exact hu), hnb]
  refine ⟨adj, hadj, hkeys, hget, ?_, ?_⟩
  · intro u hu hiso
    rw [hget u hu]
    congr 1
    rw [List.eq_nil_iff_forall_not_mem]
    intro w hw
    obtain ⟨e, he, h | h⟩ := (mem_incidentList edges u w).1 hw
    · exact (hiso e he).1 h.1
    · exact (hiso e he).2 h.1
  · rw [sum_lengths_eq adj (by rw [hkeys]; exact hnd), hkeys]
    simp only [hnb]
    exact degree_sum nodes edges hnd hE

/-! ## Components of a graph without edges -/

theorem componentsLoop_noEdges (adj : JsObj (List NodeId))
    (hnb : ∀ u, neighbors adj u = []) (l visited : List NodeId)
    (components : List (List NodeId)) (hl : l.Nodup) (hv : ∀ x ∈ l, x ∉ visited) :
    componentsLoop adj l visited components
      = some (components ++ l.map (fun n => [n])) := by
  induction l generalizing visited components with
  | nil => simp [componentsLoop]
  | cons n t ih =>
    rw [List.nodup_cons] at hl
    have hn : n ∉ visited := hv n (List.mem_cons_self n t)
    have hbfs : bfsComponent adj (bfsFuel adj) [n] visited []
        = some (setAdd visited n, [n]) := by
      have hf : bfsFuel adj = (adj.map (fun e => e.2.length)).sum + 1 + 1 := rfl
      rw [hf]
      simp [bfsComponent, hn, hnb, setAdd]
    simp only [componentsLoop, hn, if_false, hbfs]
    rw [ih (setAdd visited n) (components ++ [[n]]) hl.2 (fun x hx hmem => by
      rcases (mem_setAdd visited n x).1 hmem with h | h
      · exact hv x (List.mem_cons_of_mem n hx) h
      · rw [h] at hx
        exact hl.1 hx)]
    simp

/-- C14: for `N` distinct nodes, `findConnectedComponents(nodes, [])` returns
exactly `N` components, the `i`-th being the singleton of the `i`-th node. -/
theorem findConnectedComponents_noEdges (nodes : List NodeId) (hnd : nodes.Nodup) :
    findConnectedComponents nodes [] = some (nodes.map (fun n => [n])) := by
  simp only [findConnectedComponents, addEdges]
  rw [componentsLoop_noEdges (initAdj nodes) (neighbors_initAdj nodes) nodes [] [] hnd
    (by simp)]
  simp

/-! ## The removal step in detail -/

theorem selectFold_spec (betweenness : JsObj Nat) (l : List Edge) (n : Nat)
    (st : Nat × Nat) :
    (((l.enumFrom n).foldl (selectStep betweenness) st) = st ∧
        ∀ x ∈ l, edgeScore betweenness x ≤ st.1) ∨
    ∃ pre e post, l = pre ++ e :: post ∧
      ((l.enumFrom n).foldl (selectStep betweenness) st)
        = (edgeScore betweenness e, n + pre.length) ∧
      st.1 < edgeScore betweenness e ∧
      (∀ x ∈ pre, edgeScore betweenness x < edgeScore betweenness e) ∧
      ∀ x ∈ post, edgeScore betweenness x ≤ edgeScore betweenness e := by
  induction l generalizing n st with
  | nil => exact Or.inl ⟨rfl, by simp⟩
  | cons a t ih =>
    rw [List.enumFrom_cons, List.foldl_cons]
    by_cases hb : edgeScore betweenness a > st.1
    · have hstep : selectStep betweenness st (n, a) = (edgeScore betweenness a, n) := by
        simp [selectStep, hb]
      rw [hstep]
      right
      rcases ih (n + 1) (edgeScore betweenness a, n) with ⟨h1, h2⟩ | ⟨pre, e, post, h1, h2, h3, h4, h5⟩
      · exact ⟨[], a, t, rfl, by rw [h1]; rfl, hb, by simp, h2⟩
      · refine ⟨a :: pre, e, post, by rw [h1]; rfl, ?_, lt_trans hb h3, ?_, h5⟩
        · rw [h2]
          simp only [List.length_cons]
          congr 1
          omega
        · intro x hx
          rcases List.mem_cons.1 hx with rfl | hx1
          · exact h3
          · exact h4 x hx1
    · have hstep : selectStep betweenness st (n, a) = st := by
        simp [selectStep, hb]
      rw [hstep]
      rcases ih (n + 1) st with ⟨h1, h2⟩ | ⟨pre, e, post, h1, h2, h3, h4, h5⟩
      · left
        refine ⟨h1, ?_⟩
        intro x hx
        rcases List.mem_cons.1 hx with rfl | hx1
        · exact not_lt.1 hb
        · exact h2 x hx1
      · right
        refine ⟨a :: pre, e, post, by rw [h1]; rfl, ?_, h3, ?_, h5⟩
        · rw [h2]
          simp only [List.length_cons]
          congr 1
          omega
        · intro x hx
          rcases List.mem_cons.1 hx with rfl | hx1
          · exact lt_of_le_of_lt (not_lt.1 hb) h3
          · exact h4 x hx1

theorem selectEdgeToRemove_spec (edges : List Edge) (betweenness : JsObj Nat)
    (h : edges ≠ []) :
    ∃ pre e post, edges = pre ++ e :: post ∧
      selectEdgeToRemove edges betweenness = pre.length ∧
      (∀ x ∈ pre, edgeScore betweenness x < edgeScore betweenness e) ∧
      ∀ x ∈ post, edgeScore betweenness x ≤ edgeScore betweenness e := by
  unfold selectEdgeToRemove List.enum
  rcases selectFold_spec betweenness edges 0 (0, 0) with ⟨h1, h2⟩ | ⟨pre, e, post, h1, h2, _, h4, h5⟩
  · cases edges with
    | nil => exact absurd rfl h
    | cons a t =>
      refine ⟨[], a, t, rfl, by rw [h1]; rfl, by simp, ?_⟩
      intro x hx
      have := h2 x (List.mem_cons_of_mem a hx)
      simp only at this
      omega
  · exact ⟨pre, e, post, h1, by rw [h2]; simp, h4, h5⟩

theorem eraseIdx_append_cons {α : Type} (pre : List α) (e : α) (post : List α) :
    (pre ++ e :: post).eraseIdx pre.length = pre ++ post := by
  induction pre with
  | nil => rfl
  | cons a t ih => simp [ih]

theorem edgeScore_eq_accumulatedScore (betweenness : JsObj Nat) (e : Edge) :
    edgeScore betweenness e = accumulatedScore betweenness e := by
  unfold edgeScore accumulatedScore edgeKey
  cases h1 : objGet betweenness (e.from_ ++ "-" ++ e.to_) with
  | none =>
    cases h2 : objGet betweenness (e.to_ ++ "-" ++ e.from_) <;> simp
  | some n =>
    cases n with
    | zero =>
      cases h2 : objGet betweenness (e.to_ ++ "-" ++ e.from_) <;> simp
    | succ k => simp

theorem keys_creditEdge (target pred : NodeId) (betweenness : JsObj Nat) :
    (creditEdge target betweenness pred).map Prod.fst = betweenness.map Prod.fst := by
  unfold creditEdge
  simp only []
  cases h1 : objGet betweenness (edgeKey pred target) with
  | some b => exact keys_objSet_of_mem _ _ _ (mem_keys_of_objGet _ _ _ h1)
  | none =>
    cases h2 : objGet betweenness (edgeKey target pred) with
    | some b => exact keys_objSet_of_mem _ _ _ (mem_keys_of_objGet _ _ _ h2)
    | none => rfl

theorem keys_foldl_creditEdge (target : NodeId) (preds : List NodeId)
    (betweenness : JsObj Nat) :
    (preds.foldl (creditEdge target) betweenness).map Prod.fst
      = betweenness.map Prod.fst := by
  induction preds generalizing betweenness with
  | nil => rfl
  | cons p t ih => rw [List.foldl_cons, ih, keys_creditEdge]

theorem keys_creditSource (nodes : List NodeId) (source : NodeId)
    (predecessors : JsObj (List NodeId)) (betweenness : JsObj Nat) :
    (creditSource nodes source predecessors betweenness).map Prod.fst
      = betweenness.map Prod.fst := by
  unfold creditSource
  induction nodes generalizing betweenness with
  | nil => rfl
  | cons t ts ih =>
    rw [List.foldl_cons, ih]
    split
    · rfl
    · exact keys_foldl_creditEdge _ _ _

theorem keys_betweennessLoop (adj : JsObj (List NodeId)) (nodes sources : List NodeId)
    (betweenness result : JsObj Nat)
    (h : betweennessLoop adj nodes sources betweenness = some result) :
    result.map Prod.fst = betweenness.map Prod.fst := by
  induction sources generalizing betweenness with
  | nil =>
    simp only [betweennessLoop, Option.some.injEq] at h
    rw [h]
  | cons s rest ih =>
    simp only [betweennessLoop] at h
    split at h
    · exact Option.noConfusion h
    · rw [ih _ h, keys_creditSource]

theorem mem_keys_initBetweenness (edges : List Edge) (acc : JsObj Nat) (k : String) :
    k ∈ (edges.foldl (fun b e => objSet b (edgeKey e.from_ e.to_) 0) acc).map Prod.fst
      ↔ k ∈ acc.map Prod.fst ∨ ∃ e ∈ edges, k = edgeKey e.from_ e.to_ := by
  induction edges generalizing acc with
  | nil => simp
  | cons a t ih =>
    rw [List.foldl_cons, ih, mem_keys_objSet]
    constructor
    · rintro ((h | h) | ⟨e, he, h⟩)
      · exact Or.inr ⟨a, List.mem_cons_self a t, h⟩
      · exact Or.inl h
      · exact Or.inr ⟨e, List.mem_cons_of_mem a he, h⟩
    · rintro (h | ⟨e, he, h⟩)
      · exact Or.inl (Or.inr h)
      · rcases List.mem_cons.1 he with rfl | he1
        · exact Or.inl (Or.inl h)
        · exact Or.inr ⟨e, he1, h⟩

theorem calculateEdgeBetweenness_keys (nodes : List NodeId) (edges : List Edge)
    (betweenness : JsObj Nat)
    (h : calculateEdgeBetweenness nodes edges = some betweenness) (e : Edge)
    (he : e ∈ edges) :
    ∃ n, objGet betweenness (e.from_ ++ "-" ++ e.to_) = some n := by
  unfold calculateEdgeBetweenness at h
  simp only [] at h
  split at h
  · exact Option.noConfusion h
  · apply objGet_isSome_of_mem
    rw [keys_betweennessLoop _ _ _ _ _ h, mem_keys_initBetweenness]
    exact Or.inr ⟨e, he, rfl⟩

theorem selectEdgeToRemove_accumulated (edges : List Edge) (betweenness : JsObj Nat)
    (h : edges ≠ []) :
    ∃ pre e post, edges = pre ++ e :: post ∧
      selectEdgeToRemove edges betweenness = pre.length ∧
      (∀ x ∈ pre, accumulatedScore betweenness x < accumulatedScore betweenness e) ∧
      ∀ x ∈ post, accumulatedScore betweenness x ≤ accumulatedScore betweenness e := by
  obtain ⟨pre, e, post, h1, h2, h3, h4⟩ := selectEdgeToRemove_spec edges betweenness h
  refine ⟨pre, e, post, h1, h2, ?_, ?_⟩
  · intro x hx
    have := h3 x hx
    rwa [edgeScore_eq_accumulatedScore, edgeScore_eq_accumulatedScore] at this
  · intro x hx
    have := h4 x hx
    rwa [edgeScore_eq_accumulatedScore, edgeScore_eq_accumulatedScore] at this

/-- C18: in an iteration of `girvanNewmanAlgorithm` that does not return, the
removal step deletes exactly one edge.  The betweenness object holds a count
under the key `from-to` of every edge of the working list; the list splits as
`pre ++ e :: post` where every edge of `pre` has a strictly smaller accumulated
score than `e` and every edge of `post` an accumulated score at most that of `e`
(so `e` is at index 0 when all scores are 0), the score of an edge being the
count the object holds for it; and the loop continues with `pre ++ post`. -/
theorem removeStep_selects (nodes : List NodeId) (edges : List Edge)
    (hE : EndpointsDeclared nodes edges) (hne : edges ≠ []) :
    ∃ betweenness pre e post,
      calculateEdgeBetweenness nodes edges = some betweenness ∧
      (∀ x ∈ edges, ∃ n, objGet betweenness (x.from_ ++ "-" ++ x.to_) = some n) ∧
      edges = pre ++ e :: post ∧
      selectEdgeToRemove edges betweenness = pre.length ∧
      (∀ x ∈ pre, accumulatedScore betweenness x < accumulatedScore betweenness e) ∧
      (∀ x ∈ post, accumulatedScore betweenness x ≤ accumulatedScore betweenness e) ∧
      removeStep nodes edges = some (pre ++ post) ∧
      ∀ fuel components, findConnectedComponents nodes edges = some components →
        ¬ components.length ≥ targetCommunities nodes →
        girvanNewmanLoop nodes (fuel + 1) edges = girvanNewmanLoop nodes fuel (pre ++ post) := by
  obtain ⟨b, hb⟩ := calculateEdgeBetweenness_isSome nodes edges hE
  obtain ⟨pre, e, post, h1, h2, h3, h4⟩ := selectEdgeToRemove_accumulated edges b hne
  have hrem : removeStep nodes edges = some (pre ++ post) := by
    simp only [removeStep, hb, h2]
    rw [h1, eraseIdx_append_cons]
  refine ⟨b, pre, e, post, hb, calculateEdgeBetweenness_keys nodes edges b hb, h1, h2, h3, h4,
    hrem, ?_⟩
  intro fuel components hc hlt
  cases edges with
  | nil => exact absurd rfl hne
  | cons a t => simp only [girvanNewmanLoop, hc, hlt, if_false, hrem]

/-! ## Sums over ordered member pairs of a community -/

theorem sum_map_single (c : List NodeId) (b : NodeId) (f : NodeId → Nat) (hc : c.Nodup) :
    (c.map (fun j => if j = b then f j else 0)).sum = if b ∈ c then f b else 0 := by
  induction c with
  | nil => simp
  | cons a t ih =>
    rw [List.nodup_cons] at hc
    simp only [List.map_cons, List.sum_cons, ih hc.2, List.mem_cons]
    by_cases hab : a = b
    · subst hab
      simp [hc.1]
    · simp [hab, Ne.symm hab]

theorem sum_map_pair (c : List NodeId) (a b : NodeId) (w : NodeId → NodeId → Nat)
    (hc : c.Nodup) :
    (c.map (fun i => (c.map (fun j => if i = a ∧ j = b then w i j else 0)).sum)).sum
      = if a ∈ c ∧ b ∈ c then w a b else 0 := by
  have hinner : ∀ i, (c.map (fun j => if i = a ∧ j = b then w i j else 0)).sum
      = if i = a then (if b ∈ c then w i b else 0) else 0 := by
    intro i
    by_cases hi : i = a
    · simp only [hi, true_and, if_true]
      exact sum_map_single c b (fun j => w a j) hc
    · simp [hi]
  simp only [hinner]
  rw [sum_map_single c a (fun i => if b ∈ c then w i b else 0) hc]
  by_cases ha : a ∈ c <;> by_cases hb : b ∈ c <;> simp [ha, hb]

theorem sum_map_zero {α : Type} (c : List α) : (c.map (fun _ => 0)).sum = 0 := by
  induction c with
  | nil => rfl
  | cons a t ih => simp

theorem mem_incidentList_cons (e : Edge) (es : List Edge) (i j : NodeId) :
    j ∈ incidentList (e :: es) i ↔
      (i = e.from_ ∧ j = e.to_) ∨ (i = e.to_ ∧ j = e.from_) ∨ j ∈ incidentList es i := by
  rw [mem_incidentList, mem_incidentList]
  unfold Linked
  simp only [List.mem_cons, exists_eq_or_imp]
  constructor
  · rintro ((⟨h1, h2⟩ | ⟨h1, h2⟩) | h)
    · exact Or.inl ⟨h1.symm, h2.symm⟩
    · exact Or.inr (Or.inl ⟨h1.symm, h2.symm⟩)
    · exact Or.inr (Or.inr h)
  · rintro (⟨h1, h2⟩ | ⟨h1, h2⟩ | h)
    · exact Or.inl (Or.inl ⟨h1.symm, h2.symm⟩)
    · exact Or.inl (Or.inr ⟨h1.symm, h2.symm⟩)
    · exact Or.inr h

theorem pairSum_simple (c : List NodeId) (edges : List Edge) (w : NodeId → NodeId → Nat)
    (hc : c.Nodup) (hloop : NoSelfLoops edges) (hrep : NoRepeatedEdges edges) :
    (c.map (fun i =>
      (c.map (fun j => if j ∈ incidentList edges i then w i j else 0)).sum)).sum
      = ((edges.filter (fun e => decide (e.from_ ∈ c) && decide (e.to_ ∈ c))).map
          (fun e => w e.from_ e.to_ + w e.to_ e.from_)).sum := by
  induction edges with
  | nil => simp [incidentList]
  | cons e es ih =>
    have hne : e.from_ ≠ e.to_ := hloop e (List.mem_cons_self e es)
    have hrep1 := hrep
    unfold NoRepeatedEdges at hrep1
    rw [List.pairwise_cons] at hrep1
    have ih1 := ih (fun e1 h1 => hloop e1 (List.mem_cons_of_mem e h1)) hrep1.2
    have hnew : ∀ i j, j ∈ incidentList es i →
        ¬ ((i = e.from_ ∧ j = e.to_) ∨ (i = e.to_ ∧ j = e.from_)) := by
      intro i j hj hor
      obtain ⟨e1, he1, h1⟩ := (mem_incidentList es i j).1 hj
      apply hrep1.1 e1 he1
      rcases hor with ⟨a1, a2⟩ | ⟨a1, a2⟩ <;> rcases h1 with ⟨b1, b2⟩ | ⟨b1, b2⟩
      · exact Or.inl ⟨a1.symm.trans b1.symm, a2.symm.trans b2.symm⟩
      · exact Or.inr ⟨a1.symm.trans b1.symm, a2.symm.trans b2.symm⟩
      · exact Or.inr ⟨a2.symm.trans b2.symm, a1.symm.trans b1.symm⟩
      · exact Or.inl ⟨a2.symm.trans b2.symm, a1.symm.trans b1.symm⟩
    have hsplit : ∀ i j, (if j ∈ incidentList (e :: es) i then w i j else 0)
        = (if i = e.from_ ∧ j = e.to_ then w i j else 0)
          + (if i = e.to_ ∧ j = e.from_ then w i j else 0)
          + (if j ∈ incidentList es i then w i j else 0) := by
      intro i j
      by_cases h3 : j ∈ incidentList es i
      · have hno := hnew i j h3
        rw [not_or] at hno
        rw [if_pos ((mem_incidentList_cons e es i j).2 (Or.inr (Or.inr h3))), if_neg hno.1,
          if_neg hno.2, if_pos h3]
        simp
      · by_cases h1 : i = e.from_ ∧ j = e.to_
        · have h2 : ¬ (i = e.to_ ∧ j = e.from_) := by
            rintro ⟨a1, _⟩
            exact hne (h1.1.symm.trans a1)
          rw [if_pos ((mem_incidentList_cons e es i j).2 (Or.inl h1)), if_pos h1, if_neg h2,
            if_neg h3]
          simp
        · by_cases h2 : i = e.to_ ∧ j = e.from_
          · rw [if_pos ((mem_incidentList_cons e es i j).2 (Or.inr (Or.inl h2))), if_neg h1,
              if_pos h2, if_neg h3]
            simp
          · have hnot : ¬ j ∈ incidentList (e :: es) i := by
              rw [mem_incidentList_cons]
              rintro (h | h | h)
              · exact h1 h
              · exact h2 h
              · exact h3 h
            rw [if_neg hnot, if_neg h1, if_neg h2, if_neg h3]
    have hL : (c.map (fun i =>
        (c.map (fun j => if j ∈ incidentList (e :: es) i then w i j else 0)).sum)).sum
        = (c.map (fun i =>
            (c.map (fun j => if i = e.from_ ∧ j = e.to_ then w i j else 0)).sum)).sum
          + (c.map (fun i =>
            (c.map (fun j => if i = e.to_ ∧ j = e.from_ then w i j else 0)).sum)).sum
          + (c.map (fun i =>
            (c.map (fun j => if j ∈ incidentList es i then w i j else 0)).sum)).sum := by
      simp only [hsplit, List.sum_map_add]
    rw [hL, ih1, sum_map_pair c e.from_ e.to_ w hc, sum_map_pair c e.to_ e.from_ w hc]
    by_cases hf : e.from_ ∈ c <;> by_cases ht : e.to_ ∈ c <;>
      simp only [List.filter_cons, hf, ht, decide_True, decide_False, Bool.and_self,
        Bool.and_false, Bool.false_and, if_true, if_false, true_and, and_true, and_false,
        false_and, and_self, List.map_cons, List.sum_cons, Bool.false_eq_true] <;>
      omega

theorem foldl_count_sum {α : Type} (l : List α) (p : α → Bool) (a : Nat) :
    l.foldl (fun acc x => if p x then acc + 1 else acc) a
      = a + (l.map (fun x => if p x then 1 else 0)).sum := by
  induction l generalizing a with
  | nil => simp
  | cons x t ih =>
    rw [List.foldl_cons, ih]
    by_cases hp : p x
    · simp only [hp, if_true, List.map_cons, List.sum_cons]
      omega
    · simp [hp]

theorem foldl_add_sum_nat {α : Type} (l : List α) (f : α → Nat) (a : Nat) :
    l.foldl (fun acc x => acc + f x) a = a + (l.map f).sum := by
  induction l generalizing a with
  | nil => simp
  | cons x t ih =>
    rw [List.foldl_cons, ih]
    simp [Nat.add_assoc]

theorem internalCount_eq_sum (adj : JsObj (List NodeId)) (c : List NodeId) :
    internalCount adj c
      = (c.map (fun m1 => (c.map (fun m2 =>
          if m2 ∈ neighbors adj m1 then (if jsStringLt m1 m2 then 1 else 0) else 0)).sum)).sum := by
  unfold internalCount
  have h1 : ∀ (m1 : NodeId) (a : Nat),
      c.foldl (fun internal m2 =>
        if jsStringLt m1 m2 && decide (m2 ∈ neighbors adj m1) then internal + 1
        else internal) a
      = a + (c.map (fun m2 =>
          if m2 ∈ neighbors adj m1 then (if jsStringLt m1 m2 then 1 else 0) else 0)).sum := by
    intro m1 a
    rw [foldl_count_sum c (fun m2 => jsStringLt m1 m2 && decide (m2 ∈ neighbors adj m1)) a]
    congr 1
    congr 1
    apply List.map_congr_left
    intro m2 _
    by_cases hl : jsStringLt m1 m2 = true <;> by_cases hm : m2 ∈ neighbors adj m1 <;>
      simp [hl, hm]
  simp only [h1]
  rw [foldl_add_sum_nat, Nat.zero_add]

/-! ## The JavaScript string order -/

theorem char_toNat_valid (c : Char) :
    c.toNat < 0xD800 ∨ (0xDFFF < c.toNat ∧ c.toNat < 0x110000) := c.valid

theorem char_eq_of_toNat_eq (c d : Char) (h : c.toNat = d.toNat) : c = d := by
  apply Char.ext
  apply UInt32.ext
  exact h

theorem codeUnits_injective (a b : List Char) (h : codeUnits a = codeUnits b) : a = b := by
  induction a generalizing b with
  | nil =>
    cases b with
    | nil => rfl
    | cons d ds =>
      exfalso
      unfold codeUnits utf16Units at h
      split at h <;> simp at h
  | cons c cs ih =>
    cases b with
    | nil =>
      exfalso
      unfold codeUnits utf16Units at h
      split at h <;> simp at h
    | cons d ds =>
      have hc := char_toNat_valid c
      have hd := char_toNat_valid d
      simp only [codeUnits, utf16Units] at h
      by_cases h1 : c.toNat < 0x10000 <;> by_cases h2 : d.toNat < 0x10000
      · simp only [h1, h2, if_true, List.singleton_append, List.cons.injEq] at h
        rw [char_eq_of_toNat_eq c d h.1, ih ds h.2]
      · simp only [h1, h2, if_true, if_false, List.singleton_append, List.cons_append,
          List.nil_append, List.cons.injEq] at h
        omega
      · simp only [h1, h2, if_true, if_false, List.singleton_append, List.cons_append,
          List.nil_append, List.cons.injEq] at h
        omega
      · simp only [h1, h2, if_false, List.cons_append, List.nil_append,
          List.cons.injEq] at h
        have : c.toNat = d.toNat := by omega
        rw [char_eq_of_toNat_eq c d this, ih ds h.2.2]

theorem unitsLt_asymm (a b : List Nat) (h : unitsLt a b = true) : unitsLt b a = false := by
  induction a generalizing b with
  | nil =>
    cases b with
    | nil => rfl
    | cons y ys => rfl
  | cons x xs ih =>
    cases b with
    | nil => simp [unitsLt] at h
    | cons y ys =>
      simp only [unitsLt] at h ⊢
      by_cases h1 : x < y
      · have h2 : ¬ y < x := by omega
        simp [h1, h2]
      · by_cases h2 : y < x
        · simp [h1, h2] at h
        · simp only [h1, h2, if_false] at h ⊢
          exact ih ys h

theorem unitsLt_total (a b : List Nat) (h : a ≠ b) :
    unitsLt a b = true ∨ unitsLt b a = true := by
  induction a generalizing b with
  | nil =>
    cases b with
    | nil => exact absurd rfl h
    | cons y ys => exact Or.inl rfl
  | cons x xs ih =>
    cases b with
    | nil => exact Or.inr rfl
    | cons y ys =>
      simp only [unitsLt]
      by_cases h1 : x < y
      · simp [h1]
      · by_cases h2 : y < x
        · simp [h2]
        · have hxy : x = y := by omega
          subst hxy
          have hne : xs ≠ ys := fun e => h (by rw [e])
          simpa [h1] using ih ys hne

theorem jsStringLt_pair (a b : NodeId) (h : a ≠ b) :
    (if jsStringLt a b then 1 else 0) + (if jsStringLt b a then 1 else 0) = 1 := by
  have hne : codeUnits a.data ≠ codeUnits b.data := by
    intro e
    exact h (String.ext (codeUnits_injective _ _ e))
  unfold jsStringLt
  rcases unitsLt_total _ _ hne with h1 | h1
  · rw [h1, unitsLt_asymm _ _ h1]
    rfl
  · rw [h1, unitsLt_asymm _ _ h1]
    rfl

theorem sum_orientation (l : List Edge) (h : ∀ e ∈ l, e.from_ ≠ e.to_) :
    (l.map (fun e => (if jsStringLt e.from_ e.to_ then 1 else 0)
      + (if jsStringLt e.to_ e.from_ then 1 else 0))).sum = l.length := by
  induction l with
  | nil => rfl
  | cons e es ih =>
    simp only [List.map_cons, List.sum_cons, List.length_cons,
      jsStringLt_pair e.from_ e.to_ (h e (List.mem_cons_self e es)),
      ih (fun e1 h1 => h e1 (List.mem_cons_of_mem e h1))]
    omega

theorem internalCount_eq_insideEdges (adj : JsObj (List NodeId)) (edges : List Edge)
    (c : List NodeId) (hnb : ∀ u, neighbors adj u = incidentList edges u)
    (hc : c.Nodup) (hloop : NoSelfLoops edges) (hrep : NoRepeatedEdges edges) :
    internalCount adj c = insideEdges edges c := by
  rw [internalCount_eq_sum]
  simp only [hnb]
  rw [pairSum_simple c edges (fun m1 m2 => if jsStringLt m1 m2 then 1 else 0) hc hloop hrep]
  unfold insideEdges
  exact sum_orientation _ (fun e he => hloop e (List.mem_filter.1 he).1)

theorem displayAnalysis_eq (nodes : List NodeId) (edges : List Edge)
    (communities : List (List NodeId)) (adj : JsObj (List NodeId))
    (hadj : buildAdjacencyList nodes edges = some adj)
    (hmem : ∀ c ∈ communities, ∀ v ∈ c, v ∈ nodes) :
    displayAnalysis nodes edges communities = some (communities.map (analysisRow adj)) := by
  have hall : communities.all (fun c => c.all (fun i => (objGet adj i).isSome)) = true := by
    rw [List.all_eq_true]
    intro c hcm
    rw [List.all_eq_true]
    intro i hi
    obtain ⟨v, hv⟩ := objGet_isSome_of_mem adj i
      ((mem_keys_buildAdjacencyList nodes edges adj hadj i).2 (hmem c hcm i hi))
    rw [hv]
    rfl
  simp only [displayAnalysis, hadj, hall, if_true]

/-- C11: on a graph with declared endpoints, no self-loop and no repeated edge,
the `internal` value that `displayAnalysis` computes for every community of
distinct declared nodes is the number of edges with both endpoints in the
community. -/
theorem displayAnalysis_internal (nodes : List NodeId) (edges : List Edge)
    (communities : List (List NodeId)) (hE : EndpointsDeclared nodes edges)
    (hloop : NoSelfLoops edges) (hrep : NoRepeatedEdges edges)
    (hc : ∀ c ∈ communities, c.Nodup ∧ ∀ v ∈ c, v ∈ nodes) :
    ∃ rows, displayAnalysis nodes edges communities = some rows ∧
      rows.map (fun r => r.internal) = communities.map (insideEdges edges) := by
  obtain ⟨adj, hadj⟩ := buildAdjacencyList_isSome nodes edges hE
  have hnb := neighbors_buildAdjacencyList nodes edges adj hadj
  refine ⟨_, displayAnalysis_eq nodes edges communities adj hadj (fun c h => (hc c h).2), ?_⟩
  rw [List.map_map]
  apply List.map_congr_left
  intro c hcm
  exact internalCount_eq_insideEdges adj edges c hnb (hc c hcm).1 hloop hrep

/-! ## The modularity sum against the standard formula -/

theorem degree_eq_length (edges : List Edge) (u : NodeId) :
    degree edges u = (incidentList edges u).length := by
  induction edges with
  | nil => rfl
  | cons e es ih =>
    rw [length_incidentList_cons, ← ih]
    unfold degree
    by_cases hf : e.from_ = u <;> by_cases ht : e.to_ = u <;>
      simp [List.filter_cons, hf, ht] <;> omega

theorem pairCount_eq_inside (adj : JsObj (List NodeId)) (edges : List Edge)
    (communities : List (List NodeId)) (hnb : ∀ u, neighbors adj u = incidentList edges u)
    (hloop : NoSelfLoops edges) (hrep : NoRepeatedEdges edges)
    (hc : ∀ c ∈ communities, c.Nodup) :
    pairCount adj communities = (communities.map (fun c => 2 * insideEdges edges c)).sum := by
  unfold pairCount
  congr 1
  apply List.map_congr_left
  intro c hcm
  simp only [hnb]
  rw [pairSum_simple c edges (fun _ _ => 1) (hc c hcm) hloop hrep]
  unfold insideEdges
  generalize edges.filter (fun e => decide (e.from_ ∈ c) && decide (e.to_ ∈ c)) = l
  induction l with
  | nil => rfl
  | cons e es ih =>
    simp only [List.map_cons, List.sum_cons, ih, List.length_cons]
    omega

theorem degProd_eq_square (adj : JsObj (List NodeId)) (edges : List Edge)
    (communities : List (List NodeId)) (hnb : ∀ u, neighbors adj u = incidentList edges u) :
    degProd adj communities
      = (communities.map (fun c =>
          (c.map (degree edges)).sum * (c.map (degree edges)).sum)).sum := by
  unfold degProd
  congr 1
  apply List.map_congr_left
  intro c _
  simp only [hnb, ← degree_eq_length]
  exact sum_mul_sum c c (degree edges)

theorem standard_form (m : ℚ) (hm : m ≠ 0) (l : List (Nat × Nat)) :
    ((((l.map (fun p => 2 * p.1)).sum : Nat) : ℚ)
        - (((l.map (fun p => p.2 * p.2)).sum : Nat) : ℚ) / (2 * m)) / (2 * m)
      = (l.map (fun p => (p.1 : ℚ) / m - ((p.2 : ℚ) / (2 * m)) ^ 2)).sum := by
  induction l with
  | nil => simp
  | cons p t ih =>
    simp only [List.map_cons, List.sum_cons, Nat.cast_add, Nat.cast_mul, Nat.cast_ofNat]
    rw [← ih]
    field_simp
    ring

theorem magnitude_form (m : ℚ) (hm : m ≠ 0) (l : List (Nat × Nat)) :
    ((((l.map (fun p => 2 * p.1)).sum : Nat) : ℚ)
        + (((l.map (fun p => p.2 * p.2)).sum : Nat) : ℚ) / (2 * m)) / (2 * m)
      = (l.map (fun p => (p.1 : ℚ) / m + ((p.2 : ℚ) / (2 * m)) ^ 2)).sum := by
  induction l with
  | nil => simp
  | cons p t ih =>
    simp only [List.map_cons, List.sum_cons, Nat.cast_add, Nat.cast_mul, Nat.cast_ofNat]
    rw [← ih]
    field_simp
    ring

theorem standardMagnitude_nonneg (edges : List Edge) (communities : List (List NodeId)) :
    0 ≤ standardMagnitude edges communities := by
  unfold standardMagnitude
  apply List.sum_nonneg
  intro x hx
  obtain ⟨c, _, rfl⟩ := List.mem_map.1 hx
  positivity

theorem exact_sums_eq_standard (edges : List Edge) (communities : List (List NodeId))
    (adj : JsObj (List NodeId)) (hnb : ∀ u, neighbors adj u = incidentList edges u)
    (hm : 0 < edges.length) (hloop : NoSelfLoops edges) (hrep : NoRepeatedEdges edges)
    (hc : ∀ c ∈ communities, c.Nodup) :
    ((pairCount adj communities : ℚ)
          - (degProd adj communities : ℚ) / ((2 * edges.length : Nat) : ℚ))
        / ((2 * edges.length : Nat) : ℚ) = standardModularity edges communities ∧
      ((pairCount adj communities : ℚ)
          + (degProd adj communities : ℚ) / ((2 * edges.length : Nat) : ℚ))
        / ((2 * edges.length : Nat) : ℚ) = standardMagnitude edges communities := by
  rw [pairCount_eq_inside adj edges communities hnb hloop hrep hc,
    degProd_eq_square adj edges communities hnb]
  have hmq : (edges.length : ℚ) ≠ 0 := by
    have : edges.length ≠ 0 := by omega
    exact_mod_cast this
  have h1 := standard_form (edges.length : ℚ) hmq
    (communities.map (fun c => (insideEdges edges c, (c.map (degree edges)).sum)))
  have h2 := magnitude_form (edges.length : ℚ) hmq
    (communities.map (fun c => (insideEdges edges c, (c.map (degree edges)).sum)))
  simp only [List.map_map, Function.comp_def] at h1 h2
  unfold standardModularity standardMagnitude
  rw [← h1, ← h2]
  push_cast
  exact ⟨rfl, rfl⟩

/-- C16 (amended): on a graph with `m > 0` edges, declared endpoints, no
self-loop and no repeated edge, and for communities of distinct declared nodes,
the value of `calculateModularity` equals the standard formula, the sum over the
communities of `L_c / m - (D_c / (2 m))^2`, up to the rounding of its `N`
additions (`N` the number of ordered member pairs): the two differ by at most
`((1 + 2^(-53))^(N + 8) - 1)` times the sum of `L_c / m + (D_c / (2 m))^2`, and
that factor is at most `(N + 8) / 2^52` as long as `N + 8 ≤ 2^52`. -/
theorem calculateModularity_near_standard (nodes : List NodeId) (edges : List Edge)
    (communities : List (List NodeId)) (hm : 0 < edges.length)
    (hE : EndpointsDeclared nodes edges) (hloop : NoSelfLoops edges)
    (hrep : NoRepeatedEdges edges)
    (hc : ∀ c ∈ communities, c.Nodup ∧ ∀ v ∈ c, v ∈ nodes) :
    ∃ q, calculateModularity nodes edges communities = some q ∧
      |q - standardModularity edges communities|
        ≤ ((1 + unitRoundoff) ^ (summandCount communities + 8) - 1)
          * standardMagnitude edges communities ∧
      (summandCount communities + 8 ≤ 2 ^ 52 →
        |q - standardModularity edges communities|
          ≤ ((summandCount communities + 8 : Nat) : ℚ) / 2 ^ 52
            * standardMagnitude edges communities) := by
  have hmain : ∃ q, calculateModularity nodes edges communities = some q ∧
      |q - standardModularity edges communities|
        ≤ ((1 + unitRoundoff) ^ (summandCount communities + 8) - 1)
          * standardMagnitude edges communities := by
    by_cases hnil : communities = []
    · subst hnil
      refine ⟨0, by simp [calculateModularity], ?_⟩
      simp [standardModularity, standardMagnitude]
    · obtain ⟨adj, hadj⟩ := buildAdjacencyList_isSome nodes edges hE
      have hnb := neighbors_buildAdjacencyList nodes edges adj hadj
      have hkeys : ∀ c ∈ communities, ∀ i ∈ c, i ∈ adj.map Prod.fst := fun c hcm i hi =>
        (mem_keys_buildAdjacencyList nodes edges adj hadj i).2 ((hc c hcm).2 i hi)
      obtain ⟨q, hq, hb⟩ := calculateModularity_error nodes edges communities adj hnil
        (by omega) hadj hkeys
      obtain ⟨h1, h2⟩ := exact_sums_eq_standard edges communities adj hnb hm hloop hrep
        (fun c h => (hc c h).1)
      rw [h1, h2] at hb
      exact ⟨q, hq, hb⟩
  obtain ⟨q, hq, hb⟩ := hmain
  refine ⟨q, hq, hb, fun hsize => le_trans hb ?_⟩
  exact mul_le_mul_of_nonneg_right (pow_sub_one_le _ hsize)
    (standardMagnitude_nonneg edges communities)

/-- C16 (counterexample): on the scenario graph, which has declared endpoints, no
self-loop and no repeated edge, the standard formula gives `-1/18` for the
partition `{B}`, `{A, C, D, E}`, and `calculateModularity` returns the Number
`-500399958596721 / 2^53`, which is not `-1/18`. -/
theorem calculateModularity_standard_counterexample :
    EndpointsDeclared scenarioNodes scenarioEdges ∧ NoSelfLoops scenarioEdges ∧
      NoRepeatedEdges scenarioEdges ∧
      standardModularity scenarioEdges [["B"], ["A", "C", "D", "E"]] = -1 / 18 ∧
      calculateModularity scenarioNodes scenarioEdges [["B"], ["A", "C", "D", "E"]]
        = some (-500399958596721 / 2 ^ 53) ∧
      calculateModularity scenarioNodes scenarioEdges [["B"], ["A", "C", "D", "E"]]
        ≠ some (standardModularity scenarioEdges [["B"], ["A", "C", "D", "E"]]) := by
  have hs : standardModularity scenarioEdges [["B"], ["A", "C", "D", "E"]] = -1 / 18 := by
    decide!
  refine ⟨by decide, by decide, by decide, hs, scenario_calculateModularity, ?_⟩
  rw [hs, scenario_calculateModularity]
  norm_num

/-! ## Order of the communities returned by `partitionToCommunities` -/

theorem sublist_unique {α : Type} (l a b : List α) (hl : l.Nodup) (ha : a.Sublist l)
    (hb : b.Sublist l) (h : ∀ x, x ∈ a ↔ x ∈ b) : a = b := by
  induction l generalizing a b with
  | nil =>
    rw [List.sublist_nil.1 ha, List.sublist_nil.1 hb]
  | cons x t ih =>
    rw [List.nodup_cons] at hl
    by_cases hxa : x ∈ a
    · have hxb : x ∈ b := (h x).1 hxa
      cases ha with
      | cons _ ha1 => exact absurd (ha1.subset hxa) hl.1
      | cons₂ _ ha1 =>
        cases hb with
        | cons _ hb1 => exact absurd (hb1.subset hxb) hl.1
        | cons₂ _ hb1 =>
          rename_i a1 b1
          congr 1
          apply ih a1 b1 hl.2 ha1 hb1
          intro y
          constructor
          · intro hy
            rcases List.mem_cons.1 ((h y).1 (List.mem_cons_of_mem x hy)) with rfl | h1
            · exact absurd (ha1.subset hy) hl.1
            · exact h1
          · intro hy
            rcases List.mem_cons.1 ((h y).2 (List.mem_cons_of_mem x hy)) with rfl | h1
            · exact absurd (hb1.subset hy) hl.1
            · exact h1
    · have hxb : x ∉ b := fun hx => hxa ((h x).2 hx)
      cases ha with
      | cons₂ _ ha1 => exact absurd (List.mem_cons_self _ _) hxa
      | cons _ ha1 =>
        cases hb with
        | cons₂ _ hb1 => exact absurd (List.mem_cons_self _ _) hxb
        | cons _ hb1 => exact ih a b hl.2 ha1 hb1 h

theorem setAdd_sublist (s pre : List NodeId) (y : NodeId) (h : s.Sublist pre) :
    (setAdd s y).Sublist (pre ++ [y]) := by
  unfold setAdd
  split
  · exact h.trans (List.sublist_append_left pre [y])
  · exact List.Sublist.append h (List.Sublist.refl [y])

theorem commMapAdd_sublist (m : List (Nat × List NodeId)) (c : Nat) (y : NodeId)
    (pre : List NodeId) (h : ∀ e ∈ m, e.2.Sublist pre) :
    ∀ e ∈ commMapAdd m c y, e.2.Sublist (pre ++ [y]) := by
  induction m with
  | nil =>
    intro e he
    simp only [commMapAdd, List.mem_singleton] at he
    rw [he]
    exact List.sublist_append_right pre [y]
  | cons a t ih =>
    obtain ⟨k0, s0⟩ := a
    have h0 : s0.Sublist pre := h (k0, s0) (List.mem_cons_self _ _)
    have ht : ∀ e ∈ t, e.2.Sublist pre := fun e he => h e (List.mem_cons_of_mem _ he)
    have hw : ∀ s : List NodeId, s.Sublist pre → s.Sublist (pre ++ [y]) :=
      fun s hs => hs.trans (List.sublist_append_left pre [y])
    by_cases h1 : c = k0
    · subst h1
      simp only [commMapAdd, if_true, List.mem_cons]
      rintro e (rfl | he)
      · exact setAdd_sublist s0 pre y h0
      · exact hw _ (ht e he)
    · by_cases h2 : c < k0
      · simp only [commMapAdd, h1, h2, if_true, if_false, List.mem_cons]
        rintro e (rfl | rfl | he)
        · exact List.sublist_append_right pre [y]
        · exact hw _ h0
        · exact hw _ (ht e he)
      · simp only [commMapAdd, h1, h2, if_false, List.mem_cons]
        rintro e (rfl | he)
        · exact hw _ h0
        · exact ih ht e he

theorem commMap_fold_sublist (es : List (NodeId × Nat)) (m : List (Nat × List NodeId))
    (pre : List NodeId) (h : ∀ e ∈ m, e.2.Sublist pre) :
    ∀ e ∈ es.foldl (fun commMap e => commMapAdd commMap e.2 e.1) m,
      e.2.Sublist (pre ++ es.map Prod.fst) := by
  induction es generalizing m pre with
  | nil => simpa using h
  | cons a t ih =>
    rw [List.foldl_cons]
    have := ih (commMapAdd m a.2 a.1) (pre ++ [a.1]) (commMapAdd_sublist m a.2 a.1 pre h)
    simpa using this

theorem commMapAdd_ne_nil (m : List (Nat × List NodeId)) (c : Nat) (y : NodeId)
    (h : ∀ e ∈ m, e.2 ≠ []) : ∀ e ∈ commMapAdd m c y, e.2 ≠ [] := by
  have hset : ∀ s : List NodeId, setAdd s y ≠ [] := by
    intro s hs
    have : y ∈ setAdd s y := (mem_setAdd s y y).2 (Or.inr rfl)
    rw [hs] at this
    simp at this
  induction m with
  | nil =>
    intro e he
    simp only [commMapAdd, List.mem_singleton] at he
    rw [he]
    simp
  | cons a t ih =>
    obtain ⟨k0, s0⟩ := a
    have h0 : s0 ≠ [] := h (k0, s0) (List.mem_cons_self _ _)
    have ht : ∀ e ∈ t, e.2 ≠ [] := fun e he => h e (List.mem_cons_of_mem _ he)
    by_cases h1 : c = k0
    · subst h1
      simp only [commMapAdd, if_true, List.mem_cons]
      rintro e (rfl | he)
      · exact hset s0
      · exact ht e he
    · by_cases h2 : c < k0
      · simp only [commMapAdd, h1, h2, if_true, if_false, List.mem_cons]
        rintro e (rfl | rfl | he)
        · simp
        · exact h0
        · exact ht e he
      · simp only [commMapAdd, h1, h2, if_false, List.mem_cons]
        rintro e (rfl | he)
        · exact h0
        · exact ih ht e he

theorem commMap_fold_ne_nil (es : List (NodeId × Nat)) (m : List (Nat × List NodeId))
    (h : ∀ e ∈ m, e.2 ≠ []) :
    ∀ e ∈ es.foldl (fun commMap e => commMapAdd commMap e.2 e.1) m, e.2 ≠ [] := by
  induction es generalizing m with
  | nil => exact h
  | cons a t ih =>
    rw [List.foldl_cons]
    exact ih _ (commMapAdd_ne_nil m a.2 a.1 h)

theorem commMap_key_unique (m : List (Nat × List NodeId))
    (hs : (m.map Prod.fst).Pairwise (· < ·)) (k : Nat) (s1 s2 : List NodeId)
    (h1 : (k, s1) ∈ m) (h2 : (k, s2) ∈ m) : s1 = s2 := by
  rw [List.pairwise_map] at hs
  by_contra hne
  have hsymm : Symmetric (fun a b : Nat × List NodeId => a.1 ≠ b.1) := fun a b hab => hab.symm
  have hp : m.Pairwise (fun a b => a.1 ≠ b.1) := hs.imp (fun hab => Nat.ne_of_lt hab)
  exact hp.forall hsymm h1 h2 (fun e => hne (Prod.mk.inj e).2) rfl

theorem mem_foldl_setAdd (l acc : List Nat) (x : Nat) :
    x ∈ l.foldl setAdd acc ↔ x ∈ acc ∨ x ∈ l := by
  induction l generalizing acc with
  | nil => simp
  | cons a t ih =>
    rw [List.foldl_cons, ih, mem_setAdd, List.mem_cons]
    tauto

theorem nodup_foldl_setAdd (l acc : List Nat) (h : acc.Nodup) :
    (l.foldl setAdd acc).Nodup := by
  induction l generalizing acc with
  | nil => exact h
  | cons a t ih =>
    rw [List.foldl_cons]
    exact ih _ (nodup_setAdd acc a h)

theorem mem_ascendingIds (entries : List (NodeId × Nat)) (k : Nat) :
    k ∈ ascendingIds entries ↔ k ∈ entries.map Prod.snd := by
  unfold ascendingIds firstEncounteredIds
  rw [(List.perm_insertionSort _ _).mem_iff, mem_foldl_setAdd]
  simp

theorem nodup_ascendingIds (entries : List (NodeId × Nat)) :
    (ascendingIds entries).Nodup := by
  unfold ascendingIds firstEncounteredIds
  rw [(List.perm_insertionSort _ _).nodup_iff]
  exact nodup_foldl_setAdd _ [] List.nodup_nil

theorem commMap_fold_eq (entries : List (NodeId × Nat))
    (hnd : (entries.map Prod.fst).Nodup) :
    (entries.foldl (fun commMap e => commMapAdd commMap e.2 e.1) []).map Prod.snd
      = groupAscending entries := by
  obtain ⟨hs, hn, hm⟩ := commMap_fold entries [] (by simp) (by simp)
  have hsub := commMap_fold_sublist entries [] [] (by simp)
  have hne := commMap_fold_ne_nil entries [] (by simp)
  generalize entries.foldl (fun commMap e => commMapAdd commMap e.2 e.1) [] = m at *
  have hmem : ∀ k s, (k, s) ∈ m → ∀ y, y ∈ s ↔ (y, k) ∈ entries := by
    intro k s hks y
    constructor
    · intro hy
      have := (hm k y).1 ⟨s, hks, hy⟩
      simpa [commHas] using this
    · intro hy
      obtain ⟨s1, hs1, hy1⟩ := (hm k y).2 (Or.inr hy)
      rw [commMap_key_unique m hs k s s1 hks hs1]
      exact hy1
  have hval : ∀ e ∈ m, e.2 = membersOf entries e.1 := by
    intro e he
    apply sublist_unique (entries.map Prod.fst) _ _ hnd
    · simpa using hsub e he
    · exact (List.filter_sublist _).map Prod.fst
    · intro y
      rw [hmem e.1 e.2 he y]
      simp [membersOf]
  have hkeys : m.map Prod.fst = ascendingIds entries := by
    apply List.eq_of_perm_of_sorted (r := (· ≤ ·))
    · rw [List.perm_ext_iff_of_nodup (hs.imp (fun hab => Nat.ne_of_lt hab))
        (nodup_ascendingIds entries)]
      intro k
      rw [mem_ascendingIds]
      constructor
      · intro hk
        obtain ⟨e, he, rfl⟩ := List.mem_map.1 hk
        obtain ⟨y, hy⟩ := List.exists_mem_of_ne_nil _ (hne e he)
        exact List.mem_map.2 ⟨(y, e.1), (hmem e.1 e.2 he y).1 hy, rfl⟩
      · intro hk
        obtain ⟨e, he, rfl⟩ := List.mem_map.1 hk
        obtain ⟨s, hs1, _⟩ := (hm e.2 e.1).2 (Or.inr he)
        exact List.mem_map.2 ⟨(e.2, s), hs1, rfl⟩
    · exact hs.imp (fun hab => Nat.le_of_lt hab)
    · exact List.sorted_insertionSort _ _
  unfold groupAscending
  rw [← hkeys, List.map_map]
  apply List.map_congr_left
  intro e he
  exact hval e he

theorem partitionToCommunities_eq_groupAscending (partition : JsObj Nat)
    (hnd : (partition.map Prod.fst).Nodup) :
    partitionToCommunities partition = groupAscending (objectEntries partition) := by
  unfold partitionToCommunities
  exact commMap_fold_eq (objectEntries partition)
    (((objectEntries_perm partition).map Prod.fst).nodup_iff.2 hnd)

/-- C17 (amended): for every partition object with distinct keys, such as the
final mapping of the greedy partitioner, `partitionToCommunities` returns the
communities in ascending order of their identifiers, each community listing its
nodes in the order of the scan. -/
theorem partitionToCommunities_ascending (partition : JsObj Nat)
    (hnd : (partition.map Prod.fst).Nodup) :
    partitionToCommunities partition = groupAscending (objectEntries partition) :=
  partitionToCommunities_eq_groupAscending partition hnd

/-! ## A run of the greedy partitioner that reaches a fixed point -/

theorem louvainLoop_succ_of_not_improved (adjacency : JsObj (List NodeId))
    (nodes : List NodeId) (k : Nat) (partition next : JsObj Nat)
    (h : louvainPass adjacency nodes partition = (next, false)) :
    louvainLoop adjacency nodes (k + 1) partition = next := by
  simp only [louvainLoop, h]
  rfl

theorem order_buildAdjacencyList :
    buildAdjacencyList orderNodes orderEdges = some orderAdj := by decide

theorem order_objectKeys : objectKeys orderAdj = orderNodes := by decide

theorem order_firstPass :
    louvainPass orderAdj orderNodes (initPartition orderNodes) = (orderFinal, true) := by
  decide!

theorem order_secondPass :
    louvainPass orderAdj orderNodes orderFinal = (orderFinal, false) := by decide!

theorem order_louvainLoop :
    louvainLoop orderAdj orderNodes maxIterations (initPartition orderNodes) = orderFinal := by
  have h : maxIterations = 98 + 1 + 1 := rfl
  rw [h, louvainLoop_succ_of_improved _ _ _ _ _ order_firstPass,
    louvainLoop_succ_of_not_improved _ _ _ _ _ order_secondPass]

/-- C17 (counterexample): on the nodes `A, B, C` with the single edge `A–C` the
final mapping of the greedy partitioner is `A ↦ 2, B ↦ 1, C ↦ 2`; the scan meets
the identifier 2 first, yet `partitionToCommunities` returns `{B}` before
`{A, C}`. -/
theorem partitionToCommunities_order_counterexample :
    buildAdjacencyList orderNodes orderEdges = some orderAdj ∧
      louvainLoop orderAdj (objectKeys orderAdj) maxIterations
        (initPartition (objectKeys orderAdj)) = orderFinal ∧
      partitionToCommunities orderFinal = [["B"], ["A", "C"]] ∧
      groupFirstEncountered (objectEntries orderFinal) = [["A", "C"], ["B"]] ∧
      partitionToCommunities orderFinal ≠ groupFirstEncountered (objectEntries orderFinal) := by
  have h1 : partitionToCommunities orderFinal = [["B"], ["A", "C"]] := by decide
  have h2 : groupFirstEncountered (objectEntries orderFinal) = [["A", "C"], ["B"]] := by
    decide
  refine ⟨order_buildAdjacencyList, ?_, h1, h2, ?_⟩
  · rw [order_objectKeys]
    exact order_louvainLoop
  · rw [h1, h2]
    decide

/-! ## The greedy partitioner: what one node visit can do -/

theorem commOf_objSet (partition : JsObj Nat) (k u : NodeId) (v : Nat) :
    commOf (objSet partition k v) u = if k = u then v else commOf partition u := by
  unfold commOf
  rw [objGet_objSet]
  split <;> rfl

theorem objGet_eq_some_commOf (partition : JsObj Nat) (u : NodeId)
    (h : u ∈ partition.map Prod.fst) : objGet partition u = some (commOf partition u) := by
  obtain ⟨l, hl⟩ := objGet_isSome_of_mem partition u h
  simp [commOf, hl]

theorem mem_neighborComms (partition : JsObj Nat) (l : List NodeId) (acc : List Nat)
    (x : Nat) :
    x ∈ l.foldl (fun s neighbor => setAdd s (commOf partition neighbor)) acc ↔
      x ∈ acc ∨ ∃ nb ∈ l, commOf partition nb = x := by
  induction l generalizing acc with
  | nil => simp
  | cons a t ih =>
    rw [List.foldl_cons, ih, mem_setAdd]
    simp only [List.mem_cons, exists_eq_or_imp]
    constructor
    · rintro ((h | h) | h)
      · exact Or.inl h
      · exact Or.inr (Or.inl h.symm)
      · exact Or.inr (Or.inr h)
    · rintro (h | h | h)
      · exact Or.inl (Or.inl h)
      · exact Or.inl (Or.inr h.symm)
      · exact Or.inr h

theorem bestFold_mem (gain : Nat → Nat) (current : Nat) (l : List Nat) (b : Nat × Nat) :
    (l.foldl (fun (b : Nat × Nat) comm =>
        if comm = current then b
        else if gain comm > b.2 then (comm, gain comm) else b) b).1 = b.1 ∨
    (l.foldl (fun (b : Nat × Nat) comm =>
        if comm = current then b
        else if gain comm > b.2 then (comm, gain comm) else b) b).1 ∈ l := by
  induction l generalizing b with
  | nil => exact Or.inl rfl
  | cons a t ih =>
    rw [List.foldl_cons]
    by_cases h1 : a = current
    · rw [if_pos h1]
      rcases ih b with h | h
      · exact Or.inl h
      · exact Or.inr (List.mem_cons_of_mem a h)
    · rw [if_neg h1]
      by_cases h2 : gain a > b.2
      · rw [if_pos h2]
        rcases ih (a, gain a) with h | h
        · exact Or.inr (by rw [h]; exact List.mem_cons_self a t)
        · exact Or.inr (List.mem_cons_of_mem a h)
      · rw [if_neg h2]
        rcases ih b with h | h
        · exact Or.inl h
        · exact Or.inr (List.mem_cons_of_mem a h)

theorem bestFold_moves (gain : Nat → Nat) (current : Nat) (l : List Nat) (b : Nat × Nat)
    (hgain : ∀ comm ∈ l, comm ≠ current → 1 ≤ gain comm)
    (hb : (b.1 = current ∧ b.2 = 0) ∨ (b.1 ≠ current ∧ 1 ≤ b.2))
    (hex : b.1 ≠ current ∨ ∃ comm ∈ l, comm ≠ current) :
    (l.foldl (fun (b : Nat × Nat) comm =>
        if comm = current then b
        else if gain comm > b.2 then (comm, gain comm) else b) b).1 ≠ current := by
  induction l generalizing b with
  | nil =>
    rcases hex with h | ⟨c, hc, _⟩
    · exact h
    · simp at hc
  | cons a t ih =>
    rw [List.foldl_cons]
    have hgt : ∀ comm ∈ t, comm ≠ current → 1 ≤ gain comm :=
      fun c hc => hgain c (List.mem_cons_of_mem a hc)
    by_cases h1 : a = current
    · rw [if_pos h1]
      apply ih b hgt hb
      rcases hex with h | ⟨c, hc, hne⟩
      · exact Or.inl h
      · rcases List.mem_cons.1 hc with rfl | hct
        · exact absurd h1 hne
        · exact Or.inr ⟨c, hct, hne⟩
    · rw [if_neg h1]
      have hga := hgain a (List.mem_cons_self a t) h1
      by_cases h2 : gain a > b.2
      · rw [if_pos h2]
        exact ih (a, gain a) hgt (Or.inr ⟨h1, hga⟩) (Or.inl h1)
      · rw [if_neg h2]
        have hb2 : b.1 ≠ current ∧ 1 ≤ b.2 := by
          rcases hb with ⟨_, h0⟩ | h
          · omega
          · exact h
        exact ih b hgt (Or.inr hb2) (Or.inl hb2.1)

theorem gain_pos (node : NodeId) (comm : Nat) (partition : JsObj Nat)
    (adjacency : JsObj (List NodeId)) (nb : NodeId) (hnb : nb ∈ neighbors adjacency node)
    (h : objGet partition nb = some comm) :
    1 ≤ calculateModularityGain node comm partition adjacency := by
  unfold calculateModularityGain
  have hgen : ∀ (l : List NodeId) (a : Nat),
      a ≤ l.foldl (fun gain neighbor =>
        if objGet partition neighbor = some comm then gain + 1 else gain) a := by
    intro l
    induction l with
    | nil => intro a; exact Nat.le_refl a
    | cons x t ih =>
      intro a
      rw [List.foldl_cons]
      split
      · exact Nat.le_trans (Nat.le_succ a) (ih (a + 1))
      · exact ih a
  have hmem : ∀ (l : List NodeId) (a : Nat), nb ∈ l →
      a + 1 ≤ l.foldl (fun gain neighbor =>
        if objGet partition neighbor = some comm then gain + 1 else gain) a := by
    intro l
    induction l with
    | nil => intro a hm; simp at hm
    | cons x t ih =>
      intro a hm
      rw [List.foldl_cons]
      rcases List.mem_cons.1 hm with rfl | hm1
      · rw [if_pos h]
        exact hgen t (a + 1)
      · split
        · exact Nat.le_trans (Nat.le_succ (a + 1)) (ih (a + 1) hm1)
        · exact ih a hm1
  simpa using hmem (neighbors adjacency node) 0 hnb

theorem louvainNode_cases (adjacency : JsObj (List NodeId)) (partition : JsObj Nat)
    (node : NodeId) :
    louvainNode adjacency partition node = (partition, false) ∨
    ∃ nb ∈ neighbors adjacency node,
      louvainNode adjacency partition node
        = (objSet partition node (commOf partition nb), true) := by
  unfold louvainNode
  simp only
  split
  · rename_i hne
    right
    rcases bestFold_mem (fun comm => calculateModularityGain node comm partition adjacency)
      (commOf partition node)
      ((neighbors adjacency node).foldl
        (fun s neighbor => setAdd s (commOf partition neighbor)) [])
      (commOf partition node, 0) with h | h
    · exact absurd h hne
    · rcases (mem_neighborComms partition _ [] _).1 h with h0 | ⟨nb, hnb, hc⟩
      · simp at h0
      · exact ⟨nb, hnb, by rw [hc]⟩
  · exact Or.inl rfl

theorem louvainNode_stays (adjacency : JsObj (List NodeId)) (partition : JsObj Nat)
    (node : NodeId) (hkeys : ∀ nb ∈ neighbors adjacency node, nb ∈ partition.map Prod.fst)
    (h : (louvainNode adjacency partition node).2 = false) :
    louvainNode adjacency partition node = (partition, false) ∧
      ∀ nb ∈ neighbors adjacency node, commOf partition nb = commOf partition node := by
  have hcases := louvainNode_cases adjacency partition node
  have hfst : louvainNode adjacency partition node = (partition, false) := by
    rcases hcases with h1 | ⟨nb, _, h1⟩
    · exact h1
    · rw [h1] at h
      simp at h
  refine ⟨hfst, ?_⟩
  by_contra hex
  push_neg at hex
  obtain ⟨nb0, hnb0, hne0⟩ := hex
  have hmove := bestFold_moves
    (fun comm => calculateModularityGain node comm partition adjacency)
    (commOf partition node)
    ((neighbors adjacency node).foldl
      (fun s neighbor => setAdd s (commOf partition neighbor)) [])
    (commOf partition node, 0)
    (fun comm hc _ => by
      rcases (mem_neighborComms partition _ [] _).1 hc with h0 | ⟨nb, hnb, hcn⟩
      · simp at h0
      · apply gain_pos node comm partition adjacency nb hnb
        rw [objGet_eq_some_commOf partition nb (hkeys nb hnb), hcn])
    (Or.inl ⟨rfl, rfl⟩)
    (Or.inr ⟨commOf partition nb0,
      (mem_neighborComms partition _ [] _).2 (Or.inr ⟨nb0, hnb0, rfl⟩), hne0⟩)
  have hflag : (louvainNode adjacency partition node).2 = true := by
    unfold louvainNode
    simp only
    rw [if_pos hmove]
  rw [h] at hflag
  exact Bool.noConfusion hflag

/-! ## The greedy partitioner: communities stay inside connected components -/

theorem commConnected_louvainNode (adjacency : JsObj (List NodeId)) (edges : List Edge)
    (nodes keys : List NodeId) (hnb : ∀ u, neighbors adjacency u = incidentList edges u)
    (hE : EndpointsDeclared nodes edges) (hk : ∀ x, x ∈ keys ↔ x ∈ nodes)
    (partition : JsObj Nat) (node : NodeId) (hnode : node ∈ keys)
    (hinv : CommConnected edges keys partition) :
    CommConnected edges keys (louvainNode adjacency partition node).1 := by
  obtain ⟨hkeys, hconn⟩ := hinv
  rcases louvainNode_cases adjacency partition node with h | ⟨nb, hnbm, h⟩
  · rw [h]
    exact ⟨hkeys, hconn⟩
  · rw [h]
    have hlink : Linked edges node nb := by
      rw [hnb node] at hnbm
      exact (mem_incidentList edges node nb).1 hnbm
    have hnbk : nb ∈ keys :=
      (hk nb).2 (connected_mem_nodes nodes edges hE node nb
        (Relation.ReflTransGen.single hlink) ((hk node).1 hnode))
    refine ⟨?_, ?_⟩
    · rw [keys_objSet_of_mem partition node _ (by rw [hkeys]; exact hnode)]
      exact hkeys
    · intro u hu v hv huv
      simp only [commOf_objSet] at huv
      by_cases h1 : node = u <;> by_cases h2 : node = v
      · rw [← h1, ← h2]
        exact Relation.ReflTransGen.refl
      · rw [if_pos h1, if_neg h2] at huv
        rw [← h1]
        exact Relation.ReflTransGen.head hlink (hconn nb hnbk v hv huv)
      · rw [if_neg h1, if_pos h2] at huv
        rw [← h2]
        exact Relation.ReflTransGen.tail (hconn u hu nb hnbk huv) (linked_symm edges _ _ hlink)
      · rw [if_neg h1, if_neg h2] at huv
        exact hconn u hu v hv huv

theorem commConnected_louvainPass (adjacency : JsObj (List NodeId)) (edges : List Edge)
    (nodes keys : List NodeId) (hnb : ∀ u, neighbors adjacency u = incidentList edges u)
    (hE : EndpointsDeclared nodes edges) (hk : ∀ x, x ∈ keys ↔ x ∈ nodes)
    (l : List NodeId) (hl : ∀ x ∈ l, x ∈ keys) (partition : JsObj Nat) (b : Bool)
    (hinv : CommConnected edges keys partition) :
    CommConnected edges keys
      (l.foldl (fun (st : JsObj Nat × Bool) node =>
        let r := louvainNode adjacency st.1 node
        (r.1, st.2 || r.2)) (partition, b)).1 := by
  induction l generalizing partition b with
  | nil => exact hinv
  | cons n t ih =>
    rw [List.foldl_cons]
    exact ih (fun x hx => hl x (List.mem_cons_of_mem n hx)) _ _
      (commConnected_louvainNode adjacency edges nodes keys hnb hE hk partition n
        (hl n (List.mem_cons_self n t)) hinv)

theorem commConnected_louvainLoop (adjacency : JsObj (List NodeId)) (edges : List Edge)
    (nodes keys : List NodeId) (hnb : ∀ u, neighbors adjacency u = incidentList edges u)
    (hE : EndpointsDeclared nodes edges) (hk : ∀ x, x ∈ keys ↔ x ∈ nodes)
    (k : Nat) (partition : JsObj Nat) (hinv : CommConnected edges keys partition) :
    CommConnected edges keys (louvainLoop adjacency keys k partition) := by
  induction k generalizing partition with
  | zero => exact hinv
  | succ k ih =>
    have hp : CommConnected edges keys (louvainPass adjacency keys partition).1 :=
      commConnected_louvainPass adjacency edges nodes keys hnb hE hk keys (fun x hx => hx)
        partition false hinv
    simp only [louvainLoop]
    split
    · exact ih _ hp
    · exact hp

theorem foldl_enumFrom_eq (l : List NodeId) (n : Nat) (acc : JsObj Nat)
    (hd : ∀ x ∈ l, x ∉ acc.map Prod.fst) (hl : l.Nodup) :
    (l.enumFrom n).foldl (fun p e => objSet p e.2 e.1) acc
      = acc ++ (l.enumFrom n).map (fun e => (e.2, e.1)) := by
  induction l generalizing n acc with
  | nil => simp
  | cons a t ih =>
    rw [List.enumFrom_cons, List.foldl_cons]
    have ha : a ∉ acc.map Prod.fst := hd a (List.mem_cons_self a t)
    have hset : objSet acc a n = acc ++ [(a, n)] := by
      clear ih hd
      induction acc with
      | nil => rfl
      | cons x xs ihx =>
        obtain ⟨k, w⟩ := x
        simp only [List.map_cons, List.mem_cons, not_or] at ha
        have hne : ¬ k = a := fun e => ha.1 e.symm
        simp [objSet, hne, ihx ha.2]
    rw [List.nodup_cons] at hl
    rw [hset, ih (n + 1) (acc ++ [(a, n)]) (fun x hx => by
      simp only [List.map_append, List.map_cons, List.map_nil, List.mem_append,
        List.mem_singleton, not_or]
      refine ⟨hd x (List.mem_cons_of_mem a hx), ?_⟩
      rintro rfl
      exact hl.1 hx) hl.2]
    simp

theorem initPartition_eq (l : List NodeId) (hl : l.Nodup) :
    initPartition l = l.enum.map (fun e => (e.2, e.1)) := by
  unfold initPartition List.enum
  rw [foldl_enumFrom_eq l 0 [] (by simp) hl]
  simp

theorem commConnected_initPartition (edges : List Edge) (keys : List NodeId)
    (hl : keys.Nodup) : CommConnected edges keys (initPartition keys) := by
  refine ⟨keys_initPartition keys hl, ?_⟩
  intro u hu v hv huv
  have hkeys := keys_initPartition keys hl
  have hnd : ((initPartition keys).map Prod.fst).Nodup := by rw [hkeys]; exact hl
  have hgu := objGet_eq_some_commOf (initPartition keys) u (by rw [hkeys]; exact hu)
  have hgv := objGet_eq_some_commOf (initPartition keys) v (by rw [hkeys]; exact hv)
  have hmu : (u, commOf (initPartition keys) u) ∈ initPartition keys := by
    obtain ⟨e, he, rfl⟩ := List.mem_map.1 (by rw [hkeys]; exact hu :
      u ∈ (initPartition keys).map Prod.fst)
    have := objGet_of_mem_nodup (initPartition keys) hnd e he
    rw [hgu, Option.some.injEq] at this
    rw [this]
    exact he
  have hmv : (v, commOf (initPartition keys) v) ∈ initPartition keys := by
    obtain ⟨e, he, rfl⟩ := List.mem_map.1 (by rw [hkeys]; exact hv :
      v ∈ (initPartition keys).map Prod.fst)
    have := objGet_of_mem_nodup (initPartition keys) hnd e he
    rw [hgv, Option.some.injEq] at this
    rw [this]
    exact he
  have hsnd : ((initPartition keys).map Prod.snd).Nodup := by
    rw [initPartition_eq keys hl, List.map_map]
    have : (Prod.snd ∘ fun e : Nat × NodeId => (e.2, e.1)) = Prod.fst := by
      funext e
      rfl
    rw [this, List.enum_map_fst]
    exact List.nodup_range _
  have := List.inj_on_of_nodup_map hsnd hmu hmv huv
  rw [(Prod.mk.inj this).1]
  exact Relation.ReflTransGen.refl

/-! ## The greedy partitioner: the returned communities -/

theorem mem_membersOf (entries : List (NodeId × Nat)) (k : Nat) (y : NodeId) :
    y ∈ membersOf entries k ↔ (y, k) ∈ entries := by
  unfold membersOf
  simp only [List.mem_map, List.mem_filter, decide_eq_true_eq]
  constructor
  · rintro ⟨e, ⟨he, rfl⟩, rfl⟩
    exact he
  · intro h
    exact ⟨(y, k), ⟨h, rfl⟩, rfl⟩

theorem mem_partitionToCommunities (partition : JsObj Nat)
    (hnd : (partition.map Prod.fst).Nodup) (c : List NodeId)
    (hc : c ∈ partitionToCommunities partition) :
    ∃ k, (∃ y, (y, k) ∈ partition) ∧ ∀ y, y ∈ c ↔ (y, k) ∈ partition := by
  rw [partitionToCommunities_eq_groupAscending partition hnd] at hc
  obtain ⟨k, hk, rfl⟩ := List.mem_map.1 hc
  rw [mem_ascendingIds] at hk
  obtain ⟨e, he, rfl⟩ := List.mem_map.1 hk
  refine ⟨e.2, ⟨e.1, (objectEntries_perm partition).mem_iff.1 he⟩, fun y => ?_⟩
  rw [mem_membersOf, (objectEntries_perm partition).mem_iff]

theorem exists_partitionToCommunities (partition : JsObj Nat)
    (hnd : (partition.map Prod.fst).Nodup) (y : NodeId) (k : Nat)
    (h : (y, k) ∈ partition) :
    ∃ c ∈ partitionToCommunities partition, ∀ z, z ∈ c ↔ (z, k) ∈ partition := by
  rw [partitionToCommunities_eq_groupAscending partition hnd]
  refine ⟨membersOf (objectEntries partition) k, ?_, fun z => ?_⟩
  · apply List.mem_map.2
    refine ⟨k, ?_, rfl⟩
    rw [mem_ascendingIds]
    exact List.mem_map.2 ⟨(y, k), (objectEntries_perm partition).mem_iff.2 h, rfl⟩
  · rw [mem_membersOf, (objectEntries_perm partition).mem_iff]

theorem mem_partition_iff (partition : JsObj Nat) (hnd : (partition.map Prod.fst).Nodup)
    (y : NodeId) (k : Nat) :
    (y, k) ∈ partition ↔ y ∈ partition.map Prod.fst ∧ commOf partition y = k := by
  constructor
  · intro h
    have := objGet_of_mem_nodup partition hnd (y, k) h
    exact ⟨List.mem_map.2 ⟨(y, k), h, rfl⟩, by simp [commOf, this]⟩
  · rintro ⟨hy, rfl⟩
    obtain ⟨e, he, rfl⟩ := List.mem_map.1 hy
    have := objGet_of_mem_nodup partition hnd e he
    have hc : commOf partition e.1 = e.2 := by simp [commOf, this]
    rw [hc]
    exact he

theorem louvain_final (nodes : List NodeId) (edges : List Edge)
    (hE : EndpointsDeclared nodes edges) :
    ∃ adj, buildAdjacencyList nodes edges = some adj ∧
      (∀ u, neighbors adj u = incidentList edges u) ∧
      (objectKeys adj).Nodup ∧ (∀ x, x ∈ objectKeys adj ↔ x ∈ nodes) ∧
      louvainAlgorithm nodes edges = some (partitionToCommunities
        (louvainLoop adj (objectKeys adj) maxIterations (initPartition (objectKeys adj)))) ∧
      CommConnected edges (objectKeys adj)
        (louvainLoop adj (objectKeys adj) maxIterations (initPartition (objectKeys adj))) := by
  obtain ⟨adj, hadj⟩ := buildAdjacencyList_isSome nodes edges hE
  have hnb := neighbors_buildAdjacencyList nodes edges adj hadj
  have hkeys : (objectKeys adj).Nodup :=
    (objectKeys_perm adj).nodup_iff.2 (nodup_keys_buildAdjacencyList nodes edges adj hadj)
  have hmem : ∀ x, x ∈ objectKeys adj ↔ x ∈ nodes := fun x => by
    rw [(objectKeys_perm adj).mem_iff]
    exact mem_keys_buildAdjacencyList nodes edges adj hadj x
  refine ⟨adj, hadj, hnb, hkeys, hmem, by simp only [louvainAlgorithm, hadj], ?_⟩
  exact commConnected_louvainLoop adj edges nodes (objectKeys adj) hnb hE hmem maxIterations _
    (commConnected_initPartition edges (objectKeys adj) hkeys)

/-- C20: on a graph whose edge endpoints are declared nodes, however the greedy
loop ends, any two nodes that `louvainAlgorithm` places in the same community
are joined by a path of edges of the graph. -/
theorem louvainAlgorithm_within_component (nodes : List NodeId) (edges : List Edge)
    (hE : EndpointsDeclared nodes edges) :
    ∃ comms, louvainAlgorithm nodes edges = some comms ∧
      ∀ c ∈ comms, ∀ u ∈ c, ∀ v ∈ c, Connected edges u v := by
  obtain ⟨adj, _, _, hkeys, _, halg, hk, hconn⟩ := louvain_final nodes edges hE
  refine ⟨_, halg, ?_⟩
  intro c hc u hu v hv
  have hnd : ((louvainLoop adj (objectKeys adj) maxIterations
      (initPartition (objectKeys adj))).map Prod.fst).Nodup := by rw [hk]; exact hkeys
  obtain ⟨k, _, hmem⟩ := mem_partitionToCommunities _ hnd c hc
  obtain ⟨hu1, hu2⟩ := (mem_partition_iff _ hnd u k).1 ((hmem u).1 hu)
  obtain ⟨hv1, hv2⟩ := (mem_partition_iff _ hnd v k).1 ((hmem v).1 hv)
  rw [hk] at hu1 hv1
  exact hconn u hu1 v hv1 (hu2.trans hv2.symm)

/-! ## The greedy partitioner at a fixed point -/

theorem louvainRun_fst (adjacency : JsObj (List NodeId)) (nodes : List NodeId) (k : Nat)
    (partition : JsObj Nat) :
    (louvainRun adjacency nodes k partition).1 = louvainLoop adjacency nodes k partition := by
  induction k generalizing partition with
  | zero => rfl
  | succ k ih =>
    simp only [louvainRun, louvainLoop]
    split
    · exact ih _
    · rfl

theorem louvainPass_fold_false (adjacency : JsObj (List NodeId)) (l : List NodeId)
    (partition : JsObj Nat) (b : Bool)
    (hkeys : ∀ node ∈ l, ∀ nb ∈ neighbors adjacency node, nb ∈ partition.map Prod.fst)
    (h : (l.foldl (fun (st : JsObj Nat × Bool) node =>
        let r := louvainNode adjacency st.1 node
        (r.1, st.2 || r.2)) (partition, b)).2 = false) :
    b = false ∧
      (l.foldl (fun (st : JsObj Nat × Bool) node =>
        let r := louvainNode adjacency st.1 node
        (r.1, st.2 || r.2)) (partition, b)).1 = partition ∧
      ∀ node ∈ l, ∀ nb ∈ neighbors adjacency node,
        commOf partition nb = commOf partition node := by
  induction l generalizing partition b with
  | nil => exact ⟨h, rfl, by simp⟩
  | cons n t ih =>
    rw [List.foldl_cons] at h ⊢
    simp only at h ⊢
    by_cases hflag : (louvainNode adjacency partition n).2 = false
    · obtain ⟨hst, hnbs⟩ := louvainNode_stays adjacency partition n
        (hkeys n (List.mem_cons_self n t)) hflag
      rw [hst] at h ⊢
      simp only [Bool.or_false] at h ⊢
      obtain ⟨h1, h2, h3⟩ := ih partition b
        (fun node hn => hkeys node (List.mem_cons_of_mem n hn)) h
      refine ⟨h1, h2, ?_⟩
      intro node hn
      rcases List.mem_cons.1 hn with rfl | hn1
      · exact hnbs
      · exact h3 node hn1
    · exfalso
      have htrue : (louvainNode adjacency partition n).2 = true := by
        cases hq : (louvainNode adjacency partition n).2
        · exact absurd hq hflag
        · rfl
      rw [htrue, Bool.or_true] at h
      have hgen : ∀ (l : List NodeId) (p : JsObj Nat),
          (l.foldl (fun (st : JsObj Nat × Bool) node =>
            let r := louvainNode adjacency st.1 node
            (r.1, st.2 || r.2)) (p, true)).2 = true := by
        intro l
        induction l with
        | nil => intro p; rfl
        | cons x xs ihx =>
          intro p
          rw [List.foldl_cons]
          simp only [Bool.true_or]
          exact ihx _
      rw [hgen] at h
      exact Bool.noConfusion h

theorem louvainRun_stable (adjacency : JsObj (List NodeId)) (keys : List NodeId)
    (hnbk : ∀ node ∈ keys, ∀ nb ∈ neighbors adjacency node, nb ∈ keys)
    (k : Nat) (partition : JsObj Nat) (hp : partition.map Prod.fst = keys)
    (h : (louvainRun adjacency keys k partition).2 = false) :
    CommStable adjacency keys (louvainRun adjacency keys k partition).1 := by
  induction k generalizing partition with
  | zero =>
    simp only [louvainRun] at h
    exact Bool.noConfusion h
  | succ k ih =>
    simp only [louvainRun] at h ⊢
    by_cases hflag : (louvainPass adjacency keys partition).2 = true
    · rw [if_pos hflag] at h ⊢
      exact ih _ ((keys_louvainPass adjacency keys partition
        (fun n hn => by rw [hp]; exact hn)).trans hp) h
    · rw [if_neg hflag]
      have hfalse : (louvainPass adjacency keys partition).2 = false := by
        cases hq : (louvainPass adjacency keys partition).2
        · rfl
        · exact absurd hq hflag
      obtain ⟨_, h2, h3⟩ := louvainPass_fold_false adjacency keys partition false
        (fun node hn nb hnb => by rw [hp]; exact hnbk node hn nb hnb) hfalse
      show CommStable adjacency keys (louvainPass adjacency keys partition).1
      unfold louvainPass
      rw [h2]
      exact h3

theorem stable_of_connected (adjacency : JsObj (List NodeId)) (edges : List Edge)
    (nodes keys : List NodeId) (hnb : ∀ u, neighbors adjacency u = incidentList edges u)
    (hE : EndpointsDeclared nodes edges) (hk : ∀ x, x ∈ keys ↔ x ∈ nodes)
    (partition : JsObj Nat) (hst : CommStable adjacency keys partition)
    (u v : NodeId) (hu : u ∈ keys) (huv : Connected edges u v) :
    commOf partition u = commOf partition v := by
  unfold Connected at huv
  induction huv with
  | refl => rfl
  | @tail b c hub hbc ih =>
    have hb : b ∈ keys := (hk b).2 (connected_mem_nodes nodes edges hE u b hub ((hk u).1 hu))
    have hc : c ∈ neighbors adjacency b := by
      rw [hnb b]
      exact (mem_incidentList edges b c).2 hbc
    rw [ih, hst b hb c hc]

theorem order_louvainImproved : louvainImproved orderNodes orderEdges = some false := by
  decide!

/-- C19: on a graph whose edge endpoints are declared nodes, if the loop of the
greedy partitioner ends because a full pass made no reassignment, then the
communities returned by `louvainAlgorithm` are exactly the connected components
returned by `findConnectedComponents`: each community has the same members as
one component, and each component the same members as one community. -/
theorem louvainAlgorithm_fixed_point (nodes : List NodeId) (edges : List Edge)
    (hE : EndpointsDeclared nodes edges)
    (hstop : louvainImproved nodes edges = some false) :
    ∃ comms comps, louvainAlgorithm nodes edges = some comms ∧
      findConnectedComponents nodes edges = some comps ∧
      (∀ c ∈ comms, ∃ d ∈ comps, ∀ x, x ∈ c ↔ x ∈ d) ∧
      ∀ d ∈ comps, ∃ c ∈ comms, ∀ x, x ∈ d ↔ x ∈ c := by
  obtain ⟨adj, hadj, hnb, hkeys, hk, halg, hp, hconn⟩ := louvain_final nodes edges hE
  obtain ⟨comps, hcomps, ⟨_, _, hcnt⟩, hcls⟩ := findConnectedComponents_spec nodes edges hE
  have hnbk : ∀ node ∈ objectKeys adj, ∀ nb ∈ neighbors adj node, nb ∈ objectKeys adj := by
    intro node hn nb hnbm
    rw [hnb node] at hnbm
    exact (hk nb).2 (connected_mem_nodes nodes edges hE node nb
      (Relation.ReflTransGen.single ((mem_incidentList edges node nb).1 hnbm))
      ((hk node).1 hn))
  have hflag : (louvainRun adj (objectKeys adj) maxIterations
      (initPartition (objectKeys adj))).2 = false := by
    simp only [louvainImproved, hadj, Option.some.injEq] at hstop
    exact hstop
  have hst := louvainRun_stable adj (objectKeys adj) hnbk maxIterations
    (initPartition (objectKeys adj)) (keys_initPartition (objectKeys adj) hkeys) hflag
  rw [louvainRun_fst] at hst
  generalize louvainLoop adj (objectKeys adj) maxIterations
    (initPartition (objectKeys adj)) = final at halg hp hconn hst
  have hnd : (final.map Prod.fst).Nodup := by rw [hp]; exact hkeys
  have hclass : ∀ s ∈ objectKeys adj, ∀ z,
      (z, commOf final s) ∈ final ↔ Connected edges s z := by
    intro s hs z
    rw [mem_partition_iff final hnd z (commOf final s), hp]
    constructor
    · rintro ⟨hz, hc⟩
      exact hconn s hs z hz hc.symm
    · intro hsz
      exact ⟨(hk z).2 (connected_mem_nodes nodes edges hE s z hsz ((hk s).1 hs)),
        (stable_of_connected adj edges nodes (objectKeys adj) hnb hE hk final hst s z hs
          hsz).symm⟩
  refine ⟨_, comps, halg, hcomps, ?_, ?_⟩
  · intro c hc
    obtain ⟨k, ⟨y, hy⟩, hmem⟩ := mem_partitionToCommunities final hnd c hc
    obtain ⟨hy1, hy2⟩ := (mem_partition_iff final hnd y k).1 hy
    rw [hp] at hy1
    have hpos : 0 < comps.countP (fun d => decide (y ∈ d)) := by
      rw [hcnt y ((hk y).1 hy1)]
      exact Nat.one_pos
    obtain ⟨d, hd, hyd⟩ := List.countP_pos_iff.1 hpos
    have hyd1 : y ∈ d := by simpa using hyd
    obtain ⟨s, _, hx⟩ := hcls d hd
    refine ⟨d, hd, fun x => ?_⟩
    rw [hmem x, ← hy2, hclass y hy1 x, hx x]
    have hsy : Connected edges s y := (hx y).1 hyd1
    constructor
    · exact fun h => Relation.ReflTransGen.trans hsy h
    · exact fun h => Relation.ReflTransGen.trans (connected_symm edges s y hsy) h
  · intro d hd
    obtain ⟨s, hs, hx⟩ := hcls d hd
    have hsk : s ∈ objectKeys adj := (hk s).2 hs
    have hmem : (s, commOf final s) ∈ final :=
      (hclass s hsk s).2 Relation.ReflTransGen.refl
    obtain ⟨c, hc, hz⟩ := exists_partitionToCommunities final hnd s (commOf final s) hmem
    exact ⟨c, hc, fun x => by rw [hx x, hz x, hclass s hsk x]⟩

/-- C15: the density that `displayAnalysis` computes for a community, before
formatting, is `internal / (size * (size - 1) / 2)` when the community has at
least 2 members and 0 otherwise; a community of 3 members with 2 internal edges
has density `2/3`. -/
theorem analysisRow_density :
    (∀ (adj : JsObj (List NodeId)) (comm : List NodeId),
      (analysisRow adj comm).density
        = if 2 ≤ comm.length then
            (internalCount adj comm : ℚ)
              / ((comm.length : ℚ) * ((comm.length : ℚ) - 1) / 2)
          else 0) ∧
      densityValue 2 3 = 2 / 3 := by
  refine ⟨fun adj comm => densityValue_eq _ _, ?_⟩
  rw [densityValue_eq]
  norm_num

/-! ## The theorems of the analysis, the order and the greedy loop at concrete inputs -/

/-- C11 at the scenario graph. -/
theorem displayAnalysis_internal_witness :
    EndpointsDeclared scenarioNodes scenarioEdges ∧ NoSelfLoops scenarioEdges ∧
      NoRepeatedEdges scenarioEdges ∧
      (∀ c ∈ [["B"], ["A", "C", "D", "E"]], c.Nodup ∧ ∀ v ∈ c, v ∈ scenarioNodes) ∧
      ∃ rows, displayAnalysis scenarioNodes scenarioEdges [["B"], ["A", "C", "D", "E"]]
          = some rows ∧
        rows.map (fun r => r.internal)
          = [["B"], ["A", "C", "D", "E"]].map (insideEdges scenarioEdges) :=
  ⟨by decide, by decide, by decide, by decide,
    displayAnalysis_internal scenarioNodes scenarioEdges [["B"], ["A", "C", "D", "E"]]
      (by decide) (by decide) (by decide) (by decide)⟩

/-- C12 at the scenario graph. -/
theorem buildAdjacencyList_spec_witness :
    scenarioNodes.Nodup ∧ EndpointsDeclared scenarioNodes scenarioEdges ∧
      ∃ adj, buildAdjacencyList scenarioNodes scenarioEdges = some adj ∧
        adj.map Prod.fst = scenarioNodes ∧
        (∀ u ∈ scenarioNodes, objGet adj u = some (incidentList scenarioEdges u)) ∧
        (∀ u ∈ scenarioNodes, (∀ e ∈ scenarioEdges, e.from_ ≠ u ∧ e.to_ ≠ u) →
          objGet adj u = some []) ∧
        (adj.map (fun e => e.2.length)).sum = 2 * scenarioEdges.length :=
  ⟨by decide, by decide,
    buildAdjacencyList_spec scenarioNodes scenarioEdges (by decide) (by decide)⟩

/-- C13 with an empty partition on the scenario graph. -/
theorem calculateModularity_guard_witness :
    (([] : List (List NodeId)) = [] ∨ scenarioEdges = []) ∧
      calculateModularity scenarioNodes scenarioEdges [] = some 0 :=
  ⟨Or.inl rfl, calculateModularity_guard scenarioNodes scenarioEdges [] (Or.inl rfl)⟩

/-- C14 at the nodes of the scenario. -/
theorem findConnectedComponents_noEdges_witness :
    scenarioNodes.Nodup ∧
      findConnectedComponents scenarioNodes [] = some (scenarioNodes.map (fun n => [n])) :=
  ⟨by decide, findConnectedComponents_noEdges scenarioNodes (by decide)⟩

/-- C16 (amended) at the scenario graph. -/
theorem calculateModularity_near_standard_witness :
    0 < scenarioEdges.length ∧ EndpointsDeclared scenarioNodes scenarioEdges ∧
      NoSelfLoops scenarioEdges ∧ NoRepeatedEdges scenarioEdges ∧
      (∀ c ∈ [["B"], ["A", "C", "D", "E"]], c.Nodup ∧ ∀ v ∈ c, v ∈ scenarioNodes) ∧
      ∃ q, calculateModularity scenarioNodes scenarioEdges [["B"], ["A", "C", "D", "E"]]
          = some q ∧
        |q - standardModularity scenarioEdges [["B"], ["A", "C", "D", "E"]]|
          ≤ ((1 + unitRoundoff) ^ (summandCount [["B"], ["A", "C", "D", "E"]] + 8) - 1)
            * standardMagnitude scenarioEdges [["B"], ["A", "C", "D", "E"]] ∧
        (summandCount [["B"], ["A", "C", "D", "E"]] + 8 ≤ 2 ^ 52 →
          |q - standardModularity scenarioEdges [["B"], ["A", "C", "D", "E"]]|
            ≤ ((summandCount [["B"], ["A", "C", "D", "E"]] + 8 : Nat) : ℚ) / 2 ^ 52
              * standardMagnitude scenarioEdges [["B"], ["A", "C", "D", "E"]]) :=
  ⟨by decide, by decide, by decide, by decide, by decide,
    calculateModularity_near_standard scenarioNodes scenarioEdges
      [["B"], ["A", "C", "D", "E"]] (by decide) (by decide) (by decide) (by decide)
      (by decide)⟩

/-- C17 (amended) at the final partition object of the scenario. -/
theorem partitionToCommunities_ascending_witness :
    (scenarioEven.map Prod.fst).Nodup ∧
      partitionToCommunities scenarioEven = groupAscending (objectEntries scenarioEven) :=
  ⟨by decide, partitionToCommunities_ascending scenarioEven (by decide)⟩

theorem tail_calculateEdgeBetweenness :
    calculateEdgeBetweenness scenarioNodes tailEdges
      = some [("A-B", 2), ("B-C", 4), ("A-C", 4), ("C-D", 5), ("D-E", 5)] := by decide!

theorem tail_accumulatedScore :
    tailEdges.map
        (accumulatedScore [("A-B", 2), ("B-C", 4), ("A-C", 4), ("C-D", 5), ("D-E", 5)])
      = [2, 4, 4, 5, 5] := by decide

theorem tail_removeStep :
    removeStep scenarioNodes tailEdges
      = some [⟨"A", "B"⟩, ⟨"B", "C"⟩, ⟨"A", "C"⟩, ⟨"D", "E"⟩] := by
  have h : selectEdgeToRemove tailEdges
      [("A-B", 2), ("B-C", 4), ("A-C", 4), ("C-D", 5), ("D-E", 5)] = 3 := by decide
  simp only [removeStep, tail_calculateEdgeBetweenness, h]
  rfl

theorem tail_findConnectedComponents :
    findConnectedComponents scenarioNodes tailEdges = some [scenarioNodes] := by decide!

theorem tail_girvanNewmanAlgorithm :
    girvanNewmanAlgorithm scenarioNodes tailEdges
      = some [["A", "B", "C"], ["D", "E"]] := by decide!

/-- C18 at the triangle with a tail: the counts are 2, 4, 4, 5, 5, the single
component is below the target of 2 communities, so the iteration does not
return, and the edge `C–D` at index 3 is removed. -/
theorem removeStep_selects_witness :
    EndpointsDeclared scenarioNodes tailEdges ∧ tailEdges ≠ [] ∧
      (∃ betweenness pre e post,
        calculateEdgeBetweenness scenarioNodes tailEdges = some betweenness ∧
        (∀ x ∈ tailEdges, ∃ n, objGet betweenness (x.from_ ++ "-" ++ x.to_) = some n) ∧
        tailEdges = pre ++ e :: post ∧
        selectEdgeToRemove tailEdges betweenness = pre.length ∧
        (∀ x ∈ pre, accumulatedScore betweenness x < accumulatedScore betweenness e) ∧
        (∀ x ∈ post, accumulatedScore betweenness x ≤ accumulatedScore betweenness e) ∧
        removeStep scenarioNodes tailEdges = some (pre ++ post) ∧
        ∀ fuel components,
          findConnectedComponents scenarioNodes tailEdges = some components →
          ¬ components.length ≥ targetCommunities scenarioNodes →
          girvanNewmanLoop scenarioNodes (fuel + 1) tailEdges
            = girvanNewmanLoop scenarioNodes fuel (pre ++ post)) ∧
      calculateEdgeBetweenness scenarioNodes tailEdges
        = some [("A-B", 2), ("B-C", 4), ("A-C", 4), ("C-D", 5), ("D-E", 5)] ∧
      tailEdges.map
          (accumulatedScore [("A-B", 2), ("B-C", 4), ("A-C", 4), ("C-D", 5), ("D-E", 5)])
        = [2, 4, 4, 5, 5] ∧
      findConnectedComponents scenarioNodes tailEdges = some [scenarioNodes] ∧
      targetCommunities scenarioNodes = 2 ∧
      removeStep scenarioNodes tailEdges
        = some [⟨"A", "B"⟩, ⟨"B", "C"⟩, ⟨"A", "C"⟩, ⟨"D", "E"⟩] ∧
      girvanNewmanAlgorithm scenarioNodes tailEdges
        = some [["A", "B", "C"], ["D", "E"]] :=
  ⟨by decide, by decide, removeStep_selects scenarioNodes tailEdges (by decide) (by decide),
    tail_calculateEdgeBetweenness, tail_accumulatedScore, tail_findConnectedComponents,
    by decide, tail_removeStep, tail_girvanNewmanAlgorithm⟩

/-- C19 at the graph `A–C` with the isolated node `B`, where the second pass
makes no reassignment. -/
theorem louvainAlgorithm_fixed_point_witness :
    EndpointsDeclared orderNodes orderEdges ∧
      louvainImproved orderNodes orderEdges = some false ∧
      ∃ comms comps, louvainAlgorithm orderNodes orderEdges = some comms ∧
        findConnectedComponents orderNodes orderEdges = some comps ∧
        (∀ c ∈ comms, ∃ d ∈ comps, ∀ x, x ∈ c ↔ x ∈ d) ∧
        ∀ d ∈ comps, ∃ c ∈ comms, ∀ x, x ∈ d ↔ x ∈ c :=
  ⟨by decide, order_louvainImproved,
    louvainAlgorithm_fixed_point orderNodes orderEdges (by decide) order_louvainImproved⟩

/-- C20 at the scenario graph. -/
theorem louvainAlgorithm_within_component_witness :
    EndpointsDeclared scenarioNodes scenarioEdges ∧
      ∃ comms, louvainAlgorithm scenarioNodes scenarioEdges = some comms ∧
        ∀ c ∈ comms, ∀ u ∈ c, ∀ v ∈ c, Connected scenarioEdges u v :=
  ⟨by decide, louvainAlgorithm_within_component scenarioNodes scenarioEdges (by decide)⟩

end CommunityDetection
